import Mathlib

/-!
Geohash: a shallow embedding of `geohash.go`.

The Go package encodes latitude/longitude pairs as base-32 geohash strings,
decodes geohashes to bounding boxes and computes neighbouring cells.

Modelling conventions:

* a Go `string` / `[]byte` is the list of its bytes, each byte a `Char`
  (`GoString`); the development covers ASCII input, for which
  `strings.ToLower` maps exactly `A`..`Z` to `a`..`z`. For input bytes of
  any kind `CalculateAdjacentWith` is `CalculateAdjacent` with the
  lower-casing function as a parameter;
* the numeric code is embedded twice. `Decode`, `EncodeWithPrecision` and
  `Encode` compute in exact rationals (`ℚ`), the arithmetic in which the
  specification reasons. `Decode64`, `EncodeWithPrecision64` and `Encode64`
  compute in IEEE-754 binary64 as the Go code does: a finite `float64` is
  the integer number of units of `2 ^ -1074` it equals, a sum is rounded to
  nearest with ties to even, and no operand exceeds 360, so nothing
  overflows. The two agree as long as every midpoint is representable:
  `Decode64` returns the box of `Decode` on geohashes of at most 18
  characters (`Decode64_exact`; the corners agree up to 19 characters,
  `decodeFold64_rat`) and `EncodeWithPrecision64` returns what
  `EncodeWithPrecision` returns up to precision 19
  (`EncodeWithPrecision64_exact`);
* Go `int` is `Int`; the bitwise operators `&` and `|` act on the 64-bit
  two's complement representation;
* a run-time panic (slice bounds, index out of range) is an `Except.error`.
-/

namespace Geohash

/-! ## Go primitives -/

/-- Run-time panics the program can raise. -/
inductive Fault where
  | sliceBounds
  | indexRange
  deriving DecidableEq, Repr

deriving instance DecidableEq for Except

/-- A Go string, as its sequence of bytes. -/
abbrev GoString := List Char

/-- The two's complement bit pattern of a Go `int` (64 bits). -/
def toUnsigned (a : Int) : Nat := (a % 2 ^ 64).toNat

/-- The Go `int` denoted by a 64-bit pattern. -/
def toSigned (n : Nat) : Int := if n < 2 ^ 63 then (n : Int) else (n : Int) - 2 ^ 64

/-- Go `a & b` on `int`. -/
def intAnd (a b : Int) : Int := toSigned (Nat.land (toUnsigned a) (toUnsigned b))

/-- Go `a | b` on `int`. -/
def intOr (a b : Int) : Int := toSigned (Nat.lor (toUnsigned a) (toUnsigned b))

/-- Go `xs[i]`: panics when `i` is out of range. -/
def goIndex {α : Type} (xs : List α) (i : Int) : Except Fault α :=
  if i < 0 then Except.error Fault.indexRange
  else
    match xs.get? i.toNat with
    | some x => Except.ok x
    | none => Except.error Fault.indexRange

/-- Go `s[i:]`: panics unless `0 ≤ i ≤ len(s)`. -/
def sliceFrom (s : GoString) (i : Int) : Except Fault GoString :=
  if i < 0 ∨ (s.length : Int) < i then Except.error Fault.sliceBounds
  else Except.ok (s.drop i.toNat)

/-- Go `s[:j]`: panics unless `0 ≤ j ≤ len(s)`. -/
def sliceTo (s : GoString) (j : Int) : Except Fault GoString :=
  if j < 0 ∨ (s.length : Int) < j then Except.error Fault.sliceBounds
  else Except.ok (s.take j.toNat)

/-- Go `s[i:j]`: panics unless `0 ≤ i ≤ j ≤ len(s)`. -/
def slice (s : GoString) (i j : Int) : Except Fault GoString :=
  if i < 0 ∨ j < i ∨ (s.length : Int) < j then Except.error Fault.sliceBounds
  else Except.ok ((s.take j.toNat).drop i.toNat)

/-- Search for the first occurrence of `sub` in `s`, counting positions from `i`. -/
def indexFrom (sub : GoString) : GoString → Nat → Int
  | [], i => if sub = [] then (i : Int) else -1
  | c :: t, i => if sub.isPrefixOf (c :: t) then (i : Int) else indexFrom sub t (i + 1)

/-- Go `strings.Index(s, sub)` and `bytes.Index(s, sub)`: the position of the
first occurrence of `sub` in `s`, or `-1`. -/
def stringsIndex (s sub : GoString) : Int := indexFrom sub s 0

/-- Go `strings.ToLower` on ASCII input. -/
def toLower (s : GoString) : GoString := s.map Char.toLower

/-! ## Package-level tables -/

def bits : List Int := [16, 8, 4, 2, 1]

def base32 : GoString := "0123456789bcdefghjkmnpqrstuvwxyz".toList

def neighbors : List (List GoString) :=
  [ [ "p0r21436x8zb9dcf5h7kjnmqesgutwvy".toList,
      "bc01fg45238967deuvhjyznpkmstqrwx".toList ],
    [ "bc01fg45238967deuvhjyznpkmstqrwx".toList,
      "p0r21436x8zb9dcf5h7kjnmqesgutwvy".toList ],
    [ "14365h7k9dcfesgujnmqp0r2twvyx8zb".toList,
      "238967debc01fg45kmstqrwxuvhjyznp".toList ],
    [ "238967debc01fg45kmstqrwxuvhjyznp".toList,
      "14365h7k9dcfesgujnmqp0r2twvyx8zb".toList ] ]

def borders : List (List GoString) :=
  [ [ "prxz".toList, "bcfguvyz".toList ],
    [ "bcfguvyz".toList, "prxz".toList ],
    [ "028b".toList, "0145hjnp".toList ],
    [ "0145hjnp".toList, "028b".toList ] ]

/-! ## Adjacency -/

/-- The `switch dir` of `CalculateAdjacent`: every string other than
`"right"`, `"bottom"`, `"left"` takes the `default` branch. -/
def dirIndex (dir : String) : Int :=
  if dir = "right" then 1
  else if dir = "bottom" then 2
  else if dir = "left" then 3
  else 0

/-- `CalculateAdjacent(s, dir)`. -/
def CalculateAdjacent (s : GoString) (dir : String) : Except Fault GoString :=
  match sliceFrom (toLower s) (((toLower s).length : Int) - 1) with
  | Except.error e => Except.error e
  | Except.ok lastChr =>
    let oddEven : Int := ((toLower s).length : Int) % 2
    let dirInt : Int := dirIndex dir
    match hb : sliceTo (toLower s) (((toLower s).length : Int) - 1) with
    | Except.error e => Except.error e
    | Except.ok base => do
      let borderRow ← goIndex borders dirInt
      let border ← goIndex borderRow oddEven
      let base ← (if stringsIndex border lastChr ≠ -1 then CalculateAdjacent base dir
                  else pure base)
      let neighborRow ← goIndex neighbors dirInt
      let neighbor ← goIndex neighborRow oddEven
      let c ← goIndex base32 (stringsIndex neighbor lastChr)
      pure (base ++ [c])
termination_by s.length
decreasing_by
  unfold sliceTo at hb
  split at hb
  · cases hb
  · injection hb with hb
    subst hb
    simp only [toLower, List.length_map, List.length_take] at *
    omega

/-- The loop body of `CalculateAllAdjacent` for one direction. -/
def allAdjacentStep (s : GoString) (values : List GoString) (direction : String) :
    Except Fault (List GoString) := do
  let neighbour ← CalculateAdjacent s direction
  let values := values ++ [neighbour]
  if direction = "top" ∨ direction = "bottom" then do
    let r ← CalculateAdjacent neighbour "right"
    let values := values ++ [r]
    let l ← CalculateAdjacent neighbour "left"
    pure (values ++ [l])
  else
    pure values

/-- `CalculateAllAdjacent(s)`. -/
def CalculateAllAdjacent (s : GoString) : Except Fault (List GoString) :=
  ["top", "right", "bottom", "left"].foldlM (allAdjacentStep s) []

/-! ## Bounding boxes and decoding -/

structure LatLng where
  lat : ℚ
  lng : ℚ
  deriving DecidableEq, Repr

structure BoundingBox where
  sw : LatLng
  ne : LatLng
  center : LatLng
  deriving DecidableEq, Repr

/-- `refineInterval(interval, cd, mask)`; the two-element slice is a pair. -/
def refineInterval (interval : ℚ × ℚ) (cd mask : Int) : ℚ × ℚ :=
  if intAnd cd mask > 0 then
    ((interval.1 + interval.2) / 2, interval.2)
  else
    (interval.1, (interval.1 + interval.2) / 2)

/-- The local variables of `Decode` that live across loop iterations. -/
structure DecodeState where
  isEven : Bool
  lat : ℚ × ℚ
  lng : ℚ × ℚ
  latErr : ℚ
  lngErr : ℚ
  deriving DecidableEq, Repr

/-- One pass through the body of the inner loop `for j := 0; j < 5; j++`. -/
def decodeBit (cd : Int) (st : DecodeState) (j : Int) : Except Fault DecodeState := do
  let mask ← goIndex bits j
  if st.isEven then
    pure { st with lngErr := st.lngErr / 2, lng := refineInterval st.lng cd mask,
                   isEven := !st.isEven }
  else
    pure { st with latErr := st.latErr / 2, lat := refineInterval st.lat cd mask,
                   isEven := !st.isEven }

/-- The outer loop `for i := 0; i < len(geohash); i++` of `Decode`, with `n`
iterations left to run from index `i`. -/
def decodeLoop (geohash : GoString) : Nat → Int → DecodeState → Except Fault DecodeState
  | 0, _, st => pure st
  | n + 1, i, st => do
    let c ← slice geohash i (i + 1)
    let cd := stringsIndex base32 c
    let st ← [0, 1, 2, 3, 4].foldlM (decodeBit cd) st
    decodeLoop geohash n (i + 1) st

/-- The state `Decode` starts from. -/
def decodeInit : DecodeState :=
  { isEven := true, lat := (-90, 90), lng := (-180, 180), latErr := 90, lngErr := 180 }

/-- `Decode(geohash)`. -/
def Decode (geohash : GoString) : Except Fault BoundingBox := do
  let st ← decodeLoop geohash geohash.length 0 decodeInit
  pure { sw := { lat := st.lat.1, lng := st.lng.1 },
         ne := { lat := st.lat.2, lng := st.lng.2 },
         center := { lat := (st.lat.1 + st.lat.2) / 2, lng := (st.lng.1 + st.lng.2) / 2 } }

/-! ## Encoding -/

/-- Lines 196-212 of `EncodeWithPrecision`: bisect the longitude interval
(`isEven`) or the latitude interval, setting bit `bit` of `ch` when the
coordinate is strictly above the midpoint. Returns the new `lat`, `lng`, `ch`. -/
def encodeBisect (latitude longitude : ℚ) (isEven : Bool) (lat lng : ℚ × ℚ) (bit ch : Int) :
    Except Fault ((ℚ × ℚ) × (ℚ × ℚ) × Int) :=
  if isEven then
    let mid := (lng.1 + lng.2) / 2
    if longitude > mid then do
      let m ← goIndex bits bit
      pure (lat, (mid, lng.2), intOr ch m)
    else
      pure (lat, (lng.1, mid), ch)
  else
    let mid := (lat.1 + lat.2) / 2
    if latitude > mid then do
      let m ← goIndex bits bit
      pure ((mid, lat.2), lng, intOr ch m)
    else
      pure ((lat.1, mid), lng, ch)

/-- The loop `for geohash.Len() < precision` of `EncodeWithPrecision`, started
from the given values of the local variables. -/
def encodeLoop (latitude longitude : ℚ) (precision : Int) (isEven : Bool) (lat lng : ℚ × ℚ)
    (bit ch : Int) (geohash : GoString) : Except Fault GoString :=
  if (geohash.length : Int) < precision then
    match encodeBisect latitude longitude isEven lat lng bit ch with
    | Except.error e => Except.error e
    | Except.ok (lat1, lng1, ch1) =>
      if bit < 4 then
        encodeLoop latitude longitude precision (!isEven) lat1 lng1 (bit + 1) ch1 geohash
      else
        match goIndex base32 ch1 with
        | Except.error e => Except.error e
        | Except.ok b =>
          encodeLoop latitude longitude precision (!isEven) lat1 lng1 0 0 (geohash ++ [b])
  else
    Except.ok geohash
termination_by (5 * (precision - geohash.length) + 4 - min bit 4).toNat
decreasing_by
  · omega
  · simp only [List.length_append, List.length_singleton, Nat.cast_add, Nat.cast_one]
    omega

/-- `EncodeWithPrecision(latitude, longitude, precision)`. -/
def EncodeWithPrecision (latitude longitude : ℚ) (precision : Int) : Except Fault GoString :=
  encodeLoop latitude longitude precision true (-90, 90) (-180, 180) 0 0 []

/-- One step of the binary search for the exponent of a `float64`. -/
def f64ExpStep (a s b : Nat) : Nat := if 2 ^ (52 + s + b) ≤ a then s + b else s

/-- The largest `s` with `2 ^ (52 + s) ≤ a`, and 0 when `a < 2 ^ 53`: the
`float64` values around `a` units are the multiples of `2 ^ s` units. -/
def f64Exp (a : Nat) : Nat :=
  [1024, 512, 256, 128, 64, 32, 16, 8, 4, 2, 1].foldl (f64ExpStep a) 0

/-- Round `a` units to 53 significant bits: to nearest, ties to even. -/
def f64RoundNat (a : Nat) : Nat :=
  let q := 2 ^ f64Exp a
  let k := a / q
  let r := a % q
  (if q < 2 * r ∨ (2 * r = q ∧ k % 2 = 1) then k + 1 else k) * q

/-- The `float64` nearest to `n` units. -/
def f64Round (n : Int) : Int :=
  if n < 0 then -(f64RoundNat n.natAbs : Int) else (f64RoundNat n.natAbs : Int)

/-- The `float64` quotient `x / 2`: exact unless `x` is an odd number of
units, when the quotient is rounded to the even neighbour. -/
def f64Half (n : Int) : Int :=
  if n % 2 = 0 then n / 2 else if (n / 2) % 2 = 0 then n / 2 else n / 2 + 1

/-- The `float64` expression `(lo + hi) / 2`. -/
def f64Mid (lo hi : Int) : Int := f64Half (f64Round (lo + hi))

/-- The `float64` with integer value `z`. -/
def f64OfInt (z : Int) : Int := z * 2 ^ 1074

/-- The rational value of a `float64`. -/
def f64ToRat (n : Int) : ℚ := (n : ℚ) / 2 ^ 1074

/-! ## Decoding and encoding in float64 -/

structure LatLng64 where
  lat : Int
  lng : Int
  deriving DecidableEq, Repr

structure BoundingBox64 where
  sw : LatLng64
  ne : LatLng64
  center : LatLng64
  deriving DecidableEq, Repr

/-- `refineInterval(interval, cd, mask)` on `float64` values. -/
def refineInterval64 (interval : Int × Int) (cd mask : Int) : Int × Int :=
  if intAnd cd mask > 0 then
    (f64Mid interval.1 interval.2, interval.2)
  else
    (interval.1, f64Mid interval.1 interval.2)

/-- The local variables of `Decode` that live across loop iterations. -/
structure DecodeState64 where
  isEven : Bool
  lat : Int × Int
  lng : Int × Int
  latErr : Int
  lngErr : Int
  deriving DecidableEq, Repr

/-- One pass through the body of the inner loop `for j := 0; j < 5; j++`. -/
def decodeBit64 (cd : Int) (st : DecodeState64) (j : Int) : Except Fault DecodeState64 := do
  let mask ← goIndex bits j
  if st.isEven then
    pure { st with lngErr := f64Half st.lngErr, lng := refineInterval64 st.lng cd mask,
                   isEven := !st.isEven }
  else
    pure { st with latErr := f64Half st.latErr, lat := refineInterval64 st.lat cd mask,
                   isEven := !st.isEven }

/-- The outer loop `for i := 0; i < len(geohash); i++` of `Decode`, with `n`
iterations left to run from index `i`. -/
def decodeLoop64 (geohash : GoString) : Nat → Int → DecodeState64 → Except Fault DecodeState64
  | 0, _, st => pure st
  | n + 1, i, st => do
    let c ← slice geohash i (i + 1)
    let cd := stringsIndex base32 c
    let st ← [0, 1, 2, 3, 4].foldlM (decodeBit64 cd) st
    decodeLoop64 geohash n (i + 1) st

/-- The state `Decode` starts from. -/
def decodeInit64 : DecodeState64 :=
  { isEven := true, lat := (f64OfInt (-90), f64OfInt 90),
    lng := (f64OfInt (-180), f64OfInt 180), latErr := f64OfInt 90, lngErr := f64OfInt 180 }

/-- `Decode(geohash)` in `float64`. -/
def Decode64 (geohash : GoString) : Except Fault BoundingBox64 := do
  let st ← decodeLoop64 geohash geohash.length 0 decodeInit64
  pure { sw := { lat := st.lat.1, lng := st.lng.1 },
         ne := { lat := st.lat.2, lng := st.lng.2 },
         center := { lat := f64Mid st.lat.1 st.lat.2, lng := f64Mid st.lng.1 st.lng.2 } }

/-- Lines 196-212 of `EncodeWithPrecision` on `float64` values. -/
def encodeBisect64 (latitude longitude : Int) (isEven : Bool) (lat lng : Int × Int)
    (bit ch : Int) : Except Fault ((Int × Int) × (Int × Int) × Int) :=
  if isEven then
    let mid := f64Mid lng.1 lng.2
    if longitude > mid then do
      let m ← goIndex bits bit
      pure (lat, (mid, lng.2), intOr ch m)
    else
      pure (lat, (lng.1, mid), ch)
  else
    let mid := f64Mid lat.1 lat.2
    if latitude > mid then do
      let m ← goIndex bits bit
      pure ((mid, lat.2), lng, intOr ch m)
    else
      pure ((lat.1, mid), lng, ch)

/-- The loop `for geohash.Len() < precision` of `EncodeWithPrecision`, on
`float64` values. -/
def encodeLoop64 (latitude longitude : Int) (precision : Int) (isEven : Bool)
    (lat lng : Int × Int) (bit ch : Int) (geohash : GoString) : Except Fault GoString :=
  if (geohash.length : Int) < precision then
    match encodeBisect64 latitude longitude isEven lat lng bit ch with
    | Except.error e => Except.error e
    | Except.ok (lat1, lng1, ch1) =>
      if bit < 4 then
        encodeLoop64 latitude longitude precision (!isEven) lat1 lng1 (bit + 1) ch1 geohash
      else
        match goIndex base32 ch1 with
        | Except.error e => Except.error e
        | Except.ok b =>
          encodeLoop64 latitude longitude precision (!isEven) lat1 lng1 0 0 (geohash ++ [b])
  else
    Except.ok geohash
termination_by (5 * (precision - geohash.length) + 4 - min bit 4).toNat
decreasing_by
  · omega
  · simp only [List.length_append, List.length_singleton, Nat.cast_add, Nat.cast_one]
    omega

/-- `EncodeWithPrecision(latitude, longitude, precision)` in `float64`. -/
def EncodeWithPrecision64 (latitude longitude : Int) (precision : Int) :
    Except Fault GoString :=
  encodeLoop64 latitude longitude precision true (f64OfInt (-90), f64OfInt 90)
    (f64OfInt (-180), f64OfInt 180) 0 0 []

/-- `Encode(latitude, longitude)` in `float64`. -/
def Encode64 (latitude longitude : Int) : Except Fault GoString :=
  EncodeWithPrecision64 latitude longitude 12

/-! ## Auxiliary definitions used in the proofs

None of these replaces a definition above: each is related to the embedded
program by a lemma (`Decode_eq`, `CalculateAdjacent_snoc`,
`CalculateAdjacent_eq_rev`, `EncodeWithPrecision_eq`, ...). -/

/-! ### Decoding as a fold -/

/-- The effect of one inner-loop pass of `Decode` with mask `mask`. -/
def bitStep (cd : Int) (st : DecodeState) (mask : Int) : DecodeState :=
  if st.isEven then
    { st with lngErr := st.lngErr / 2, lng := refineInterval st.lng cd mask,
              isEven := !st.isEven }
  else
    { st with latErr := st.latErr / 2, lat := refineInterval st.lat cd mask,
              isEven := !st.isEven }

/-- The effect of one outer-loop pass of `Decode` on the byte `c`. -/
def charStep (st : DecodeState) (c : Char) : DecodeState :=
  bits.foldl (bitStep (stringsIndex base32 [c])) st

/-- The state of `Decode` after consuming the bytes of `g`. -/
def decodeFold (g : GoString) : DecodeState := g.foldl charStep decodeInit

/-- The bounding box `Decode` builds from its final state. -/
def boxOf (st : DecodeState) : BoundingBox :=
  { sw := { lat := st.lat.1, lng := st.lng.1 },
    ne := { lat := st.lat.2, lng := st.lng.2 },
    center := { lat := (st.lat.1 + st.lat.2) / 2, lng := (st.lng.1 + st.lng.2) / 2 } }

/-- The bit the decoder reads from `cd` under `mask`: 1 when `cd & mask > 0`. -/
def bitOf (cd mask : Int) : Nat := if intAnd cd mask > 0 then 1 else 0

/-- The three bits of `cd` under the masks 16, 4, 1. -/
def hi3 (cd : Int) : Nat := 4 * bitOf cd 16 + 2 * bitOf cd 4 + bitOf cd 1

/-- The two bits of `cd` under the masks 8, 2. -/
def lo2 (cd : Int) : Nat := 2 * bitOf cd 8 + bitOf cd 2

/-- Cell number `a` of the subdivision of `iv` into `2 ^ k` equal parts. -/
def subInterval (iv : ℚ × ℚ) (k a : Nat) : ℚ × ℚ :=
  (iv.1 + (iv.2 - iv.1) * a / 2 ^ k, iv.1 + (iv.2 - iv.1) * (a + 1) / 2 ^ k)

/-! ### One level of the adjacency recursion -/

/-- The part of `CalculateAdjacent` after the two slices: `rec` is the
outcome of the recursive call on `base`. -/
def adjLast (dirInt oddEven : Int) (base lastChr : GoString)
    (rec : Except Fault GoString) : Except Fault GoString := do
  let borderRow ← goIndex borders dirInt
  let border ← goIndex borderRow oddEven
  let base ← (if stringsIndex border lastChr ≠ -1 then rec else pure base)
  let neighborRow ← goIndex neighbors dirInt
  let neighbor ← goIndex neighborRow oddEven
  let c ← goIndex base32 (stringsIndex neighbor lastChr)
  pure (base ++ [c])

/-- Entry `t[d][p]` of a table, with the empty string outside the table. -/
def tableAt (t : List (List GoString)) (d p : Int) : GoString :=
  (t.getD d.toNat []).getD p.toNat []

/-- Whether `c` occurs in `borders[d][p]`. -/
def isBorder (d p : Int) (c : Char) : Bool :=
  decide (stringsIndex (tableAt borders d p) [c] ≠ -1)

/-- `CalculateAdjacent(s, dir)` with `strings.ToLower` left as the parameter
`lower`, for inputs with bytes outside ASCII, where `toLower` is not Go's
function. `fuel` bounds the depth of the recursion: `none` when it runs out. -/
def CalculateAdjacentWith (lower : GoString → GoString) :
    Nat → GoString → String → Option (Except Fault GoString)
  | 0, _, _ => none
  | fuel + 1, s, dir =>
    match sliceFrom (lower s) (((lower s).length : Int) - 1) with
    | Except.error e => some (Except.error e)
    | Except.ok lastChr =>
      let oddEven : Int := ((lower s).length : Int) % 2
      let dirInt : Int := dirIndex dir
      match sliceTo (lower s) (((lower s).length : Int) - 1) with
      | Except.error e => some (Except.error e)
      | Except.ok base =>
        if stringsIndex (tableAt borders dirInt oddEven) lastChr ≠ -1 then
          (CalculateAdjacentWith lower fuel base dir).map (adjLast dirInt oddEven base lastChr)
        else some (adjLast dirInt oddEven base lastChr (Except.ok base))

/-- The alphabet character at the position of `c` in `neighbors[d][p]`. -/
def nbr (d p : Int) (c : Char) : Char :=
  base32.getD (stringsIndex (tableAt neighbors d p) [c]).toNat c

/-! ### The closed-form reference of the decoder, in the words of the specification -/

/-- The 5-bit value of a geohash character: its position in the alphabet. -/
def charValue (c : Char) : Nat := base32.indexOf c

/-- The five bits of a character, most significant first. -/
def charBits (c : Char) : List Nat :=
  [charValue c / 16 % 2, charValue c / 8 % 2, charValue c / 4 % 2, charValue c / 2 % 2,
    charValue c % 2]

/-- The `5 * n` bits of a geohash of `n` characters. -/
def geohashBits : GoString → List Nat
  | [] => []
  | c :: g => charBits c ++ geohashBits g

/-- The bits at the positions `i` with `i % 2 = parity`, in order. -/
def bitsAt (parity : Nat) (bs : List Nat) : List Nat :=
  (bs.enum.filter (fun p => p.1 % 2 = parity)).map Prod.snd

/-- The integer written by a list of bits, most significant first. -/
def ofBits (bs : List Nat) : Nat := bs.foldl (fun acc b => 2 * acc + b) 0

/-- The integer `X` formed by the bits at even positions (longitude). -/
def specX (g : GoString) : Nat := ofBits (bitsAt 0 (geohashBits g))

/-- The integer `Y` formed by the bits at odd positions (latitude). -/
def specY (g : GoString) : Nat := ofBits (bitsAt 1 (geohashBits g))

/-! ### Directions and the geometry of one character -/

/-- The direction opposite to `dir`. -/
def opposite (dir : String) : String :=
  if dir = "top" then "bottom"
  else if dir = "bottom" then "top"
  else if dir = "left" then "right"
  else if dir = "right" then "left"
  else dir

/-- The table index of the opposite direction. -/
def oppIdx (d : Int) : Int :=
  if d = 0 then 2 else if d = 1 then 3 else if d = 2 then 0 else 1

/-- Horizontal displacement, in cells, of a move in direction `d`. -/
def dxOf (d : Int) : Int := if d = 1 then 1 else if d = 3 then -1 else 0

/-- Vertical displacement, in cells, of a move in direction `d`. -/
def dyOf (d : Int) : Int := if d = 0 then 1 else if d = 2 then -1 else 0

/-- Longitude bits of a byte at a position of parity `p` (1: odd length). -/
def xPart (p cd : Int) : Nat := if p = 1 then hi3 cd else lo2 cd

/-- Latitude bits of a byte at a position of parity `p`. -/
def yPart (p cd : Int) : Nat := if p = 1 then lo2 cd else hi3 cd

/-- Number of longitude bits of a byte at a position of parity `p`. -/
def kX (p : Int) : Nat := if p = 1 then 3 else 2

/-- Number of latitude bits of a byte at a position of parity `p`. -/
def kY (p : Int) : Nat := if p = 1 then 2 else 3

/-- The box of `s'` is the box of `s` moved by `dx` widths and `dy` heights. -/
def Shifted (dx dy : ℚ) (s s' : DecodeState) : Prop :=
  s'.isEven = s.isEven
  ∧ s'.lng = (s.lng.1 + dx * (s.lng.2 - s.lng.1), s.lng.2 + dx * (s.lng.2 - s.lng.1))
  ∧ s'.lat = (s.lat.1 + dy * (s.lat.2 - s.lat.1), s.lat.2 + dy * (s.lat.2 - s.lat.1))

/-- Structurally recursive form of `CalculateAdjacent`, on the reversed
lower-cased string. -/
def adjacentRev (d : Int) : List Char → Except Fault GoString
  | [] => Except.error Fault.sliceBounds
  | c :: rb => adjLast d (((rb.length + 1 : Nat) : Int) % 2) rb.reverse [c] (adjacentRev d rb)

/-! ### The encoder, one character at a time -/

/-- One bisection of the encoder: the new `lat` and `lng` intervals and the
bit produced. -/
def bisect (latitude longitude : ℚ) (isEven : Bool) (lat lng : ℚ × ℚ) :
    (ℚ × ℚ) × (ℚ × ℚ) × Bool :=
  if isEven then
    if longitude > (lng.1 + lng.2) / 2 then (lat, ((lng.1 + lng.2) / 2, lng.2), true)
    else (lat, (lng.1, (lng.1 + lng.2) / 2), false)
  else
    if latitude > (lat.1 + lat.2) / 2 then (((lat.1 + lat.2) / 2, lat.2), lng, true)
    else ((lat.1, (lat.1 + lat.2) / 2), lng, false)

/-- The bisections for the bit weights `ws`, accumulating the set bits in `ch`. -/
def encBits (latitude longitude : ℚ) :
    List Int → Bool → ℚ × ℚ → ℚ × ℚ → Int → Bool × (ℚ × ℚ) × (ℚ × ℚ) × Int
  | [], e, lat, lng, ch => (e, lat, lng, ch)
  | w :: ws, e, lat, lng, ch =>
    encBits latitude longitude ws (!e)
      (bisect latitude longitude e lat lng).1 (bisect latitude longitude e lat lng).2.1
      (ch + if (bisect latitude longitude e lat lng).2.2 then w else 0)

/-- The alphabet character with 5-bit value `ch`. -/
def alphabetAt (ch : Int) : Char := base32.getD ch.toNat '0'

/-- The first `n` characters the encoder emits from a character boundary. -/
def encChars (latitude longitude : ℚ) : Nat → Bool → ℚ × ℚ → ℚ × ℚ → GoString
  | 0, _, _, _ => []
  | n + 1, e, lat, lng =>
    alphabetAt (encBits latitude longitude bits e lat lng 0).2.2.2
      :: encChars latitude longitude n
          (encBits latitude longitude bits e lat lng 0).1
          (encBits latitude longitude bits e lat lng 0).2.1
          (encBits latitude longitude bits e lat lng 0).2.2.1

/-- From bit position `bit` with accumulator `ch`, the loop runs the
bisections for the weights `ws` and then emits one character. -/
def EmitsAfter (latitude longitude : ℚ) (precision : Int) (bit : Int) (ws : List Int) : Prop :=
  ∀ (e : Bool) (lat lng : ℚ × ℚ) (ch : Int) (gh : GoString),
    0 ≤ ch → ch < 32 → ch % (2 * 2 ^ (4 - bit).toNat) = 0 → (gh.length : Int) < precision →
    encodeLoop latitude longitude precision e lat lng bit ch gh
      = encodeLoop latitude longitude precision
          (encBits latitude longitude ws e lat lng ch).1
          (encBits latitude longitude ws e lat lng ch).2.1
          (encBits latitude longitude ws e lat lng ch).2.2.1 0 0
          (gh ++ [alphabetAt (encBits latitude longitude ws e lat lng ch).2.2.2])

/-! ### Border characters, unknown bytes and membership in a cell -/

/-- Every character of `g` is a border character of direction index `d` for
its depth: character `i + 1` occurs in `borders[d][(i + 1) % 2]`. -/
def AllBorder (d : Int) (g : GoString) : Prop :=
  ∀ (i : Nat) (hi : i < g.length),
    isBorder d (((i + 1 : Nat) : Int) % 2) (g.get ⟨i, hi⟩) = true

/-- Both intervals of a decoder state have positive length. -/
def NonDeg (st : DecodeState) : Prop := st.lat.1 < st.lat.2 ∧ st.lng.1 < st.lng.2

/-- The point lies in the cell of a decoder state, lower edges excluded and
upper edges included. -/
def Inside (latitude longitude : ℚ) (st : DecodeState) : Prop :=
  (st.lat.1 < latitude ∧ latitude ≤ st.lat.2) ∧ (st.lng.1 < longitude ∧ longitude ≤ st.lng.2)

/-! ### The float64 decoder and encoder, one step at a time -/

/-- The number is a `float64`: it has at most 53 significant bits. -/
def F64Rep (n : Int) : Prop := ∃ K t : Nat, n.natAbs = K * 2 ^ t ∧ K < 2 ^ 53

/-- The effect of one inner-loop pass of `Decode64` with mask `mask`. -/
def bitStep64 (cd : Int) (st : DecodeState64) (mask : Int) : DecodeState64 :=
  if st.isEven then
    { st with lngErr := f64Half st.lngErr, lng := refineInterval64 st.lng cd mask,
              isEven := !st.isEven }
  else
    { st with latErr := f64Half st.latErr, lat := refineInterval64 st.lat cd mask,
              isEven := !st.isEven }

/-- The effect of one outer-loop pass of `Decode64` on the byte `c`. -/
def charStep64 (st : DecodeState64) (c : Char) : DecodeState64 :=
  bits.foldl (bitStep64 (stringsIndex base32 [c])) st

/-- The state of `Decode64` after consuming the bytes of `g`. -/
def decodeFold64 (g : GoString) : DecodeState64 := g.foldl charStep64 decodeInit64

/-- The bounding box `Decode64` builds from its final state. -/
def boxOf64 (st : DecodeState64) : BoundingBox64 :=
  { sw := { lat := st.lat.1, lng := st.lng.1 },
    ne := { lat := st.lat.2, lng := st.lng.2 },
    center := { lat := f64Mid st.lat.1 st.lat.2, lng := f64Mid st.lng.1 st.lng.2 } }

/-- One bisection of the `float64` encoder: the new `lat` and `lng` intervals
and the bit produced. -/
def bisect64 (latitude longitude : Int) (isEven : Bool) (lat lng : Int × Int) :
    (Int × Int) × (Int × Int) × Bool :=
  if isEven then
    if longitude > f64Mid lng.1 lng.2 then (lat, (f64Mid lng.1 lng.2, lng.2), true)
    else (lat, (lng.1, f64Mid lng.1 lng.2), false)
  else
    if latitude > f64Mid lat.1 lat.2 then ((f64Mid lat.1 lat.2, lat.2), lng, true)
    else ((lat.1, f64Mid lat.1 lat.2), lng, false)

/-- The `float64` bisections for the bit weights `ws`. -/
def encBits64 (latitude longitude : Int) :
    List Int → Bool → Int × Int → Int × Int → Int → Bool × (Int × Int) × (Int × Int) × Int
  | [], e, lat, lng, ch => (e, lat, lng, ch)
  | w :: ws, e, lat, lng, ch =>
    encBits64 latitude longitude ws (!e)
      (bisect64 latitude longitude e lat lng).1 (bisect64 latitude longitude e lat lng).2.1
      (ch + if (bisect64 latitude longitude e lat lng).2.2 then w else 0)

/-- The first `n` characters the `float64` encoder emits from a character
boundary. -/
def encChars64 (latitude longitude : Int) : Nat → Bool → Int × Int → Int × Int → GoString
  | 0, _, _, _ => []
  | n + 1, e, lat, lng =>
    alphabetAt (encBits64 latitude longitude bits e lat lng 0).2.2.2
      :: encChars64 latitude longitude n
          (encBits64 latitude longitude bits e lat lng 0).1
          (encBits64 latitude longitude bits e lat lng 0).2.1
          (encBits64 latitude longitude bits e lat lng 0).2.2.1

/-- The `float64` form of `EmitsAfter`. -/
def EmitsAfter64 (latitude longitude : Int) (precision : Int) (bit : Int) (ws : List Int) :
    Prop :=
  ∀ (e : Bool) (lat lng : Int × Int) (ch : Int) (gh : GoString),
    0 ≤ ch → ch < 32 → ch % (2 * 2 ^ (4 - bit).toNat) = 0 → (gh.length : Int) < precision →
    encodeLoop64 latitude longitude precision e lat lng bit ch gh
      = encodeLoop64 latitude longitude precision
          (encBits64 latitude longitude ws e lat lng ch).1
          (encBits64 latitude longitude ws e lat lng ch).2.1
          (encBits64 latitude longitude ws e lat lng ch).2.2.1 0 0
          (gh ++ [alphabetAt (encBits64 latitude longitude ws e lat lng ch).2.2.2])

/-! ### Invariants of the float64 decoder -/

/-- The rational values of the two ends of a `float64` interval. -/
def ratPair (iv : Int × Int) : ℚ × ℚ := (f64ToRat iv.1, f64ToRat iv.2)

/-- Both ends of the interval are `float64` values of magnitude below 256,
in order. -/
def Good64 (iv : Int × Int) : Prop :=
  F64Rep iv.1 ∧ F64Rep iv.2 ∧ iv.1 ≤ iv.2 ∧ -2 ^ 1082 < iv.1 ∧ iv.2 < 2 ^ 1082

/-- After `k` bisections of an interval of `W` units, each midpoint off by at
most `2 ^ 1029` units (half the spacing of the `float64` values below 256),
the interval is at least this wide. -/
def Wide64 (W : Int) (k : Nat) (iv : Int × Int) : Prop :=
  W ≤ 2 ^ k * (iv.2 - iv.1) + (2 ^ k - 1) * 2 ^ 1029

/-- What holds of the state of `Decode64` after `m` passes of the inner loop. -/
def Inv64 (m : Nat) (st : DecodeState64) : Prop :=
  st.isEven = decide (m % 2 = 0) ∧ Good64 st.lat ∧ Good64 st.lng
    ∧ Wide64 (f64OfInt 360) ((m + 1) / 2) st.lng ∧ Wide64 (f64OfInt 180) (m / 2) st.lat

/-- The intervals of `st'` lie inside those of `st`. -/
def Nested64 (st st' : DecodeState64) : Prop :=
  st.lat.1 ≤ st'.lat.1 ∧ st'.lat.2 ≤ st.lat.2 ∧ st.lng.1 ≤ st'.lng.1 ∧ st'.lng.2 ≤ st.lng.2

/-- Cell `j` of the subdivision of `[-w, w]` into `2 ^ k` equal parts, in
`float64` units. -/
def cell64 (w : Int) (k j : Nat) : Int × Int :=
  ((2 * w * j - w * 2 ^ k) * 2 ^ (1074 - k), (2 * w * (j + 1) - w * 2 ^ k) * 2 ^ (1074 - k))

/-- After `m` passes of the inner loop the `float64` state and the exact state
hold the same cell. -/
def Exact64 (m : Nat) (st64 : DecodeState64) (st : DecodeState) : Prop :=
  st64.isEven = decide (m % 2 = 0) ∧ st.isEven = decide (m % 2 = 0)
    ∧ ∃ a b : Nat, a < 2 ^ ((m + 1) / 2) ∧ b < 2 ^ (m / 2)
      ∧ st64.lng = cell64 180 ((m + 1) / 2) a ∧ st.lng = subInterval (-180, 180) ((m + 1) / 2) a
      ∧ st64.lat = cell64 90 (m / 2) b ∧ st.lat = subInterval (-90, 90) (m / 2) b

/-- The point lies in the cell of a `float64` decoder state, lower edges
excluded and upper edges included. -/
def Inside64 (latitude longitude : Int) (st : DecodeState64) : Prop :=
  (st.lat.1 < latitude ∧ latitude ≤ st.lat.2) ∧ (st.lng.1 < longitude ∧ longitude ≤ st.lng.2)

/-- The `float64` intervals and the exact intervals of the encoder hold the
same cells, of levels `kx` (longitude) and `ky` (latitude). -/
def EncExact (kx ky : Nat) (lat64 lng64 : Int × Int) (lat lng : ℚ × ℚ) : Prop :=
  ∃ a b : Nat, a < 2 ^ kx ∧ b < 2 ^ ky
    ∧ lng64 = cell64 180 kx a ∧ lng = subInterval (-180, 180) kx a
    ∧ lat64 = cell64 90 ky b ∧ lat = subInterval (-90, 90) ky b

/-- The box of rational values of a `float64` box. -/
def ratBox (b : BoundingBox64) : BoundingBox :=
  { sw := { lat := f64ToRat b.sw.lat, lng := f64ToRat b.sw.lng },
    ne := { lat := f64ToRat b.ne.lat, lng := f64ToRat b.ne.lng },
    center := { lat := f64ToRat b.center.lat, lng := f64ToRat b.center.lng } }

/-! ## Lemmas -/

/-! ### The `Except` monad and the decoder -/

theorem ok_bind {α β : Type} (a : α) (f : α → Except Fault β) :
    (Except.ok a >>= f) = f a := rfl

theorem error_bind {α β : Type} (e : Fault) (f : α → Except Fault β) :
    ((Except.error e : Except Fault α) >>= f) = Except.error e := rfl

theorem pure_eq_ok {α : Type} (a : α) : (pure a : Except Fault α) = Except.ok a := rfl

theorem decodeBit_ok (cd : Int) (st : DecodeState) (j mask : Int)
    (h : goIndex bits j = Except.ok mask) :
    decodeBit cd st j = Except.ok (bitStep cd st mask) := by
  unfold decodeBit bitStep
  rw [h, ok_bind]
  split <;> rfl

theorem decodeBit_inner (cd : Int) (st : DecodeState) :
    [0, 1, 2, 3, 4].foldlM (decodeBit cd) st
      = Except.ok (bits.foldl (bitStep cd) st) := by
  simp only [List.foldlM_cons, List.foldlM_nil]
  rw [decodeBit_ok cd st 0 16 (by decide), ok_bind,
    decodeBit_ok cd _ 1 8 (by decide), ok_bind,
    decodeBit_ok cd _ 2 4 (by decide), ok_bind,
    decodeBit_ok cd _ 3 2 (by decide), ok_bind,
    decodeBit_ok cd _ 4 1 (by decide), ok_bind]
  rfl

theorem slice_one (g : GoString) (i : Nat) (h : i < g.length) :
    slice g (i : Int) ((i : Int) + 1) = Except.ok [g.get ⟨i, h⟩] := by
  unfold slice
  have h1 : ¬ ((i : Int) < 0 ∨ (i : Int) + 1 < (i : Int) ∨ (g.length : Int) < (i : Int) + 1) := by
    omega
  rw [if_neg h1]
  congr 1
  have e1 : ((i : Int) + 1).toNat = i + 1 := by omega
  have e2 : (i : Int).toNat = i := by omega
  rw [e1, e2]
  rw [List.drop_take]
  simp only [Nat.add_sub_cancel_left]
  rw [List.drop_eq_getElem_cons h]
  rfl

theorem decodeLoop_eq (g : GoString) (n : Nat) :
    ∀ (i : Nat) (st : DecodeState), i + n = g.length →
      decodeLoop g n (i : Int) st = Except.ok ((g.drop i).foldl charStep st) := by
  induction n with
  | zero =>
    intro i st h
    have : g.drop i = [] := List.drop_eq_nil_of_le (by omega)
    rw [this]
    rfl
  | succ n ih =>
    intro i st h
    have hi : i < g.length := by omega
    rw [decodeLoop, slice_one g i hi, ok_bind]
    simp only []
    rw [decodeBit_inner, ok_bind]
    have := ih (i + 1) (bits.foldl (bitStep (stringsIndex base32 [g.get ⟨i, hi⟩])) st) (by omega)
    rw [Nat.cast_add, Nat.cast_one] at this
    rw [this, List.drop_eq_getElem_cons hi]
    rfl

theorem Decode_eq (g : GoString) : Decode g = Except.ok (boxOf (decodeFold g)) := by
  unfold Decode
  have := decodeLoop_eq g g.length 0 decodeInit (by simp)
  rw [Nat.cast_zero] at this
  rw [this]
  rfl

theorem bitOf_le (cd mask : Int) : bitOf cd mask ≤ 1 := by
  unfold bitOf; split <;> omega

theorem hi3_lt (cd : Int) : hi3 cd < 8 := by
  have := bitOf_le cd 16; have := bitOf_le cd 4; have := bitOf_le cd 1
  unfold hi3; omega

theorem lo2_lt (cd : Int) : lo2 cd < 4 := by
  have := bitOf_le cd 8; have := bitOf_le cd 2
  unfold lo2; omega

theorem refineInterval_eq (iv : ℚ × ℚ) (cd mask : Int) :
    refineInterval iv cd mask = subInterval iv 1 (bitOf cd mask) := by
  unfold refineInterval bitOf subInterval
  split
  · ext
    · simp only [Nat.cast_one]; ring
    · simp only [Nat.cast_one]; ring
  · ext
    · simp only [Nat.cast_zero]; ring
    · simp only [Nat.cast_zero]; ring

theorem subInterval_comp (iv : ℚ × ℚ) (k a k' a' : Nat) :
    subInterval (subInterval iv k a) k' a' = subInterval iv (k + k') (a * 2 ^ k' + a') := by
  unfold subInterval
  have h1 : (2 : ℚ) ^ k ≠ 0 := by positivity
  have h2 : (2 : ℚ) ^ k' ≠ 0 := by positivity
  ext
  · simp only [Nat.cast_add, Nat.cast_mul, Nat.cast_pow, Nat.cast_ofNat, pow_add]
    field_simp
    ring
  · simp only [Nat.cast_add, Nat.cast_mul, Nat.cast_pow, Nat.cast_ofNat, pow_add]
    field_simp
    ring

theorem refine3 (iv : ℚ × ℚ) (cd : Int) :
    refineInterval (refineInterval (refineInterval iv cd 16) cd 4) cd 1
      = subInterval iv 3 (hi3 cd) := by
  rw [refineInterval_eq, refineInterval_eq, refineInterval_eq, subInterval_comp,
    subInterval_comp]
  unfold hi3
  congr 1
  ring

theorem refine2 (iv : ℚ × ℚ) (cd : Int) :
    refineInterval (refineInterval iv cd 8) cd 2 = subInterval iv 2 (lo2 cd) := by
  rw [refineInterval_eq, refineInterval_eq, subInterval_comp]
  unfold lo2
  congr 1
  ring

theorem bitStep_even (cd : Int) (st : DecodeState) (mask : Int) (h : st.isEven = true) :
    bitStep cd st mask
      = { st with lngErr := st.lngErr / 2, lng := refineInterval st.lng cd mask,
                  isEven := false } := by
  unfold bitStep
  rw [if_pos h, h]
  rfl

theorem bitStep_odd (cd : Int) (st : DecodeState) (mask : Int) (h : st.isEven = false) :
    bitStep cd st mask
      = { st with latErr := st.latErr / 2, lat := refineInterval st.lat cd mask,
                  isEven := true } := by
  unfold bitStep
  rw [if_neg (by simp [h]), h]
  rfl

/-- Decoding one byte from a state with `isEven = true`: three longitude
bits and two latitude bits. -/
theorem charStep_even (st : DecodeState) (c : Char) (h : st.isEven = true) :
    (charStep st c).isEven = false
    ∧ (charStep st c).lng = subInterval st.lng 3 (hi3 (stringsIndex base32 [c]))
    ∧ (charStep st c).lat = subInterval st.lat 2 (lo2 (stringsIndex base32 [c])) := by
  unfold charStep bits
  simp only [List.foldl]
  rw [bitStep_even _ st 16 h, bitStep_odd _ _ 8 rfl, bitStep_even _ _ 4 rfl,
    bitStep_odd _ _ 2 rfl, bitStep_even _ _ 1 rfl]
  exact ⟨rfl, refine3 _ _, refine2 _ _⟩

/-- Decoding one byte from a state with `isEven = false`: three latitude
bits and two longitude bits. -/
theorem charStep_odd (st : DecodeState) (c : Char) (h : st.isEven = false) :
    (charStep st c).isEven = true
    ∧ (charStep st c).lng = subInterval st.lng 2 (lo2 (stringsIndex base32 [c]))
    ∧ (charStep st c).lat = subInterval st.lat 3 (hi3 (stringsIndex base32 [c])) := by
  unfold charStep bits
  simp only [List.foldl]
  rw [bitStep_odd _ st 16 h, bitStep_even _ _ 8 rfl, bitStep_odd _ _ 4 rfl,
    bitStep_even _ _ 2 rfl, bitStep_odd _ _ 1 rfl]
  exact ⟨rfl, refine2 _ _, refine3 _ _⟩

/-! ### Unfolding `CalculateAdjacent` -/

theorem CalculateAdjacent_nil (dir : String) :
    CalculateAdjacent [] dir = Except.error Fault.sliceBounds := by
  rw [CalculateAdjacent]
  rfl

theorem toLower_append (b : GoString) (c : Char) :
    toLower (b ++ [c]) = toLower b ++ [c.toLower] := by
  simp [toLower]

theorem toLower_length (b : GoString) : (toLower b).length = b.length := by
  simp [toLower]

theorem sliceFrom_last (b : GoString) (c : Char) :
    sliceFrom (b ++ [c]) (((b ++ [c]).length : Int) - 1) = Except.ok [c] := by
  unfold sliceFrom
  have e : (((b ++ [c]).length : Int) - 1) = (b.length : Int) := by simp
  rw [e, if_neg (by simp), Int.toNat_ofNat]
  simp

theorem sliceTo_last (b : GoString) (c : Char) :
    sliceTo (b ++ [c]) (((b ++ [c]).length : Int) - 1) = Except.ok b := by
  unfold sliceTo
  have e : (((b ++ [c]).length : Int) - 1) = (b.length : Int) := by simp
  rw [e, if_neg (by simp), Int.toNat_ofNat]
  simp

theorem CalculateAdjacent_snoc (b : GoString) (c : Char) (dir : String) :
    CalculateAdjacent (b ++ [c]) dir
      = adjLast (dirIndex dir) (((b.length + 1 : Nat) : Int) % 2) (toLower b) [c.toLower]
          (CalculateAdjacent (toLower b) dir) := by
  rw [CalculateAdjacent]
  rw [toLower_append]
  rw [sliceFrom_last]
  simp only []
  split
  · rename_i e h
    rw [sliceTo_last] at h
    cases h
  · rename_i base h
    rw [sliceTo_last] at h
    injection h with h
    subst h
    simp [adjLast, toLower_length]

theorem goIndex_tables : ∀ d ∈ ([0, 1, 2, 3] : List Int), ∀ p ∈ ([0, 1] : List Int),
    (goIndex borders d = Except.ok (borders.getD d.toNat [])
      ∧ goIndex (borders.getD d.toNat []) p = Except.ok (tableAt borders d p))
    ∧ (goIndex neighbors d = Except.ok (neighbors.getD d.toNat [])
      ∧ goIndex (neighbors.getD d.toNat []) p = Except.ok (tableAt neighbors d p)) := by
  decide

set_option maxRecDepth 100000 in
theorem goIndex_nbr : ∀ d ∈ ([0, 1, 2, 3] : List Int), ∀ p ∈ ([0, 1] : List Int),
    ∀ c ∈ base32,
      goIndex base32 (stringsIndex (tableAt neighbors d p) [c]) = Except.ok (nbr d p c) := by
  decide

theorem adjLast_valid (d p : Int) (hd : d ∈ ([0, 1, 2, 3] : List Int))
    (hp : p ∈ ([0, 1] : List Int)) (c : Char) (hc : c ∈ base32)
    (base : GoString) (rec : Except Fault GoString) :
    adjLast d p base [c] rec
      = ((if isBorder d p c then rec else Except.ok base) >>= fun b =>
          Except.ok (b ++ [nbr d p c])) := by
  obtain ⟨⟨h1, h2⟩, h3, h4⟩ := goIndex_tables d hd p hp
  have h5 := goIndex_nbr d hd p hp c hc
  unfold adjLast
  rw [h1, ok_bind, h2, ok_bind]
  simp only [isBorder, decide_eq_true_eq]
  split
  · cases hr : rec with
    | error e => rfl
    | ok b =>
      rw [ok_bind, h3, ok_bind, h4, ok_bind, h5]
      rfl
  · rw [pure_eq_ok, ok_bind, h3, ok_bind, h4, ok_bind, h5]
    rfl

theorem subInterval_bounds (iv : ℚ × ℚ) (k a : Nat) (h : iv.1 < iv.2) (ha : a < 2 ^ k) :
    iv.1 ≤ (subInterval iv k a).1 ∧ (subInterval iv k a).1 < (subInterval iv k a).2
      ∧ (subInterval iv k a).2 ≤ iv.2 := by
  unfold subInterval
  have hk : (0 : ℚ) < 2 ^ k := by positivity
  have hw : 0 < iv.2 - iv.1 := by linarith
  have ha' : ((a : ℚ) + 1) ≤ 2 ^ k := by
    have : a + 1 ≤ 2 ^ k := ha
    exact_mod_cast this
  have ha0 : (0 : ℚ) ≤ a := by positivity
  refine ⟨?_, ?_, ?_⟩
  · have : 0 ≤ (iv.2 - iv.1) * a / 2 ^ k := by positivity
    simp only
    linarith
  · simp only
    have : (iv.2 - iv.1) * a / 2 ^ k < (iv.2 - iv.1) * (a + 1) / 2 ^ k := by
      apply div_lt_div_of_pos_right _ hk
      nlinarith
    linarith
  · simp only
    have : (iv.2 - iv.1) * (a + 1) / 2 ^ k ≤ (iv.2 - iv.1) := by
      rw [div_le_iff₀ hk]
      nlinarith
    linarith

theorem subInterval_width (iv : ℚ × ℚ) (k a : Nat) :
    (subInterval iv k a).2 - (subInterval iv k a).1 = (iv.2 - iv.1) / 2 ^ k := by
  unfold subInterval
  simp only
  ring

/-- Decoding one byte cuts each interval into at least four parts and keeps one. -/
theorem charStep_sub (st : DecodeState) (c : Char) :
    ∃ kx ky ax ay : Nat, 2 ≤ kx ∧ 2 ≤ ky ∧ ax < 2 ^ kx ∧ ay < 2 ^ ky
      ∧ (charStep st c).lng = subInterval st.lng kx ax
      ∧ (charStep st c).lat = subInterval st.lat ky ay := by
  cases h : st.isEven with
  | true =>
    obtain ⟨_, h2, h3⟩ := charStep_even st c h
    exact ⟨3, 2, _, _, by omega, by omega, hi3_lt _, lo2_lt _, h2, h3⟩
  | false =>
    obtain ⟨_, h2, h3⟩ := charStep_odd st c h
    exact ⟨2, 3, _, _, by omega, by omega, lo2_lt _, hi3_lt _, h2, h3⟩

theorem decodeFold_snoc (g : GoString) (c : Char) :
    decodeFold (g ++ [c]) = charStep (decodeFold g) c := by
  simp [decodeFold, List.foldl_append]

theorem decodeFold_lt (g : GoString) :
    (decodeFold g).lat.1 < (decodeFold g).lat.2
      ∧ (decodeFold g).lng.1 < (decodeFold g).lng.2 := by
  induction g using List.reverseRecOn with
  | nil => simp [decodeFold, decodeInit]
  | append_singleton g c ih =>
    rw [decodeFold_snoc]
    obtain ⟨kx, ky, ax, ay, _, _, hax, hay, hx, hy⟩ := charStep_sub (decodeFold g) c
    rw [hx, hy]
    exact ⟨(subInterval_bounds _ _ _ ih.1 hay).2.1, (subInterval_bounds _ _ _ ih.2 hax).2.1⟩

/-! ### Closed form of the decoder -/

theorem geohashBits_append (g h : GoString) :
    geohashBits (g ++ h) = geohashBits g ++ geohashBits h := by
  induction g with
  | nil => rfl
  | cons c g ih => simp [geohashBits, ih]

theorem geohashBits_length (g : GoString) : (geohashBits g).length = 5 * g.length := by
  induction g with
  | nil => rfl
  | cons c g ih => simp [geohashBits, charBits, ih]; omega

theorem bitsAt_append5_even (l : List Nat) (b0 b1 b2 b3 b4 : Nat) (h : l.length % 2 = 0) :
    bitsAt 0 (l ++ [b0, b1, b2, b3, b4]) = bitsAt 0 l ++ [b0, b2, b4]
    ∧ bitsAt 1 (l ++ [b0, b1, b2, b3, b4]) = bitsAt 1 l ++ [b1, b3] := by
  have e0 : l.length % 2 = 0 := h
  have e1 : (l.length + 1) % 2 = 1 := by omega
  have e2 : (l.length + 1 + 1) % 2 = 0 := by omega
  have e3 : (l.length + 1 + 1 + 1) % 2 = 1 := by omega
  have e4 : (l.length + 1 + 1 + 1 + 1) % 2 = 0 := by omega
  constructor <;>
    simp [bitsAt, List.enum_append, List.enumFrom, List.filter_cons, e0, e1, e2, e3, e4]

theorem bitsAt_append5_odd (l : List Nat) (b0 b1 b2 b3 b4 : Nat) (h : l.length % 2 = 1) :
    bitsAt 0 (l ++ [b0, b1, b2, b3, b4]) = bitsAt 0 l ++ [b1, b3]
    ∧ bitsAt 1 (l ++ [b0, b1, b2, b3, b4]) = bitsAt 1 l ++ [b0, b2, b4] := by
  have e0 : l.length % 2 = 1 := h
  have e1 : (l.length + 1) % 2 = 0 := by omega
  have e2 : (l.length + 1 + 1) % 2 = 1 := by omega
  have e3 : (l.length + 1 + 1 + 1) % 2 = 0 := by omega
  have e4 : (l.length + 1 + 1 + 1 + 1) % 2 = 1 := by omega
  constructor <;>
    simp [bitsAt, List.enum_append, List.enumFrom, List.filter_cons, e0, e1, e2, e3, e4]

theorem ofBits_append3 (l : List Nat) (a b c : Nat) :
    ofBits (l ++ [a, b, c]) = ofBits l * 2 ^ 3 + (4 * a + 2 * b + c) := by
  simp [ofBits, List.foldl_append]; ring

theorem ofBits_append2 (l : List Nat) (a b : Nat) :
    ofBits (l ++ [a, b]) = ofBits l * 2 ^ 2 + (2 * a + b) := by
  simp [ofBits, List.foldl_append]; ring

set_option maxRecDepth 100000 in
theorem bitOf_charValue : ∀ c ∈ base32,
    bitOf (stringsIndex base32 [c]) 16 = charValue c / 16 % 2
    ∧ bitOf (stringsIndex base32 [c]) 8 = charValue c / 8 % 2
    ∧ bitOf (stringsIndex base32 [c]) 4 = charValue c / 4 % 2
    ∧ bitOf (stringsIndex base32 [c]) 2 = charValue c / 2 % 2
    ∧ bitOf (stringsIndex base32 [c]) 1 = charValue c % 2 := by
  decide

/-- The state of `Decode` after a valid geohash, in closed form. -/
theorem decodeFold_closed (g : GoString) (hg : ∀ c ∈ g, c ∈ base32) :
    (decodeFold g).isEven = decide (g.length % 2 = 0)
    ∧ (decodeFold g).lng = subInterval (-180, 180) ((5 * g.length + 1) / 2) (specX g)
    ∧ (decodeFold g).lat = subInterval (-90, 90) (5 * g.length / 2) (specY g) := by
  induction g using List.reverseRecOn with
  | nil =>
    refine ⟨rfl, ?_, ?_⟩ <;>
      simp [decodeFold, decodeInit, subInterval, specX, specY, geohashBits, bitsAt, ofBits]
  | append_singleton g c ih =>
    have hg' : ∀ x ∈ g, x ∈ base32 := fun x hx => hg x (by simp [hx])
    have hc : c ∈ base32 := hg c (by simp)
    obtain ⟨ie, ilng, ilat⟩ := ih hg'
    obtain ⟨q16, q8, q4, q2, q1⟩ := bitOf_charValue c hc
    have hbits : geohashBits (g ++ [c]) = geohashBits g ++ charBits c := by
      rw [geohashBits_append]; simp [geohashBits]
    rw [decodeFold_snoc]
    simp only [specX, specY, hbits, charBits, List.length_append, List.length_singleton]
    rcases Nat.mod_two_eq_zero_or_one g.length with hpar | hpar
    · have hE : (decodeFold g).isEven = true := by rw [ie]; simp [hpar]
      obtain ⟨s1, s2, s3⟩ := charStep_even (decodeFold g) c hE
      obtain ⟨bx, by1⟩ := bitsAt_append5_even (geohashBits g) (charValue c / 16 % 2)
        (charValue c / 8 % 2) (charValue c / 4 % 2) (charValue c / 2 % 2) (charValue c % 2)
        (by rw [geohashBits_length]; omega)
      rw [s1, s2, s3, ilng, ilat, subInterval_comp, subInterval_comp, bx, by1,
        ofBits_append3, ofBits_append2]
      refine ⟨?_, ?_, ?_⟩
      · have : (g.length + 1) % 2 = 1 := by omega
        simp [this]
      · congr 1
        · omega
        · unfold hi3; rw [q16, q4, q1]; rfl
      · congr 1
        · omega
        · unfold lo2; rw [q8, q2]; rfl
    · have hE : (decodeFold g).isEven = false := by rw [ie]; simp [hpar]
      obtain ⟨s1, s2, s3⟩ := charStep_odd (decodeFold g) c hE
      obtain ⟨bx, by1⟩ := bitsAt_append5_odd (geohashBits g) (charValue c / 16 % 2)
        (charValue c / 8 % 2) (charValue c / 4 % 2) (charValue c / 2 % 2) (charValue c % 2)
        (by rw [geohashBits_length]; omega)
      rw [s1, s2, s3, ilng, ilat, subInterval_comp, subInterval_comp, bx, by1,
        ofBits_append3, ofBits_append2]
      refine ⟨?_, ?_, ?_⟩
      · have : (g.length + 1) % 2 = 0 := by omega
        simp [this]
      · congr 1
        · omega
        · unfold lo2; rw [q8, q2]; rfl
      · congr 1
        · omega
        · unfold hi3; rw [q16, q4, q1]; rfl

/-! ### Adjacency on geohashes over the alphabet -/

set_option maxRecDepth 100000 in
theorem toLower_base32 : ∀ c ∈ base32, c.toLower = c := by decide

theorem toLower_valid (g : GoString) (hg : ∀ c ∈ g, c ∈ base32) : toLower g = g := by
  unfold toLower
  conv_rhs => rw [← List.map_id g]
  apply List.map_congr_left
  intro c hc
  exact toLower_base32 c (hg c hc)

theorem dirIndex_mem (dir : String) : dirIndex dir ∈ ([0, 1, 2, 3] : List Int) := by
  unfold dirIndex
  split
  · simp
  · split
    · simp
    · split <;> simp

theorem parity_mem (n : Nat) : ((n : Nat) : Int) % 2 ∈ ([0, 1] : List Int) := by
  have : ((n : Nat) : Int) % 2 = 0 ∨ ((n : Nat) : Int) % 2 = 1 := by omega
  rcases this with h | h <;> simp [h]

/-- One level of `CalculateAdjacent` on a geohash over the alphabet. -/
theorem CalculateAdjacent_valid_snoc (b : GoString) (c : Char) (dir : String)
    (hb : ∀ x ∈ b, x ∈ base32) (hc : c ∈ base32) :
    CalculateAdjacent (b ++ [c]) dir
      = ((if isBorder (dirIndex dir) (((b.length + 1 : Nat) : Int) % 2) c
            then CalculateAdjacent b dir else Except.ok b) >>= fun b' =>
          Except.ok (b' ++ [nbr (dirIndex dir) (((b.length + 1 : Nat) : Int) % 2) c])) := by
  rw [CalculateAdjacent_snoc, toLower_valid b hb, toLower_base32 c hc]
  exact adjLast_valid _ _ (dirIndex_mem dir) (parity_mem _) c hc _ _

set_option maxRecDepth 100000 in
theorem nbr_inverse : ∀ d ∈ ([0, 1, 2, 3] : List Int), ∀ p ∈ ([0, 1] : List Int),
    ∀ c ∈ base32,
      nbr d p c ∈ base32
      ∧ isBorder (oppIdx d) p (nbr d p c) = isBorder d p c
      ∧ nbr (oppIdx d) p (nbr d p c) = c := by
  decide

set_option maxRecDepth 100000 in
theorem nbr_geometry : ∀ d ∈ ([0, 1, 2, 3] : List Int), ∀ p ∈ ([0, 1] : List Int),
    ∀ c ∈ base32,
      ((xPart p (stringsIndex base32 [nbr d p c]) : Nat) : Int)
          = (xPart p (stringsIndex base32 [c]) : Nat) + dxOf d
              - (if isBorder d p c then dxOf d * 2 ^ kX p else 0)
      ∧ ((yPart p (stringsIndex base32 [nbr d p c]) : Nat) : Int)
          = (yPart p (stringsIndex base32 [c]) : Nat) + dyOf d
              - (if isBorder d p c then dyOf d * 2 ^ kY p else 0) := by
  decide

theorem oppIdx_mem : ∀ d ∈ ([0, 1, 2, 3] : List Int), oppIdx d ∈ ([0, 1, 2, 3] : List Int) := by
  decide

theorem dirIndex_opposite (dir : String)
    (hd : dir ∈ ["top", "right", "bottom", "left"]) :
    dirIndex (opposite dir) = oppIdx (dirIndex dir) := by
  simp only [List.mem_cons, List.mem_singleton, List.not_mem_nil, or_false] at hd
  rcases hd with h | h | h | h <;> subst h <;> decide

/-- What a successful `CalculateAdjacent` on a geohash over the alphabet
returns: a geohash over the alphabet, of the same length, from which the
opposite move leads back. -/
theorem adjacent_inverse (dir : String) (hd : dir ∈ ["top", "right", "bottom", "left"]) :
    ∀ (g h : GoString), (∀ c ∈ g, c ∈ base32) → CalculateAdjacent g dir = Except.ok h →
      (∀ c ∈ h, c ∈ base32) ∧ h.length = g.length
        ∧ CalculateAdjacent h (opposite dir) = Except.ok g := by
  intro g
  induction g using List.reverseRecOn with
  | nil =>
    intro h _ hr
    rw [CalculateAdjacent_nil] at hr
    cases hr
  | append_singleton b c ih =>
    intro h hv hr
    have hb : ∀ x ∈ b, x ∈ base32 := fun x hx => hv x (by simp [hx])
    have hc : c ∈ base32 := hv c (by simp)
    rw [CalculateAdjacent_valid_snoc b c dir hb hc] at hr
    obtain ⟨n1, n2, n3⟩ := nbr_inverse (dirIndex dir) (dirIndex_mem dir)
      (((b.length + 1 : Nat) : Int) % 2) (parity_mem _) c hc
    cases hbd : isBorder (dirIndex dir) (((b.length + 1 : Nat) : Int) % 2) c with
    | true =>
      rw [hbd, if_pos rfl] at hr
      cases hrec : CalculateAdjacent b dir with
      | error e => rw [hrec] at hr; cases hr
      | ok b' =>
        rw [hrec, ok_bind] at hr
        injection hr with hr
        subst hr
        obtain ⟨v', l', inv'⟩ := ih b' hb hrec
        have hv' : ∀ x ∈ b' ++ [nbr (dirIndex dir) (((b.length + 1 : Nat) : Int) % 2) c],
            x ∈ base32 := by
          intro x hx
          rcases List.mem_append.1 hx with hx | hx
          · exact v' x hx
          · rw [List.mem_singleton.1 hx]; exact n1
        refine ⟨hv', by simp [l'], ?_⟩
        rw [CalculateAdjacent_valid_snoc b' _ _ v' n1, l', dirIndex_opposite dir hd, n2, hbd,
          if_pos rfl, inv', ok_bind, n3]
    | false =>
      rw [hbd, if_neg (by simp), ok_bind] at hr
      injection hr with hr
      subst hr
      have hv' : ∀ x ∈ b ++ [nbr (dirIndex dir) (((b.length + 1 : Nat) : Int) % 2) c],
          x ∈ base32 := by
        intro x hx
        rcases List.mem_append.1 hx with hx | hx
        · exact hb x hx
        · rw [List.mem_singleton.1 hx]; exact n1
      refine ⟨hv', by simp, ?_⟩
      rw [CalculateAdjacent_valid_snoc b _ _ hb n1, dirIndex_opposite dir hd, n2, hbd,
        if_neg (by simp), ok_bind, n3]

theorem ofNat_lower_toNat : ∀ n ∈ List.range 91, 65 ≤ n → (Char.ofNat (n + 32)).toNat = n + 32 := by
  decide

theorem toLower_toLower_char (c : Char) : c.toLower.toLower = c.toLower := by
  by_cases h : c.toNat ≥ 65 ∧ c.toNat ≤ 90
  · have e : c.toLower = Char.ofNat (c.toNat + 32) := by
      unfold Char.toLower
      simp only [h, and_self, if_true]
    have hn := ofNat_lower_toNat c.toNat (List.mem_range.2 (by omega)) h.1
    rw [e]
    unfold Char.toLower
    simp only [hn]
    rw [if_neg (by omega)]
  · have e : c.toLower = c := by
      unfold Char.toLower
      simp only [h, if_false]
    rw [e, e]

theorem toLower_idem (g : GoString) : toLower (toLower g) = toLower g := by
  unfold toLower
  rw [List.map_map]
  apply List.map_congr_left
  intro c _
  exact toLower_toLower_char c

/-- `CalculateAdjacent` lower-cases its argument first, so lower-casing
beforehand changes nothing. -/
theorem CalculateAdjacent_toLower (g : GoString) (dir : String) :
    CalculateAdjacent (toLower g) dir = CalculateAdjacent g dir := by
  rcases List.eq_nil_or_concat g with h | ⟨b, c, h⟩
  · subst h; rfl
  · subst h
    rw [List.concat_eq_append, toLower_append, CalculateAdjacent_snoc, CalculateAdjacent_snoc, toLower_idem,
      toLower_toLower_char, toLower_length]

theorem CalculateAdjacent_eq_rev (dir : String) :
    ∀ g : GoString, CalculateAdjacent g dir = adjacentRev (dirIndex dir) (toLower g).reverse := by
  intro g
  induction g using List.reverseRecOn with
  | nil => rw [CalculateAdjacent_nil]; rfl
  | append_singleton b c ih =>
    rw [CalculateAdjacent_snoc, CalculateAdjacent_toLower, ih, toLower_append]
    simp [adjacentRev, toLower_length]

theorem decodeFold_isEven (g : GoString) :
    (decodeFold g).isEven = decide (g.length % 2 = 0) := by
  induction g using List.reverseRecOn with
  | nil => rfl
  | append_singleton b c ih =>
    rw [decodeFold_snoc]
    rcases Nat.mod_two_eq_zero_or_one b.length with hpar | hpar
    · have hE : (decodeFold b).isEven = true := by rw [ih]; simp [hpar]
      rw [(charStep_even _ c hE).1]
      have : (b.length + 1) % 2 = 1 := by omega
      simp [this]
    · have hE : (decodeFold b).isEven = false := by rw [ih]; simp [hpar]
      rw [(charStep_odd _ c hE).1]
      have : (b.length + 1) % 2 = 0 := by omega
      simp [this]

theorem charStep_parity (st : DecodeState) (c : Char) (p : Int)
    (hp : p ∈ ([0, 1] : List Int)) (h : st.isEven = decide (p = 1)) :
    (charStep st c).isEven = !st.isEven
    ∧ (charStep st c).lng = subInterval st.lng (kX p) (xPart p (stringsIndex base32 [c]))
    ∧ (charStep st c).lat = subInterval st.lat (kY p) (yPart p (stringsIndex base32 [c])) := by
  simp only [List.mem_cons, List.mem_singleton, List.not_mem_nil, or_false] at hp
  rcases hp with hp | hp
  · subst hp
    have hE : st.isEven = false := by rw [h]; decide
    obtain ⟨a, b, c'⟩ := charStep_odd st c hE
    refine ⟨by rw [a, hE]; rfl, ?_, ?_⟩
    · rw [b]; rfl
    · rw [c']; rfl
  · subst hp
    have hE : st.isEven = true := by rw [h]; decide
    obtain ⟨a, b, c'⟩ := charStep_even st c hE
    refine ⟨by rw [a, hE]; rfl, ?_, ?_⟩
    · rw [b]; rfl
    · rw [c']; rfl

theorem subInterval_shift (iv : ℚ × ℚ) (k a a' : Nat) (dx e : ℚ)
    (h : (a' : ℚ) = a + dx - e * (dx * 2 ^ k)) :
    subInterval (iv.1 + e * dx * (iv.2 - iv.1), iv.2 + e * dx * (iv.2 - iv.1)) k a'
      = ((subInterval iv k a).1 + dx * ((subInterval iv k a).2 - (subInterval iv k a).1),
         (subInterval iv k a).2 + dx * ((subInterval iv k a).2 - (subInterval iv k a).1)) := by
  unfold subInterval
  have hk : (2 : ℚ) ^ k ≠ 0 := by positivity
  ext
  · simp only [h]
    field_simp
    ring
  · simp only [h]
    field_simp
    ring

theorem charStep_shifted (s s' : DecodeState) (c c' : Char) (p : Int)
    (hp : p ∈ ([0, 1] : List Int)) (hs : s.isEven = decide (p = 1)) (dx dy e : ℚ)
    (hsh : Shifted (e * dx) (e * dy) s s')
    (hx : (xPart p (stringsIndex base32 [c']) : ℚ)
        = xPart p (stringsIndex base32 [c]) + dx - e * (dx * 2 ^ kX p))
    (hy : (yPart p (stringsIndex base32 [c']) : ℚ)
        = yPart p (stringsIndex base32 [c]) + dy - e * (dy * 2 ^ kY p)) :
    Shifted dx dy (charStep s c) (charStep s' c') := by
  obtain ⟨h1, h2, h3⟩ := hsh
  obtain ⟨a1, a2, a3⟩ := charStep_parity s c p hp hs
  obtain ⟨b1, b2, b3⟩ := charStep_parity s' c' p hp (by rw [h1]; exact hs)
  refine ⟨by rw [a1, b1, h1], ?_, ?_⟩
  · rw [a2, b2, h2]
    exact subInterval_shift s.lng (kX p) _ _ dx e hx
  · rw [a3, b3, h3]
    exact subInterval_shift s.lat (kY p) _ _ dy e hy

theorem nbr_geometry_rat (d p : Int) (hd : d ∈ ([0, 1, 2, 3] : List Int))
    (hp : p ∈ ([0, 1] : List Int)) (c : Char) (hc : c ∈ base32) (e : ℚ)
    (he : e = if isBorder d p c then 1 else 0) :
    (xPart p (stringsIndex base32 [nbr d p c]) : ℚ)
        = xPart p (stringsIndex base32 [c]) + (dxOf d : ℚ) - e * ((dxOf d : ℚ) * 2 ^ kX p)
    ∧ (yPart p (stringsIndex base32 [nbr d p c]) : ℚ)
        = yPart p (stringsIndex base32 [c]) + (dyOf d : ℚ) - e * ((dyOf d : ℚ) * 2 ^ kY p) := by
  obtain ⟨hx, hy⟩ := nbr_geometry d hd p hp c hc
  subst he
  cases hb : isBorder d p c
  · rw [hb] at hx hy
    simp only [Bool.false_eq_true, if_false, sub_zero] at hx hy ⊢
    constructor
    · have := congrArg (fun z : Int => (z : ℚ)) hx
      simp only [Int.cast_add, Int.cast_natCast] at this
      rw [this]; ring
    · have := congrArg (fun z : Int => (z : ℚ)) hy
      simp only [Int.cast_add, Int.cast_natCast] at this
      rw [this]; ring
  · rw [hb] at hx hy
    simp only [if_true] at hx hy ⊢
    constructor
    · have := congrArg (fun z : Int => (z : ℚ)) hx
      simp only [Int.cast_add, Int.cast_sub, Int.cast_mul, Int.cast_pow, Int.cast_natCast,
        Int.cast_ofNat] at this
      rw [this]; ring
    · have := congrArg (fun z : Int => (z : ℚ)) hy
      simp only [Int.cast_add, Int.cast_sub, Int.cast_mul, Int.cast_pow, Int.cast_natCast,
        Int.cast_ofNat] at this
      rw [this]; ring

/-- The box of the string returned by `CalculateAdjacent` is the box of the
argument moved by one cell in the direction of the table index. -/
theorem adjacent_shifted (dir : String) :
    ∀ (g h : GoString), (∀ c ∈ g, c ∈ base32) → CalculateAdjacent g dir = Except.ok h →
      h.length = g.length
      ∧ Shifted (dxOf (dirIndex dir)) (dyOf (dirIndex dir)) (decodeFold g) (decodeFold h) := by
  intro g
  induction g using List.reverseRecOn with
  | nil =>
    intro h _ hr
    rw [CalculateAdjacent_nil] at hr
    cases hr
  | append_singleton b c ih =>
    intro h hv hr
    have hb : ∀ x ∈ b, x ∈ base32 := fun x hx => hv x (by simp [hx])
    have hc : c ∈ base32 := hv c (by simp)
    rw [CalculateAdjacent_valid_snoc b c dir hb hc] at hr
    have hp := parity_mem (b.length + 1)
    have hs : (decodeFold b).isEven = decide ((((b.length + 1 : Nat) : Int) % 2) = 1) := by
      rw [decodeFold_isEven]
      congr 1
      apply propext
      omega
    cases hbd : isBorder (dirIndex dir) (((b.length + 1 : Nat) : Int) % 2) c with
    | true =>
      obtain ⟨gx, gy⟩ := nbr_geometry_rat _ _ (dirIndex_mem dir) hp c hc 1 (by rw [hbd]; rfl)
      rw [hbd, if_pos rfl] at hr
      cases hrec : CalculateAdjacent b dir with
      | error e => rw [hrec] at hr; cases hr
      | ok b' =>
        rw [hrec, ok_bind] at hr
        injection hr with hr
        subst hr
        obtain ⟨l', sh'⟩ := ih b' hb hrec
        refine ⟨by simp [l'], ?_⟩
        rw [decodeFold_snoc, decodeFold_snoc]
        refine charStep_shifted _ _ c _ _ hp hs _ _ 1 ?_ gx gy
        rw [one_mul, one_mul]
        exact sh'
    | false =>
      obtain ⟨gx, gy⟩ := nbr_geometry_rat _ _ (dirIndex_mem dir) hp c hc 0 (by rw [hbd]; rfl)
      rw [hbd, if_neg (by simp), ok_bind] at hr
      injection hr with hr
      subst hr
      refine ⟨by simp, ?_⟩
      rw [decodeFold_snoc, decodeFold_snoc]
      refine charStep_shifted _ _ c _ _ hp hs _ _ 0 ?_ gx gy
      refine ⟨rfl, ?_, ?_⟩ <;> simp

theorem allAdjacent_dr :
    CalculateAllAdjacent "dr".toList
        = Except.ok ["f2".toList, "f8".toList, "f0".toList, "dx".toList,
                     "dq".toList, "dw".toList, "dn".toList, "dp".toList] := by
  simp only [CalculateAllAdjacent, List.foldlM_cons, List.foldlM_nil, allAdjacentStep,
    CalculateAdjacent_eq_rev]
  decide

/-! ### Characters outside the alphabet -/

theorem indexFrom_not_mem (x : Char) (s : GoString) (h : x ∉ s) (i : Nat) :
    indexFrom [x] s i = -1 := by
  induction s generalizing i with
  | nil => simp [indexFrom]
  | cons c t ih =>
    have hc : x ≠ c := fun e => h (by simp [e])
    have ht : x ∉ t := fun e => h (by simp [e])
    unfold indexFrom
    rw [if_neg (by simp [List.isPrefixOf, hc])]
    exact ih ht (i + 1)

theorem stringsIndex_not_mem (x : Char) (s : GoString) (h : x ∉ s) :
    stringsIndex s [x] = -1 :=
  indexFrom_not_mem x s h 0

set_option maxRecDepth 100000 in
theorem tables_subset : ∀ d ∈ ([0, 1, 2, 3] : List Int), ∀ p ∈ ([0, 1] : List Int),
    (∀ y ∈ tableAt borders d p, y ∈ base32) ∧ (∀ y ∈ tableAt neighbors d p, y ∈ base32) := by
  decide

/-- A last character outside the alphabet makes the final alphabet lookup
index out of range, whatever the recursive call would have returned. -/
theorem adjLast_invalid (d p : Int) (hd : d ∈ ([0, 1, 2, 3] : List Int))
    (hp : p ∈ ([0, 1] : List Int)) (x : Char) (hx : x ∉ base32)
    (base : GoString) (rec : Except Fault GoString) :
    adjLast d p base [x] rec = Except.error Fault.indexRange := by
  obtain ⟨⟨h1, h2⟩, h3, h4⟩ := goIndex_tables d hd p hp
  obtain ⟨sb, sn⟩ := tables_subset d hd p hp
  have eb : stringsIndex (tableAt borders d p) [x] = -1 :=
    stringsIndex_not_mem x _ (fun h => hx (sb x h))
  have en : stringsIndex (tableAt neighbors d p) [x] = -1 :=
    stringsIndex_not_mem x _ (fun h => hx (sn x h))
  unfold adjLast
  rw [h1, ok_bind, h2, ok_bind, eb, if_neg (by simp), pure_eq_ok, ok_bind, h3, ok_bind, h4,
    ok_bind, en]
  rfl

/-- A border character passes a failure of the recursive call on. -/
theorem adjLast_border_error (d p : Int) (hd : d ∈ ([0, 1, 2, 3] : List Int))
    (hp : p ∈ ([0, 1] : List Int)) (x : Char) (hx : isBorder d p x = true)
    (base : GoString) (e : Fault) :
    adjLast d p base [x] (Except.error e) = Except.error e := by
  obtain ⟨⟨h1, h2⟩, _, _⟩ := goIndex_tables d hd p hp
  unfold adjLast
  simp only [isBorder, decide_eq_true_eq] at hx
  rw [h1, ok_bind, h2, ok_bind, if_pos hx]
  rfl

/-- An invalid character is rejected when the carry recursion reaches it. -/
theorem invalid_char_reached (pre suf : GoString) (c : Char) (dir : String)
    (hc : c.toLower ∉ base32)
    (hsuf : ∀ (i : Nat) (hi : i < suf.length),
      isBorder (dirIndex dir) (((pre.length + 1 + i + 1 : Nat) : Int) % 2)
        (suf.get ⟨i, hi⟩).toLower = true) :
    CalculateAdjacent (pre ++ [c] ++ suf) dir = Except.error Fault.indexRange := by
  induction suf using List.reverseRecOn with
  | nil =>
    rw [List.append_nil, CalculateAdjacent_snoc]
    exact adjLast_invalid _ _ (dirIndex_mem dir) (parity_mem _) _ hc _ _
  | append_singleton s x ih =>
    have hs : ∀ (i : Nat) (hi : i < s.length),
        isBorder (dirIndex dir) (((pre.length + 1 + i + 1 : Nat) : Int) % 2)
          (s.get ⟨i, hi⟩).toLower = true := by
      intro i hi
      have := hsuf i (by simp; omega)
      simp only [List.get_eq_getElem] at this ⊢
      rwa [List.getElem_append_left hi] at this
    have hx : isBorder (dirIndex dir) (((pre.length + 1 + s.length + 1 : Nat) : Int) % 2)
        x.toLower = true := by
      have := hsuf s.length (by simp)
      simpa using this
    rw [← List.append_assoc, CalculateAdjacent_snoc, CalculateAdjacent_toLower, ih hs]
    have hl : (pre ++ [c] ++ s).length + 1 = pre.length + 1 + s.length + 1 := by
      simp only [List.length_append, List.length_singleton]
    rw [hl]
    exact adjLast_border_error _ _ (dirIndex_mem dir) (parity_mem _) _ hx _ _

/-! ### The encoder loop -/

theorem goIndex_bits : ∀ bit ∈ ([0, 1, 2, 3, 4] : List Int),
    goIndex bits bit = Except.ok (2 ^ (4 - bit).toNat) := by
  decide

set_option maxRecDepth 100000 in
theorem intOr_weight : ∀ bit ∈ ([0, 1, 2, 3, 4] : List Int), ∀ n ∈ List.range 32,
    (n : Int) % (2 * 2 ^ (4 - bit).toNat) = 0 →
      intOr (n : Int) (2 ^ (4 - bit).toNat) = (n : Int) + 2 ^ (4 - bit).toNat := by
  decide

set_option maxRecDepth 100000 in
theorem goIndex_base32 : ∀ n ∈ List.range 32,
    goIndex base32 (n : Int) = Except.ok (alphabetAt (n : Int)) := by
  decide

theorem encodeBisect_eq (latitude longitude : ℚ) (isEven : Bool) (lat lng : ℚ × ℚ)
    (bit ch : Int) (hbit : bit ∈ ([0, 1, 2, 3, 4] : List Int))
    (h0 : 0 ≤ ch) (h32 : ch < 32) (hmod : ch % (2 * 2 ^ (4 - bit).toNat) = 0) :
    encodeBisect latitude longitude isEven lat lng bit ch
      = Except.ok ((bisect latitude longitude isEven lat lng).1,
          (bisect latitude longitude isEven lat lng).2.1,
          ch + if (bisect latitude longitude isEven lat lng).2.2
            then 2 ^ (4 - bit).toNat else 0) := by
  have hor : intOr ch (2 ^ (4 - bit).toNat) = ch + 2 ^ (4 - bit).toNat := by
    have := intOr_weight bit hbit ch.toNat (List.mem_range.2 (by omega))
    rw [Int.toNat_of_nonneg h0] at this
    exact this hmod
  unfold encodeBisect bisect
  cases isEven
  · simp only [Bool.false_eq_true, if_false]
    split
    · rw [goIndex_bits bit hbit, ok_bind, hor]; simp [pure_eq_ok]
    · simp [pure_eq_ok]
  · simp only [if_true]
    split
    · rw [goIndex_bits bit hbit, ok_bind, hor]; simp [pure_eq_ok]
    · simp [pure_eq_ok]

theorem encodeLoop_done (latitude longitude : ℚ) (precision : Int) (e : Bool)
    (lat lng : ℚ × ℚ) (bit ch : Int) (gh : GoString)
    (h : ¬ (gh.length : Int) < precision) :
    encodeLoop latitude longitude precision e lat lng bit ch gh = Except.ok gh := by
  rw [encodeLoop, if_neg h]

theorem encodeLoop_step (latitude longitude : ℚ) (precision : Int) (e : Bool)
    (lat lng : ℚ × ℚ) (bit ch : Int) (gh : GoString)
    (h : (gh.length : Int) < precision) (hbit : bit ∈ ([0, 1, 2, 3] : List Int))
    (h0 : 0 ≤ ch) (h32 : ch < 32) (hmod : ch % (2 * 2 ^ (4 - bit).toNat) = 0) :
    encodeLoop latitude longitude precision e lat lng bit ch gh
      = encodeLoop latitude longitude precision (!e)
          (bisect latitude longitude e lat lng).1 (bisect latitude longitude e lat lng).2.1
          (bit + 1)
          (ch + if (bisect latitude longitude e lat lng).2.2 then 2 ^ (4 - bit).toNat else 0)
          gh := by
  have hb : bit ∈ ([0, 1, 2, 3, 4] : List Int) := by
    simp only [List.mem_cons, List.mem_singleton, List.not_mem_nil, or_false] at hbit ⊢
    omega
  have hlt : bit < 4 := by
    simp only [List.mem_cons, List.mem_singleton, List.not_mem_nil, or_false] at hbit
    omega
  rw [encodeLoop, if_pos h, encodeBisect_eq latitude longitude e lat lng bit ch hb h0 h32 hmod]
  simp only [if_pos hlt]

theorem encodeLoop_emit (latitude longitude : ℚ) (precision : Int) (e : Bool)
    (lat lng : ℚ × ℚ) (ch : Int) (gh : GoString)
    (h : (gh.length : Int) < precision)
    (h0 : 0 ≤ ch) (h32 : ch < 32) (hmod : ch % 2 = 0) :
    encodeLoop latitude longitude precision e lat lng 4 ch gh
      = encodeLoop latitude longitude precision (!e)
          (bisect latitude longitude e lat lng).1 (bisect latitude longitude e lat lng).2.1
          0 0
          (gh ++ [alphabetAt (ch + if (bisect latitude longitude e lat lng).2.2 then 1 else 0)]) := by
  have hch : ∀ b : Bool, goIndex base32 (ch + if b then 1 else 0)
      = Except.ok (alphabetAt (ch + if b then 1 else 0)) := by
    intro b
    have h1 : 0 ≤ ch + (if b then 1 else 0) := by split <;> omega
    have := goIndex_base32 (ch + if b then 1 else 0).toNat
      (List.mem_range.2 (by split <;> omega))
    rwa [Int.toNat_of_nonneg h1] at this
  rw [encodeLoop, if_pos h,
    encodeBisect_eq latitude longitude e lat lng 4 ch (by decide) h0 h32 (by simpa using hmod)]
  simp only [lt_self_iff_false, if_false]
  have e1 : (2 : Int) ^ ((4 : Int) - 4).toNat = 1 := by decide
  rw [e1, hch]

theorem emitsAfter_four (latitude longitude : ℚ) (precision : Int) :
    EmitsAfter latitude longitude precision 4 [1] := by
  intro e lat lng ch gh h0 h32 hmod h
  rw [encodeLoop_emit latitude longitude precision e lat lng ch gh h h0 h32
    (by simpa using hmod)]
  rfl

theorem weight_vals : ∀ bit ∈ ([0, 1, 2, 3] : List Int),
    2 * (2 : Int) ^ (4 - (bit + 1)).toNat = 2 ^ (4 - bit).toNat
    ∧ (2 : Int) ^ (4 - bit).toNat ∈ ([16, 8, 4, 2] : List Int) := by
  decide

theorem emitsAfter_succ (latitude longitude : ℚ) (precision : Int) (bit : Int)
    (ws : List Int) (hbit : bit ∈ ([0, 1, 2, 3] : List Int))
    (ih : EmitsAfter latitude longitude precision (bit + 1) ws) :
    EmitsAfter latitude longitude precision bit (2 ^ (4 - bit).toNat :: ws) := by
  intro e lat lng ch gh h0 h32 hmod h
  rw [encodeLoop_step latitude longitude precision e lat lng bit ch gh h hbit h0 h32 hmod]
  have good : 0 ≤ ch + (if (bisect latitude longitude e lat lng).2.2
        then (2 : Int) ^ (4 - bit).toNat else 0)
      ∧ ch + (if (bisect latitude longitude e lat lng).2.2
        then (2 : Int) ^ (4 - bit).toNat else 0) < 32
      ∧ (ch + (if (bisect latitude longitude e lat lng).2.2
        then (2 : Int) ^ (4 - bit).toNat else 0)) % (2 * 2 ^ (4 - (bit + 1)).toNat) = 0 := by
    obtain ⟨hw, hw'⟩ := weight_vals bit hbit
    rw [hw]
    generalize (2 : Int) ^ (4 - bit).toNat = w at hw' hmod ⊢
    simp only [List.mem_cons, List.mem_singleton, List.not_mem_nil, or_false] at hw'
    rcases hw' with hb | hb | hb | hb <;> subst hb <;>
      cases (bisect latitude longitude e lat lng).2.2 <;>
      simp only [Bool.false_eq_true, if_false, if_true] <;> omega
  rw [ih _ _ _ _ gh good.1 good.2.1 good.2.2 h]
  rfl

theorem emitsAfter_zero (latitude longitude : ℚ) (precision : Int) :
    EmitsAfter latitude longitude precision 0 bits := by
  have h4 := emitsAfter_four latitude longitude precision
  have h3 := emitsAfter_succ latitude longitude precision 3 _ (by decide) h4
  have h2 := emitsAfter_succ latitude longitude precision 2 _ (by decide) h3
  have h1 := emitsAfter_succ latitude longitude precision 1 _ (by decide) h2
  exact emitsAfter_succ latitude longitude precision 0 _ (by decide) h1

/-- The encoder loop, started at a character boundary, emits `encChars`. -/
theorem encodeLoop_chars (latitude longitude : ℚ) (precision : Int) :
    ∀ (n : Nat) (e : Bool) (lat lng : ℚ × ℚ) (gh : GoString),
      (precision - gh.length).toNat = n →
      encodeLoop latitude longitude precision e lat lng 0 0 gh
        = Except.ok (gh ++ encChars latitude longitude n e lat lng) := by
  intro n
  induction n with
  | zero =>
    intro e lat lng gh hn
    rw [encodeLoop_done _ _ _ _ _ _ _ _ _ (by omega)]
    simp [encChars]
  | succ n ih =>
    intro e lat lng gh hn
    rw [emitsAfter_zero latitude longitude precision e lat lng 0 gh (by decide) (by decide)
      (by decide) (by omega)]
    have hn' : (precision - ((gh ++ [alphabetAt
        (encBits latitude longitude bits e lat lng 0).2.2.2]).length : Int)).toNat = n := by
      simp only [List.length_append, List.length_singleton, Nat.cast_add, Nat.cast_one]
      omega
    rw [ih _ _ _ _ hn']
    simp [encChars]

theorem EncodeWithPrecision_eq (latitude longitude : ℚ) (precision : Int) :
    EncodeWithPrecision latitude longitude precision
      = Except.ok (encChars latitude longitude precision.toNat true (-90, 90) (-180, 180)) := by
  unfold EncodeWithPrecision
  rw [encodeLoop_chars latitude longitude precision precision.toNat true _ _ [] (by simp)]
  simp

theorem bisect_contains (latitude longitude : ℚ) (e : Bool) (lat lng : ℚ × ℚ)
    (hlat : lat.1 ≤ latitude ∧ latitude ≤ lat.2)
    (hlng : lng.1 ≤ longitude ∧ longitude ≤ lng.2) :
    ((bisect latitude longitude e lat lng).1.1 ≤ latitude
      ∧ latitude ≤ (bisect latitude longitude e lat lng).1.2)
    ∧ ((bisect latitude longitude e lat lng).2.1.1 ≤ longitude
      ∧ longitude ≤ (bisect latitude longitude e lat lng).2.1.2) := by
  unfold bisect
  cases e
  · simp only [Bool.false_eq_true, if_false]
    split
    · rename_i h
      exact ⟨⟨le_of_lt h, hlat.2⟩, hlng⟩
    · rename_i h
      exact ⟨⟨hlat.1, not_lt.1 h⟩, hlng⟩
  · simp only [if_true]
    split
    · rename_i h
      exact ⟨hlat, ⟨le_of_lt h, hlng.2⟩⟩
    · rename_i h
      exact ⟨hlat, ⟨hlng.1, not_lt.1 h⟩⟩

/-- One decoder bit step agrees with one encoder bisection when the decoder
reads the bit the encoder wrote. -/
theorem bitStep_bisect (latitude longitude : ℚ) (cd w : Int) (st : DecodeState)
    (hbit : intAnd cd w > 0 ↔ (bisect latitude longitude st.isEven st.lat st.lng).2.2 = true) :
    (bitStep cd st w).isEven = !st.isEven
    ∧ (bitStep cd st w).lat = (bisect latitude longitude st.isEven st.lat st.lng).1
    ∧ (bitStep cd st w).lng = (bisect latitude longitude st.isEven st.lat st.lng).2.1 := by
  unfold bitStep refineInterval
  unfold bisect at hbit ⊢
  cases h : st.isEven
  · rw [h] at hbit
    simp only [Bool.false_eq_true, if_false] at hbit ⊢
    by_cases hc : latitude > (st.lat.1 + st.lat.2) / 2
    · rw [if_pos hc] at hbit ⊢
      rw [if_pos (hbit.2 rfl)]
      simp
    · rw [if_neg hc] at hbit ⊢
      rw [if_neg (fun hh => by simpa using hbit.1 hh)]
      simp
  · rw [h] at hbit
    simp only [if_true] at hbit ⊢
    by_cases hc : longitude > (st.lng.1 + st.lng.2) / 2
    · rw [if_pos hc] at hbit ⊢
      rw [if_pos (hbit.2 rfl)]
      simp
    · rw [if_neg hc] at hbit ⊢
      rw [if_neg (fun hh => by simpa using hbit.1 hh)]
      simp

set_option maxRecDepth 100000 in
theorem alphabet_bits : ∀ b1 ∈ [true, false], ∀ b2 ∈ [true, false], ∀ b3 ∈ [true, false],
    ∀ b4 ∈ [true, false], ∀ b5 ∈ [true, false],
    stringsIndex base32 [alphabetAt ((0 : Int) + (if b1 then 16 else 0) + (if b2 then 8 else 0)
        + (if b3 then 4 else 0) + (if b4 then 2 else 0) + (if b5 then 1 else 0))]
      = (0 : Int) + (if b1 then 16 else 0) + (if b2 then 8 else 0)
        + (if b3 then 4 else 0) + (if b4 then 2 else 0) + (if b5 then 1 else 0)
    ∧ (intAnd ((0 : Int) + (if b1 then 16 else 0) + (if b2 then 8 else 0)
        + (if b3 then 4 else 0) + (if b4 then 2 else 0) + (if b5 then 1 else 0)) 16 > 0
        ↔ b1 = true)
    ∧ (intAnd ((0 : Int) + (if b1 then 16 else 0) + (if b2 then 8 else 0)
        + (if b3 then 4 else 0) + (if b4 then 2 else 0) + (if b5 then 1 else 0)) 8 > 0
        ↔ b2 = true)
    ∧ (intAnd ((0 : Int) + (if b1 then 16 else 0) + (if b2 then 8 else 0)
        + (if b3 then 4 else 0) + (if b4 then 2 else 0) + (if b5 then 1 else 0)) 4 > 0
        ↔ b3 = true)
    ∧ (intAnd ((0 : Int) + (if b1 then 16 else 0) + (if b2 then 8 else 0)
        + (if b3 then 4 else 0) + (if b4 then 2 else 0) + (if b5 then 1 else 0)) 2 > 0
        ↔ b4 = true)
    ∧ (intAnd ((0 : Int) + (if b1 then 16 else 0) + (if b2 then 8 else 0)
        + (if b3 then 4 else 0) + (if b4 then 2 else 0) + (if b5 then 1 else 0)) 1 > 0
        ↔ b5 = true) := by
  decide

theorem bool_mem (b : Bool) : b ∈ [true, false] := by cases b <;> simp

/-- Decoding the character the encoder emits reproduces the encoder's
intervals. -/
theorem charStep_encBits (latitude longitude : ℚ) (st : DecodeState) :
    (charStep st (alphabetAt
        (encBits latitude longitude bits st.isEven st.lat st.lng 0).2.2.2)).isEven
      = (encBits latitude longitude bits st.isEven st.lat st.lng 0).1
    ∧ (charStep st (alphabetAt
        (encBits latitude longitude bits st.isEven st.lat st.lng 0).2.2.2)).lat
      = (encBits latitude longitude bits st.isEven st.lat st.lng 0).2.1
    ∧ (charStep st (alphabetAt
        (encBits latitude longitude bits st.isEven st.lat st.lng 0).2.2.2)).lng
      = (encBits latitude longitude bits st.isEven st.lat st.lng 0).2.2.1 := by
  let r1 := bisect latitude longitude st.isEven st.lat st.lng
  let r2 := bisect latitude longitude (!st.isEven) r1.1 r1.2.1
  let r3 := bisect latitude longitude (!!st.isEven) r2.1 r2.2.1
  let r4 := bisect latitude longitude (!!!st.isEven) r3.1 r3.2.1
  let r5 := bisect latitude longitude (!!!!st.isEven) r4.1 r4.2.1
  have hv : encBits latitude longitude bits st.isEven st.lat st.lng 0
      = (!!!!!st.isEven, r5.1, r5.2.1,
          (0 : Int) + (if r1.2.2 then 16 else 0) + (if r2.2.2 then 8 else 0)
            + (if r3.2.2 then 4 else 0) + (if r4.2.2 then 2 else 0)
            + (if r5.2.2 then 1 else 0)) := rfl
  obtain ⟨hcd, q1, q2, q3, q4, q5⟩ := alphabet_bits r1.2.2 (bool_mem _) r2.2.2 (bool_mem _)
    r3.2.2 (bool_mem _) r4.2.2 (bool_mem _) r5.2.2 (bool_mem _)
  rw [hv]
  simp only
  have hstep : ∀ c, charStep st c
      = bitStep (stringsIndex base32 [c]) (bitStep (stringsIndex base32 [c])
          (bitStep (stringsIndex base32 [c]) (bitStep (stringsIndex base32 [c])
            (bitStep (stringsIndex base32 [c]) st 16) 8) 4) 2) 1 := fun _ => rfl
  rw [hstep, hcd]
  generalize (0 : Int) + (if r1.2.2 then 16 else 0) + (if r2.2.2 then 8 else 0)
            + (if r3.2.2 then 4 else 0) + (if r4.2.2 then 2 else 0)
            + (if r5.2.2 then 1 else 0) = cd at q1 q2 q3 q4 q5 ⊢
  obtain ⟨a1, b1, c1⟩ := bitStep_bisect latitude longitude cd 16 st q1
  obtain ⟨a2, b2, c2⟩ := bitStep_bisect latitude longitude cd 8 (bitStep cd st 16)
    (by rw [a1, b1, c1]; exact q2)
  obtain ⟨a3, b3, c3⟩ := bitStep_bisect latitude longitude cd 4 (bitStep cd (bitStep cd st 16) 8)
    (by rw [a2, b2, c2, a1, b1, c1]; exact q3)
  obtain ⟨a4, b4, c4⟩ := bitStep_bisect latitude longitude cd 2
    (bitStep cd (bitStep cd (bitStep cd st 16) 8) 4)
    (by rw [a3, b3, c3, a2, b2, c2, a1, b1, c1]; exact q4)
  obtain ⟨a5, b5, c5⟩ := bitStep_bisect latitude longitude cd 1
    (bitStep cd (bitStep cd (bitStep cd (bitStep cd st 16) 8) 4) 2)
    (by rw [a4, b4, c4, a3, b3, c3, a2, b2, c2, a1, b1, c1]; exact q5)
  refine ⟨?_, ?_, ?_⟩
  · rw [a5, a4, a3, a2, a1]
  · rw [b5, a4, b4, c4, a3, b3, c3, a2, b2, c2, a1, b1, c1]
  · rw [c5, a4, b4, c4, a3, b3, c3, a2, b2, c2, a1, b1, c1]

theorem encBits_contains (latitude longitude : ℚ) :
    ∀ (ws : List Int) (e : Bool) (lat lng : ℚ × ℚ) (ch : Int),
      (lat.1 ≤ latitude ∧ latitude ≤ lat.2) → (lng.1 ≤ longitude ∧ longitude ≤ lng.2) →
      ((encBits latitude longitude ws e lat lng ch).2.1.1 ≤ latitude
        ∧ latitude ≤ (encBits latitude longitude ws e lat lng ch).2.1.2)
      ∧ ((encBits latitude longitude ws e lat lng ch).2.2.1.1 ≤ longitude
        ∧ longitude ≤ (encBits latitude longitude ws e lat lng ch).2.2.1.2) := by
  intro ws
  induction ws with
  | nil => intro e lat lng ch hlat hlng; exact ⟨hlat, hlng⟩
  | cons w ws ih =>
    intro e lat lng ch hlat hlng
    obtain ⟨h1, h2⟩ := bisect_contains latitude longitude e lat lng hlat hlng
    exact ih _ _ _ _ h1 h2

/-- Decoding what the encoder emits keeps the encoded point inside both
intervals. -/
theorem decode_encChars_contains (latitude longitude : ℚ) :
    ∀ (n : Nat) (st : DecodeState),
      (st.lat.1 ≤ latitude ∧ latitude ≤ st.lat.2) →
      (st.lng.1 ≤ longitude ∧ longitude ≤ st.lng.2) →
      (((encChars latitude longitude n st.isEven st.lat st.lng).foldl charStep st).lat.1
          ≤ latitude
        ∧ latitude
          ≤ ((encChars latitude longitude n st.isEven st.lat st.lng).foldl charStep st).lat.2)
      ∧ (((encChars latitude longitude n st.isEven st.lat st.lng).foldl charStep st).lng.1
          ≤ longitude
        ∧ longitude
          ≤ ((encChars latitude longitude n st.isEven st.lat st.lng).foldl charStep st).lng.2) := by
  intro n
  induction n with
  | zero => intro st hlat hlng; exact ⟨hlat, hlng⟩
  | succ n ih =>
    intro st hlat hlng
    obtain ⟨h1, h2, h3⟩ := charStep_encBits latitude longitude st
    obtain ⟨k1, k2⟩ := encBits_contains latitude longitude bits st.isEven st.lat st.lng 0
      hlat hlng
    simp only [encChars, List.foldl]
    rw [← h1, ← h2, ← h3]
    apply ih
    · rw [h2]; exact k1
    · rw [h3]; exact k2

/-! ### Direction strings, result shape and carry past the first character -/

theorem dirIndex_default (dir : String) (h1 : dir ≠ "right") (h2 : dir ≠ "bottom")
    (h3 : dir ≠ "left") : dirIndex dir = dirIndex "top" := by
  unfold dirIndex
  rw [if_neg h1, if_neg h2, if_neg h3]
  rfl

/-- A successful `CalculateAdjacent` on a geohash over the alphabet returns a
geohash over the alphabet of the same length, whatever the direction string. -/
theorem adjacent_valid_length (dir : String) :
    ∀ (g h : GoString), (∀ c ∈ g, c ∈ base32) → CalculateAdjacent g dir = Except.ok h →
      (∀ c ∈ h, c ∈ base32) ∧ h.length = g.length := by
  intro g
  induction g using List.reverseRecOn with
  | nil =>
    intro h _ hr
    rw [CalculateAdjacent_nil] at hr
    cases hr
  | append_singleton b c ih =>
    intro h hv hr
    have hb : ∀ x ∈ b, x ∈ base32 := fun x hx => hv x (by simp [hx])
    have hc : c ∈ base32 := hv c (by simp)
    rw [CalculateAdjacent_valid_snoc b c dir hb hc] at hr
    obtain ⟨n1, _, _⟩ := nbr_inverse (dirIndex dir) (dirIndex_mem dir)
      (((b.length + 1 : Nat) : Int) % 2) (parity_mem _) c hc
    cases hbd : isBorder (dirIndex dir) (((b.length + 1 : Nat) : Int) % 2) c with
    | true =>
      rw [hbd, if_pos rfl] at hr
      cases hrec : CalculateAdjacent b dir with
      | error e => rw [hrec] at hr; cases hr
      | ok b' =>
        rw [hrec, ok_bind] at hr
        injection hr with hr
        subst hr
        obtain ⟨v', l'⟩ := ih b' hb hrec
        refine ⟨?_, by simp [l']⟩
        intro x hx
        rcases List.mem_append.1 hx with hx | hx
        · exact v' x hx
        · rw [List.mem_singleton.1 hx]; exact n1
    | false =>
      rw [hbd, if_neg (by simp), ok_bind] at hr
      injection hr with hr
      subst hr
      refine ⟨?_, by simp⟩
      intro x hx
      rcases List.mem_append.1 hx with hx | hx
      · exact hb x hx
      · rw [List.mem_singleton.1 hx]; exact n1

theorem goIndex_mem {α : Type} (xs : List α) (i : Int) (x : α)
    (h : goIndex xs i = Except.ok x) : x ∈ xs := by
  unfold goIndex at h
  split at h
  · cases h
  · split at h
    · rename_i y hy
      injection h with h
      subst h
      exact List.get?_mem hy
    · cases h

/-- The shape of a successful result of one level of `CalculateAdjacent`. -/
theorem adjLast_ok (d p : Int) (base : GoString) (x : Char)
    (rec : Except Fault GoString) (h : GoString)
    (hr : adjLast d p base [x] rec = Except.ok h) :
    ∃ b' c', h = b' ++ [c'] ∧ c' ∈ base32 ∧ (b' = base ∨ rec = Except.ok b') := by
  unfold adjLast at hr
  cases h1 : goIndex borders d with
  | error e => rw [h1] at hr; cases hr
  | ok row =>
    rw [h1, ok_bind] at hr
    cases h2 : goIndex row p with
    | error e => rw [h2] at hr; cases hr
    | ok border =>
      rw [h2, ok_bind] at hr
      have key : ∀ b', (b' = base ∨ rec = Except.ok b') →
          ((Except.ok b' : Except Fault GoString) >>= fun base => do
            let neighborRow ← goIndex neighbors d
            let neighbor ← goIndex neighborRow p
            let c ← goIndex base32 (stringsIndex neighbor [x])
            pure (base ++ [c])) = Except.ok h →
          ∃ b' c', h = b' ++ [c'] ∧ c' ∈ base32 ∧ (b' = base ∨ rec = Except.ok b') := by
        intro b' hb' hk
        rw [ok_bind] at hk
        cases h3 : goIndex neighbors d with
        | error e => rw [h3] at hk; cases hk
        | ok nrow =>
          rw [h3, ok_bind] at hk
          cases h4 : goIndex nrow p with
          | error e => rw [h4] at hk; cases hk
          | ok nb =>
            rw [h4, ok_bind] at hk
            cases h5 : goIndex base32 (stringsIndex nb [x]) with
            | error e => rw [h5] at hk; cases hk
            | ok c' =>
              rw [h5, ok_bind, pure_eq_ok] at hk
              injection hk with hk
              exact ⟨b', c', hk.symm, goIndex_mem _ _ _ h5, hb'⟩
      by_cases hc : stringsIndex border [x] ≠ -1
      · rw [if_pos hc] at hr
        cases hrec : rec with
        | error e => rw [hrec] at hr; cases hr
        | ok b' =>
          rw [hrec] at hr
          obtain ⟨b'', c', e1, e2, e3⟩ := key b' (Or.inr hrec) hr
          exact ⟨b'', c', e1, e2, by rw [← hrec]; exact e3⟩
      · rw [if_neg hc, pure_eq_ok] at hr
        exact key base (Or.inl rfl) hr

theorem toLower_not_upper (c : Char) : ¬ (65 ≤ c.toLower.toNat ∧ c.toLower.toNat ≤ 90) := by
  by_cases h : c.toNat ≥ 65 ∧ c.toNat ≤ 90
  · have e : c.toLower = Char.ofNat (c.toNat + 32) := by
      unfold Char.toLower
      simp only [h, and_self, if_true]
    have hn := ofNat_lower_toNat c.toNat (List.mem_range.2 (by omega)) h.1
    rw [e, hn]
    omega
  · have e : c.toLower = c := by
      unfold Char.toLower
      simp only [h, if_false]
    rw [e]
    exact h

set_option maxRecDepth 100000 in
theorem base32_not_upper : ∀ c ∈ base32, ¬ (65 ≤ c.toNat ∧ c.toNat ≤ 90) := by
  decide

/-- Every string `CalculateAdjacent` returns is free of upper-case letters. -/
theorem adjacent_lowercase (dir : String) :
    ∀ (g h : GoString), CalculateAdjacent g dir = Except.ok h →
      ∀ c ∈ h, ¬ (65 ≤ c.toNat ∧ c.toNat ≤ 90) := by
  intro g
  induction g using List.reverseRecOn with
  | nil =>
    intro h hr
    rw [CalculateAdjacent_nil] at hr
    cases hr
  | append_singleton b x ih =>
    intro h hr
    rw [CalculateAdjacent_snoc, CalculateAdjacent_toLower] at hr
    obtain ⟨b', c', e1, e2, e3⟩ := adjLast_ok _ _ _ _ _ _ hr
    subst e1
    intro c hc
    rcases List.mem_append.1 hc with hc | hc
    · rcases e3 with e3 | e3
      · subst e3
        unfold toLower at hc
        obtain ⟨y, _, hy⟩ := List.mem_map.1 hc
        rw [← hy]
        exact toLower_not_upper y
      · exact ih b' e3 c hc
    · rw [List.mem_singleton.1 hc]
      exact base32_not_upper c' e2

theorem allBorder_snoc (d : Int) (b : GoString) (c : Char) :
    AllBorder d (b ++ [c])
      ↔ AllBorder d b ∧ isBorder d (((b.length + 1 : Nat) : Int) % 2) c = true := by
  constructor
  · intro h
    constructor
    · intro i hi
      have := h i (by simp; omega)
      simp only [List.get_eq_getElem] at this ⊢
      rwa [List.getElem_append_left hi] at this
    · have := h b.length (by simp)
      simpa using this
  · rintro ⟨h1, h2⟩ i hi
    simp only [List.length_append, List.length_singleton] at hi
    by_cases hlt : i < b.length
    · have := h1 i hlt
      simp only [List.get_eq_getElem] at this ⊢
      rwa [List.getElem_append_left hlt]
    · have e : i = b.length := by omega
      subst e
      simpa using h2

/-- On a geohash over the alphabet `CalculateAdjacent` either carries past
the first character (slice bounds fault on the empty string), exactly when
every character is a border character, or returns a string. -/
theorem adjacent_outcome (dir : String) :
    ∀ g : GoString, (∀ c ∈ g, c ∈ base32) →
      (AllBorder (dirIndex dir) g → CalculateAdjacent g dir = Except.error Fault.sliceBounds)
      ∧ (¬ AllBorder (dirIndex dir) g → ∃ h, CalculateAdjacent g dir = Except.ok h) := by
  intro g
  induction g using List.reverseRecOn with
  | nil =>
    intro _
    refine ⟨fun _ => CalculateAdjacent_nil dir, fun h => ?_⟩
    exact absurd (fun i hi => absurd hi (Nat.not_lt_zero i)) h
  | append_singleton b c ih =>
    intro hv
    have hb : ∀ x ∈ b, x ∈ base32 := fun x hx => hv x (by simp [hx])
    have hc : c ∈ base32 := hv c (by simp)
    obtain ⟨ih1, ih2⟩ := ih hb
    rw [CalculateAdjacent_valid_snoc b c dir hb hc, allBorder_snoc]
    cases hbd : isBorder (dirIndex dir) (((b.length + 1 : Nat) : Int) % 2) c with
    | true =>
      rw [if_pos rfl]
      constructor
      · rintro ⟨ha, _⟩
        rw [ih1 ha]
        rfl
      · intro hn
        have hnb : ¬ AllBorder (dirIndex dir) b := fun ha => hn ⟨ha, rfl⟩
        obtain ⟨b', hb'⟩ := ih2 hnb
        rw [hb', ok_bind]
        exact ⟨_, rfl⟩
    | false =>
      rw [if_neg (by simp), ok_bind]
      constructor
      · rintro ⟨_, hf⟩
        cases hf
      · intro _
        exact ⟨_, rfl⟩

/-! ### Bytes outside the alphabet in the decoder -/

/-- Two latitudes that compare alike with every midpoint met along the way
(the intervals satisfying `P`) are bisected alike. -/
theorem bisect_congr_lat (L1 L2 G : ℚ) (P : ℚ × ℚ → Prop)
    (hP : ∀ iv, P iv →
      ((L1 > (iv.1 + iv.2) / 2 ↔ L2 > (iv.1 + iv.2) / 2)
        ∧ (L1 > (iv.1 + iv.2) / 2 → P ((iv.1 + iv.2) / 2, iv.2))
        ∧ (¬ L1 > (iv.1 + iv.2) / 2 → P (iv.1, (iv.1 + iv.2) / 2))))
    (e : Bool) (lat lng : ℚ × ℚ) (h : P lat) :
    bisect L1 G e lat lng = bisect L2 G e lat lng ∧ P (bisect L1 G e lat lng).1 := by
  obtain ⟨h1, h2, h3⟩ := hP lat h
  unfold bisect
  cases e
  · simp only [Bool.false_eq_true, if_false]
    by_cases hc : L1 > (lat.1 + lat.2) / 2
    · rw [if_pos hc, if_pos (h1.1 hc)]
      exact ⟨rfl, h2 hc⟩
    · rw [if_neg hc, if_neg (fun hh => hc (h1.2 hh))]
      exact ⟨rfl, h3 hc⟩
  · simp only [if_true]
    split <;> exact ⟨trivial, h⟩

theorem encBits_congr_lat (L1 L2 G : ℚ) (P : ℚ × ℚ → Prop)
    (hP : ∀ iv, P iv →
      ((L1 > (iv.1 + iv.2) / 2 ↔ L2 > (iv.1 + iv.2) / 2)
        ∧ (L1 > (iv.1 + iv.2) / 2 → P ((iv.1 + iv.2) / 2, iv.2))
        ∧ (¬ L1 > (iv.1 + iv.2) / 2 → P (iv.1, (iv.1 + iv.2) / 2)))) :
    ∀ (ws : List Int) (e : Bool) (lat lng : ℚ × ℚ) (ch : Int), P lat →
      encBits L1 G ws e lat lng ch = encBits L2 G ws e lat lng ch
        ∧ P (encBits L1 G ws e lat lng ch).2.1 := by
  intro ws
  induction ws with
  | nil => intro e lat lng ch h; exact ⟨rfl, h⟩
  | cons w ws ih =>
    intro e lat lng ch h
    obtain ⟨e1, p1⟩ := bisect_congr_lat L1 L2 G P hP e lat lng h
    simp only [encBits]
    rw [← e1]
    exact ih _ _ _ _ p1

theorem encChars_congr_lat (L1 L2 G : ℚ) (P : ℚ × ℚ → Prop)
    (hP : ∀ iv, P iv →
      ((L1 > (iv.1 + iv.2) / 2 ↔ L2 > (iv.1 + iv.2) / 2)
        ∧ (L1 > (iv.1 + iv.2) / 2 → P ((iv.1 + iv.2) / 2, iv.2))
        ∧ (¬ L1 > (iv.1 + iv.2) / 2 → P (iv.1, (iv.1 + iv.2) / 2)))) :
    ∀ (n : Nat) (e : Bool) (lat lng : ℚ × ℚ), P lat →
      encChars L1 G n e lat lng = encChars L2 G n e lat lng := by
  intro n
  induction n with
  | zero => intros; rfl
  | succ n ih =>
    intro e lat lng h
    obtain ⟨e1, p1⟩ := encBits_congr_lat L1 L2 G P hP bits e lat lng 0 h
    simp only [encChars]
    rw [← e1, ih _ _ _ p1]

theorem bisect_congr_lng (L G1 G2 : ℚ) (P : ℚ × ℚ → Prop)
    (hP : ∀ iv, P iv →
      ((G1 > (iv.1 + iv.2) / 2 ↔ G2 > (iv.1 + iv.2) / 2)
        ∧ (G1 > (iv.1 + iv.2) / 2 → P ((iv.1 + iv.2) / 2, iv.2))
        ∧ (¬ G1 > (iv.1 + iv.2) / 2 → P (iv.1, (iv.1 + iv.2) / 2))))
    (e : Bool) (lat lng : ℚ × ℚ) (h : P lng) :
    bisect L G1 e lat lng = bisect L G2 e lat lng ∧ P (bisect L G1 e lat lng).2.1 := by
  obtain ⟨h1, h2, h3⟩ := hP lng h
  unfold bisect
  cases e
  · simp only [Bool.false_eq_true, if_false]
    split <;> exact ⟨trivial, h⟩
  · simp only [if_true]
    by_cases hc : G1 > (lng.1 + lng.2) / 2
    · rw [if_pos hc, if_pos (h1.1 hc)]
      exact ⟨rfl, h2 hc⟩
    · rw [if_neg hc, if_neg (fun hh => hc (h1.2 hh))]
      exact ⟨rfl, h3 hc⟩

theorem encBits_congr_lng (L G1 G2 : ℚ) (P : ℚ × ℚ → Prop)
    (hP : ∀ iv, P iv →
      ((G1 > (iv.1 + iv.2) / 2 ↔ G2 > (iv.1 + iv.2) / 2)
        ∧ (G1 > (iv.1 + iv.2) / 2 → P ((iv.1 + iv.2) / 2, iv.2))
        ∧ (¬ G1 > (iv.1 + iv.2) / 2 → P (iv.1, (iv.1 + iv.2) / 2)))) :
    ∀ (ws : List Int) (e : Bool) (lat lng : ℚ × ℚ) (ch : Int), P lng →
      encBits L G1 ws e lat lng ch = encBits L G2 ws e lat lng ch
        ∧ P (encBits L G1 ws e lat lng ch).2.2.1 := by
  intro ws
  induction ws with
  | nil => intro e lat lng ch h; exact ⟨rfl, h⟩
  | cons w ws ih =>
    intro e lat lng ch h
    obtain ⟨e1, p1⟩ := bisect_congr_lng L G1 G2 P hP e lat lng h
    simp only [encBits]
    rw [← e1]
    exact ih _ _ _ _ p1

theorem encChars_congr_lng (L G1 G2 : ℚ) (P : ℚ × ℚ → Prop)
    (hP : ∀ iv, P iv →
      ((G1 > (iv.1 + iv.2) / 2 ↔ G2 > (iv.1 + iv.2) / 2)
        ∧ (G1 > (iv.1 + iv.2) / 2 → P ((iv.1 + iv.2) / 2, iv.2))
        ∧ (¬ G1 > (iv.1 + iv.2) / 2 → P (iv.1, (iv.1 + iv.2) / 2)))) :
    ∀ (n : Nat) (e : Bool) (lat lng : ℚ × ℚ), P lng →
      encChars L G1 n e lat lng = encChars L G2 n e lat lng := by
  intro n
  induction n with
  | zero => intros; rfl
  | succ n ih =>
    intro e lat lng h
    obtain ⟨e1, p1⟩ := encBits_congr_lng L G1 G2 P hP bits e lat lng 0 h
    simp only [encChars]
    rw [← e1, ih _ _ _ p1]

/-- A coordinate at or above the upper end `top` of the range is above every
midpoint met, as `top` itself is. -/
theorem saturate_high (x top : ℚ) (hx : top ≤ x) :
    ∀ iv : ℚ × ℚ, (iv.1 < top ∧ iv.2 = top) →
      ((x > (iv.1 + iv.2) / 2 ↔ top > (iv.1 + iv.2) / 2)
        ∧ (x > (iv.1 + iv.2) / 2 →
            ((iv.1 + iv.2) / 2 < top ∧ iv.2 = top))
        ∧ (¬ x > (iv.1 + iv.2) / 2 → (iv.1 < top ∧ (iv.1 + iv.2) / 2 = top))) := by
  rintro ⟨lo, hi⟩ ⟨h1, h2⟩
  simp only at h1 h2 ⊢
  subst h2
  have hm : (lo + hi) / 2 < hi := by linarith
  refine ⟨⟨fun _ => hm, fun _ => by linarith⟩, fun _ => ⟨hm, rfl⟩, fun hn => ?_⟩
  exact absurd (by linarith : x > (lo + hi) / 2) hn

/-- A coordinate at or below the lower end `bot` of the range is above no
midpoint met, as `bot` itself is. -/
theorem saturate_low (x bot : ℚ) (hx : x ≤ bot) :
    ∀ iv : ℚ × ℚ, (iv.1 = bot ∧ bot < iv.2) →
      ((x > (iv.1 + iv.2) / 2 ↔ bot > (iv.1 + iv.2) / 2)
        ∧ (x > (iv.1 + iv.2) / 2 → ((iv.1 + iv.2) / 2 = bot ∧ bot < iv.2))
        ∧ (¬ x > (iv.1 + iv.2) / 2 → (iv.1 = bot ∧ bot < (iv.1 + iv.2) / 2))) := by
  rintro ⟨lo, hi⟩ ⟨h1, h2⟩
  simp only at h1 h2 ⊢
  subst h1
  have hm : lo < (lo + hi) / 2 := by linarith
  refine ⟨⟨fun h => ?_, fun h => ?_⟩, fun h => ?_, fun _ => ⟨rfl, hm⟩⟩
  · exact absurd h (by linarith)
  · exact absurd h (by linarith)
  · exact absurd h (by linarith)

/-! ### The encoder at a point inside a decoded cell -/

theorem bitStep_facts (latitude longitude : ℚ) (cd w : Int) (st : DecodeState)
    (hn : NonDeg st) :
    NonDeg (bitStep cd st w)
    ∧ (Inside latitude longitude (bitStep cd st w) →
        Inside latitude longitude st
        ∧ (intAnd cd w > 0
            ↔ (bisect latitude longitude st.isEven st.lat st.lng).2.2 = true)) := by
  obtain ⟨n1, n2⟩ := hn
  unfold NonDeg Inside bitStep refineInterval bisect
  cases h : st.isEven
  · simp only [Bool.false_eq_true, if_false]
    by_cases hc : intAnd cd w > 0
    · simp only [if_pos hc]
      refine ⟨⟨by linarith, n2⟩, ?_⟩
      rintro ⟨⟨a, b⟩, c⟩
      refine ⟨⟨⟨by linarith, b⟩, c⟩, ?_⟩
      rw [if_pos a]
      simp [hc]
    · simp only [if_neg hc]
      refine ⟨⟨by linarith, n2⟩, ?_⟩
      rintro ⟨⟨a, b⟩, c⟩
      refine ⟨⟨⟨a, by linarith⟩, c⟩, ?_⟩
      rw [if_neg (not_lt.2 b)]
      simp [hc]
  · simp only [if_true]
    by_cases hc : intAnd cd w > 0
    · simp only [if_pos hc]
      refine ⟨⟨n1, by linarith⟩, ?_⟩
      rintro ⟨c, ⟨a, b⟩⟩
      refine ⟨⟨c, ⟨by linarith, b⟩⟩, ?_⟩
      rw [if_pos a]
      simp [hc]
    · simp only [if_neg hc]
      refine ⟨⟨n1, by linarith⟩, ?_⟩
      rintro ⟨c, ⟨a, b⟩⟩
      refine ⟨⟨c, ⟨a, by linarith⟩⟩, ?_⟩
      rw [if_neg (not_lt.2 b)]
      simp [hc]

set_option maxRecDepth 100000 in
theorem index_bits_sum : ∀ c ∈ base32,
    (0 : Int) + (if intAnd (stringsIndex base32 [c]) 16 > 0 then 16 else 0)
        + (if intAnd (stringsIndex base32 [c]) 8 > 0 then 8 else 0)
        + (if intAnd (stringsIndex base32 [c]) 4 > 0 then 4 else 0)
        + (if intAnd (stringsIndex base32 [c]) 2 > 0 then 2 else 0)
        + (if intAnd (stringsIndex base32 [c]) 1 > 0 then 1 else 0)
      = stringsIndex base32 [c]
    ∧ alphabetAt (stringsIndex base32 [c]) = c := by
  decide

/-- For a point inside the cell reached by decoding the alphabet character
`c`, the encoder's five bisections from the same state emit `c` and arrive at
that cell. -/
theorem encBits_of_inside (latitude longitude : ℚ) (st : DecodeState) (c : Char)
    (hc : c ∈ base32) (hn : NonDeg st)
    (hin : Inside latitude longitude (charStep st c)) :
    encBits latitude longitude bits st.isEven st.lat st.lng 0
        = ((charStep st c).isEven, (charStep st c).lat, (charStep st c).lng,
            stringsIndex base32 [c])
    ∧ Inside latitude longitude st ∧ NonDeg (charStep st c) := by
  obtain ⟨hsum, _⟩ := index_bits_sum c hc
  have hstep : charStep st c
      = bitStep (stringsIndex base32 [c]) (bitStep (stringsIndex base32 [c])
          (bitStep (stringsIndex base32 [c]) (bitStep (stringsIndex base32 [c])
            (bitStep (stringsIndex base32 [c]) st 16) 8) 4) 2) 1 := rfl
  rw [hstep] at hin ⊢
  generalize stringsIndex base32 [c] = cd at hsum hin ⊢
  obtain ⟨nd1, f1⟩ := bitStep_facts latitude longitude cd 16 st hn
  obtain ⟨nd2, f2⟩ := bitStep_facts latitude longitude cd 8 _ nd1
  obtain ⟨nd3, f3⟩ := bitStep_facts latitude longitude cd 4 _ nd2
  obtain ⟨nd4, f4⟩ := bitStep_facts latitude longitude cd 2 _ nd3
  obtain ⟨nd5, f5⟩ := bitStep_facts latitude longitude cd 1 _ nd4
  obtain ⟨i4, g5⟩ := f5 hin
  obtain ⟨i3, g4⟩ := f4 i4
  obtain ⟨i2, g3⟩ := f3 i3
  obtain ⟨i1, g2⟩ := f2 i2
  obtain ⟨i0, g1⟩ := f1 i1
  obtain ⟨a1, b1, c1⟩ := bitStep_bisect latitude longitude cd 16 st g1
  obtain ⟨a2, b2, c2⟩ := bitStep_bisect latitude longitude cd 8 _ g2
  obtain ⟨a3, b3, c3⟩ := bitStep_bisect latitude longitude cd 4 _ g3
  obtain ⟨a4, b4, c4⟩ := bitStep_bisect latitude longitude cd 2 _ g4
  obtain ⟨a5, b5, c5⟩ := bitStep_bisect latitude longitude cd 1 _ g5
  refine ⟨?_, i0, nd5⟩
  simp only [encBits, bits]
  rw [← b1, ← c1, ← a1, ← b2, ← c2, ← a2, ← b3, ← c3, ← a3, ← b4, ← c4, ← a4, ← b5, ← c5, ← a5]
  simp only [← g1, ← g2, ← g3, ← g4, ← g5]
  rw [hsum]

theorem charStep_nondeg (st : DecodeState) (c : Char) (hn : NonDeg st) :
    NonDeg (charStep st c) := by
  have hstep : charStep st c
      = bitStep (stringsIndex base32 [c]) (bitStep (stringsIndex base32 [c])
          (bitStep (stringsIndex base32 [c]) (bitStep (stringsIndex base32 [c])
            (bitStep (stringsIndex base32 [c]) st 16) 8) 4) 2) 1 := rfl
  rw [hstep]
  have nd1 := (bitStep_facts 0 0 (stringsIndex base32 [c]) 16 st hn).1
  have nd2 := (bitStep_facts 0 0 (stringsIndex base32 [c]) 8 _ nd1).1
  have nd3 := (bitStep_facts 0 0 (stringsIndex base32 [c]) 4 _ nd2).1
  have nd4 := (bitStep_facts 0 0 (stringsIndex base32 [c]) 2 _ nd3).1
  exact (bitStep_facts 0 0 (stringsIndex base32 [c]) 1 _ nd4).1

theorem charStep_inside (latitude longitude : ℚ) (st : DecodeState) (c : Char)
    (hn : NonDeg st) (hin : Inside latitude longitude (charStep st c)) :
    Inside latitude longitude st := by
  have hstep : charStep st c
      = bitStep (stringsIndex base32 [c]) (bitStep (stringsIndex base32 [c])
          (bitStep (stringsIndex base32 [c]) (bitStep (stringsIndex base32 [c])
            (bitStep (stringsIndex base32 [c]) st 16) 8) 4) 2) 1 := rfl
  rw [hstep] at hin
  obtain ⟨nd1, f1⟩ := bitStep_facts latitude longitude (stringsIndex base32 [c]) 16 st hn
  obtain ⟨nd2, f2⟩ := bitStep_facts latitude longitude (stringsIndex base32 [c]) 8 _ nd1
  obtain ⟨nd3, f3⟩ := bitStep_facts latitude longitude (stringsIndex base32 [c]) 4 _ nd2
  obtain ⟨nd4, f4⟩ := bitStep_facts latitude longitude (stringsIndex base32 [c]) 2 _ nd3
  obtain ⟨_, f5⟩ := bitStep_facts latitude longitude (stringsIndex base32 [c]) 1 _ nd4
  exact (f1 (f2 (f3 (f4 (f5 hin).1).1).1).1).1

theorem foldl_charStep_inside (latitude longitude : ℚ) :
    ∀ (g : GoString) (st : DecodeState), NonDeg st →
      Inside latitude longitude (g.foldl charStep st) → Inside latitude longitude st := by
  intro g
  induction g with
  | nil => intro st _ h; exact h
  | cons c t ih =>
    intro st hn h
    exact charStep_inside latitude longitude st c hn
      (ih (charStep st c) (charStep_nondeg st c hn) h)

/-- For a point inside the cell of the geohash `g` (decoded from `st`), the
encoder started from `st` first emits `g` and then continues from that cell. -/
theorem encChars_of_inside (latitude longitude : ℚ) (k : Nat) :
    ∀ (g : GoString) (st : DecodeState), (∀ c ∈ g, c ∈ base32) → NonDeg st →
      Inside latitude longitude (g.foldl charStep st) →
      encChars latitude longitude (g.length + k) st.isEven st.lat st.lng
        = g ++ encChars latitude longitude k (g.foldl charStep st).isEven
            (g.foldl charStep st).lat (g.foldl charStep st).lng := by
  intro g
  induction g with
  | nil => intro st _ _ _; simp
  | cons c t ih =>
    intro st hv hn hin
    have hc : c ∈ base32 := hv c (by simp)
    have ht : ∀ x ∈ t, x ∈ base32 := fun x hx => hv x (by simp [hx])
    have hn1 := charStep_nondeg st c hn
    have hin1 : Inside latitude longitude (charStep st c) :=
      foldl_charStep_inside latitude longitude t _ hn1 hin
    obtain ⟨he, _, _⟩ := encBits_of_inside latitude longitude st c hc hn hin1
    have hlen : (c :: t).length + k = (t.length + k) + 1 := by simp; omega
    rw [hlen]
    simp only [encChars, he, List.foldl_cons, List.cons_append]
    rw [(index_bits_sum c hc).2, ih (charStep st c) ht hn1 hin]

/-- At the upper end of both intervals every bisection goes up: the encoder
emits only `'z'`. -/
theorem encChars_corner (latitude longitude : ℚ) :
    ∀ (k : Nat) (e : Bool) (lat lng : ℚ × ℚ),
      lat.1 < latitude → lat.2 = latitude → lng.1 < longitude → lng.2 = longitude →
      encChars latitude longitude k e lat lng = List.replicate k 'z' := by
  have hb : ∀ (e : Bool) (lat lng : ℚ × ℚ),
      lat.1 < latitude → lat.2 = latitude → lng.1 < longitude → lng.2 = longitude →
      (bisect latitude longitude e lat lng).2.2 = true
      ∧ (bisect latitude longitude e lat lng).1.1 < latitude
      ∧ (bisect latitude longitude e lat lng).1.2 = latitude
      ∧ (bisect latitude longitude e lat lng).2.1.1 < longitude
      ∧ (bisect latitude longitude e lat lng).2.1.2 = longitude := by
    intro e lat lng h1 h2 h3 h4
    unfold bisect
    cases e
    · simp only [Bool.false_eq_true, if_false]
      rw [if_pos (by linarith)]
      exact ⟨rfl, by simp only; linarith, h2, h3, h4⟩
    · simp only [if_true]
      rw [if_pos (by linarith)]
      exact ⟨rfl, h1, h2, by simp only; linarith, h4⟩
  intro k
  induction k with
  | zero => intros; rfl
  | succ k ih =>
    intro e lat lng h1 h2 h3 h4
    obtain ⟨p1, q1, r1, s1, t1⟩ := hb e lat lng h1 h2 h3 h4
    obtain ⟨p2, q2, r2, s2, t2⟩ := hb (!e) _ _ q1 r1 s1 t1
    obtain ⟨p3, q3, r3, s3, t3⟩ := hb (!!e) _ _ q2 r2 s2 t2
    obtain ⟨p4, q4, r4, s4, t4⟩ := hb (!!!e) _ _ q3 r3 s3 t3
    obtain ⟨p5, q5, r5, s5, t5⟩ := hb (!!!!e) _ _ q4 r4 s4 t4
    simp only [encChars, encBits, bits, List.replicate_succ]
    rw [ih _ _ _ q5 r5 s5 t5, p1, p2, p3, p4, p5]
    simp only [if_true]
    congr 1

theorem decodeInit_nondeg : NonDeg decodeInit := by
  constructor <;> norm_num [decodeInit]

/-- The encoder at a point inside the cell of `g`, in closed form. -/
theorem encode_of_inside (latitude longitude : ℚ) (g : GoString) (k : Nat)
    (hg : ∀ c ∈ g, c ∈ base32) (hin : Inside latitude longitude (decodeFold g)) :
    EncodeWithPrecision latitude longitude ((g.length + k : Nat) : Int)
      = Except.ok (g ++ encChars latitude longitude k (decodeFold g).isEven
          (decodeFold g).lat (decodeFold g).lng) := by
  rw [EncodeWithPrecision_eq, Int.toNat_ofNat]
  congr 1
  exact encChars_of_inside latitude longitude k g decodeInit hg decodeInit_nondeg hin

theorem decodeFold_dr12 :
    (decodeFold "dr12".toList).lat.2 = 39.55078125
    ∧ (decodeFold "dr12".toList).lng.2 = -76.640625 := by
  obtain ⟨_, hlng, hlat⟩ := decodeFold_closed "dr12".toList (by decide)
  have hX : specX "dr12".toList = 293 := by decide
  have hY : specY "dr12".toList = 736 := by decide
  rw [hlng, hlat, hX, hY]
  constructor <;> norm_num [subInterval]

/-- The north-east corner of the cell of `g` encodes to `g` followed by `'z'`s. -/
theorem encode_corner (g : GoString) (p : Int) (hg : ∀ c ∈ g, c ∈ base32)
    (hp : (g.length : Int) ≤ p) :
    EncodeWithPrecision (decodeFold g).lat.2 (decodeFold g).lng.2 p
      = Except.ok (g ++ List.replicate (p.toNat - g.length) 'z') := by
  obtain ⟨n1, n2⟩ := decodeFold_lt g
  have hpe : p = ((g.length + (p.toNat - g.length) : Nat) : Int) := by omega
  have hin : Inside (decodeFold g).lat.2 (decodeFold g).lng.2 (decodeFold g) :=
    ⟨⟨n1, le_refl _⟩, ⟨n2, le_refl _⟩⟩
  conv_lhs => rw [hpe]
  rw [encode_of_inside _ _ g _ hg hin, encChars_corner _ _ _ _ _ _ n1 rfl n2 rfl]

/-- Two geohashes over the alphabet of the same length with the same cell
are equal. -/
theorem decodeFold_injective (g1 g2 : GoString) (h1 : ∀ c ∈ g1, c ∈ base32)
    (h2 : ∀ c ∈ g2, c ∈ base32) (hl : g1.length = g2.length)
    (hlat : (decodeFold g1).lat = (decodeFold g2).lat)
    (hlng : (decodeFold g1).lng = (decodeFold g2).lng) : g1 = g2 := by
  obtain ⟨n1, n2⟩ := decodeFold_lt g1
  have hin1 : Inside (decodeFold g1).lat.2 (decodeFold g1).lng.2 (decodeFold g1) :=
    ⟨⟨n1, le_refl _⟩, ⟨n2, le_refl _⟩⟩
  have hin2 : Inside (decodeFold g1).lat.2 (decodeFold g1).lng.2 (decodeFold g2) := by
    rw [hlat, hlng]
    obtain ⟨m1, m2⟩ := decodeFold_lt g2
    exact ⟨⟨m1, le_refl _⟩, ⟨m2, le_refl _⟩⟩
  have e1 := encode_of_inside _ _ g1 0 h1 hin1
  have e2 := encode_of_inside _ _ g2 0 h2 hin2
  rw [Nat.add_zero] at e1 e2
  rw [hl, e2] at e1
  injection e1 with e1
  simpa [encChars] using e1.symm

/-! ### Diagonal neighbours -/

/-- A vertical move followed by a horizontal move and the same two moves in
the other order lead to the same string. -/
theorem diagonal_commute (g t r a b : GoString) (v h : String)
    (hg : ∀ c ∈ g, c ∈ base32) (hv : v ∈ ["top", "bottom"]) (hh : h ∈ ["right", "left"])
    (h1 : CalculateAdjacent g v = Except.ok t) (h2 : CalculateAdjacent t h = Except.ok a)
    (h3 : CalculateAdjacent g h = Except.ok r) (h4 : CalculateAdjacent r v = Except.ok b) :
    a = b := by
  obtain ⟨vt, lt⟩ := adjacent_valid_length v g t hg h1
  obtain ⟨va, la⟩ := adjacent_valid_length h t a vt h2
  obtain ⟨vr, lr⟩ := adjacent_valid_length h g r hg h3
  obtain ⟨vb, lb⟩ := adjacent_valid_length v r b vr h4
  obtain ⟨_, _, s1lng, s1lat⟩ := adjacent_shifted v g t hg h1
  obtain ⟨_, _, s2lng, s2lat⟩ := adjacent_shifted h t a vt h2
  obtain ⟨_, _, s3lng, s3lat⟩ := adjacent_shifted h g r hg h3
  obtain ⟨_, _, s4lng, s4lat⟩ := adjacent_shifted v r b vr h4
  have dv : dxOf (dirIndex v) = 0 := by
    simp only [List.mem_cons, List.mem_singleton, List.not_mem_nil, or_false] at hv
    rcases hv with e | e <;> subst e <;> decide
  have dh : dyOf (dirIndex h) = 0 := by
    simp only [List.mem_cons, List.mem_singleton, List.not_mem_nil, or_false] at hh
    rcases hh with e | e <;> subst e <;> decide
  apply decodeFold_injective a b va vb (by omega)
  · rw [s2lat, s1lat, s4lat, s3lat, dh]
    ext <;> simp only [Int.cast_zero] <;> ring
  · rw [s2lng, s1lng, s4lng, s3lng, dv]
    ext <;> simp only [Int.cast_zero] <;> ring

/-- The order of the entries of `CalculateAllAdjacent`. -/
theorem allAdjacent_entries (g : GoString) (vs : List GoString)
    (hr : CalculateAllAdjacent g = Except.ok vs) :
    ∃ t r b l tr tl br bl,
      CalculateAdjacent g "top" = Except.ok t
      ∧ CalculateAdjacent g "right" = Except.ok r
      ∧ CalculateAdjacent g "bottom" = Except.ok b
      ∧ CalculateAdjacent g "left" = Except.ok l
      ∧ CalculateAdjacent t "right" = Except.ok tr
      ∧ CalculateAdjacent t "left" = Except.ok tl
      ∧ CalculateAdjacent b "right" = Except.ok br
      ∧ CalculateAdjacent b "left" = Except.ok bl
      ∧ vs = [t, tr, tl, r, b, br, bl, l] := by
  simp only [CalculateAllAdjacent, List.foldlM_cons, List.foldlM_nil, allAdjacentStep] at hr
  cases ht : CalculateAdjacent g "top" with
  | error e => rw [ht] at hr; cases hr
  | ok t =>
    rw [ht, ok_bind] at hr
    simp only [true_or, if_true] at hr
    cases htr : CalculateAdjacent t "right" with
    | error e => rw [htr] at hr; cases hr
    | ok tr =>
      rw [htr, ok_bind] at hr
      cases htl : CalculateAdjacent t "left" with
      | error e => rw [htl] at hr; cases hr
      | ok tl =>
        rw [htl, ok_bind, pure_eq_ok, ok_bind] at hr
        cases hrr : CalculateAdjacent g "right" with
        | error e => rw [hrr] at hr; cases hr
        | ok r =>
          rw [hrr, ok_bind] at hr
          rw [if_neg (by decide), pure_eq_ok, ok_bind] at hr
          cases hb : CalculateAdjacent g "bottom" with
          | error e => rw [hb] at hr; cases hr
          | ok b =>
            rw [hb, ok_bind] at hr
            simp only [or_true, if_true] at hr
            cases hbr : CalculateAdjacent b "right" with
            | error e => rw [hbr] at hr; cases hr
            | ok br =>
              rw [hbr, ok_bind] at hr
              cases hbl : CalculateAdjacent b "left" with
              | error e => rw [hbl] at hr; cases hr
              | ok bl =>
                rw [hbl, ok_bind, pure_eq_ok, ok_bind] at hr
                cases hl : CalculateAdjacent g "left" with
                | error e => rw [hl] at hr; cases hr
                | ok l =>
                  rw [hl, ok_bind] at hr
                  rw [if_neg (by decide), pure_eq_ok, ok_bind, pure_eq_ok] at hr
                  injection hr with hr
                  exact ⟨t, r, b, l, tr, tl, br, bl, rfl, rfl, rfl, rfl, htr, htl, hbr, hbl,
                    by rw [← hr]; simp⟩

/-! ### float64 rounding -/

theorem f64ExpStep_spec (a s b : Nat) (h : a < 2 ^ (52 + s + 2 * b))
    (hl : s = 0 ∨ 2 ^ (52 + s) ≤ a) :
    a < 2 ^ (52 + f64ExpStep a s b + b)
      ∧ (f64ExpStep a s b = 0 ∨ 2 ^ (52 + f64ExpStep a s b) ≤ a) := by
  unfold f64ExpStep
  split
  · rename_i h1
    refine ⟨?_, Or.inr ?_⟩
    · have : 52 + (s + b) + b = 52 + s + 2 * b := by omega
      rw [this]; exact h
    · have : 52 + (s + b) = 52 + s + b := by omega
      rw [this]; exact h1
  · rename_i h1
    exact ⟨not_le.mp h1, hl⟩

theorem f64Exp_spec (a : Nat) (h : a < 2 ^ 2100) :
    a < 2 ^ (53 + f64Exp a) ∧ (f64Exp a = 0 ∨ 2 ^ (52 + f64Exp a) ≤ a) := by
  have e : f64Exp a = f64ExpStep a (f64ExpStep a (f64ExpStep a (f64ExpStep a (f64ExpStep a
      (f64ExpStep a (f64ExpStep a (f64ExpStep a (f64ExpStep a (f64ExpStep a (f64ExpStep a 0 1024)
      512) 256) 128) 64) 32) 16) 8) 4) 2) 1 := by
    simp only [f64Exp, List.foldl]
  rw [e]
  have e0 : 52 + 0 + 2 * 1024 = 2100 := rfl
  have h0 : a < 2 ^ (52 + 0 + 2 * 1024) := by rw [e0]; exact h
  obtain ⟨a1, b1⟩ := f64ExpStep_spec a 0 1024 h0 (Or.inl rfl)
  obtain ⟨a2, b2⟩ := f64ExpStep_spec a _ 512 a1 b1
  obtain ⟨a3, b3⟩ := f64ExpStep_spec a _ 256 a2 b2
  obtain ⟨a4, b4⟩ := f64ExpStep_spec a _ 128 a3 b3
  obtain ⟨a5, b5⟩ := f64ExpStep_spec a _ 64 a4 b4
  obtain ⟨a6, b6⟩ := f64ExpStep_spec a _ 32 a5 b5
  obtain ⟨a7, b7⟩ := f64ExpStep_spec a _ 16 a6 b6
  obtain ⟨a8, b8⟩ := f64ExpStep_spec a _ 8 a7 b7
  obtain ⟨a9, b9⟩ := f64ExpStep_spec a _ 4 a8 b8
  obtain ⟨a10, b10⟩ := f64ExpStep_spec a _ 2 a9 b9
  obtain ⟨a11, b11⟩ := f64ExpStep_spec a _ 1 a10 b10
  refine ⟨?_, b11⟩
  have : 52 + f64ExpStep a (f64ExpStep a (f64ExpStep a (f64ExpStep a (f64ExpStep a
      (f64ExpStep a (f64ExpStep a (f64ExpStep a (f64ExpStep a (f64ExpStep a (f64ExpStep a 0 1024)
      512) 256) 128) 64) 32) 16) 8) 4) 2) 1 + 1 = 53 + f64ExpStep a (f64ExpStep a (f64ExpStep a (f64ExpStep a (f64ExpStep a
      (f64ExpStep a (f64ExpStep a (f64ExpStep a (f64ExpStep a (f64ExpStep a (f64ExpStep a 0 1024)
      512) 256) 128) 64) 32) 16) 8) 4) 2) 1 := by omega
  rw [← this]; exact a11

theorem f64Exp_le (a B : Nat) (ha : a < 2 ^ 2100) (hB : a < 2 ^ (53 + B)) : f64Exp a ≤ B := by
  obtain ⟨_, h2⟩ := f64Exp_spec a ha
  rcases h2 with h2 | h2
  · omega
  · have : 2 ^ (52 + f64Exp a) < 2 ^ (53 + B) := lt_of_le_of_lt h2 hB
    have := (Nat.pow_lt_pow_iff_right (by norm_num : 1 < 2)).mp this
    omega

theorem f64RoundNat_mem (a : Nat) :
    f64RoundNat a = a / 2 ^ f64Exp a * 2 ^ f64Exp a
      ∨ f64RoundNat a = (a / 2 ^ f64Exp a + 1) * 2 ^ f64Exp a := by
  unfold f64RoundNat
  simp only []
  split
  · exact Or.inr rfl
  · exact Or.inl rfl

theorem f64RoundNat_of_dvd (a : Nat) (h : 2 ^ f64Exp a ∣ a) : f64RoundNat a = a := by
  have hq : 0 < 2 ^ f64Exp a := Nat.pow_pos (by norm_num)
  have hr : a % 2 ^ f64Exp a = 0 := Nat.mod_eq_zero_of_dvd h
  unfold f64RoundNat
  simp only [hr, Nat.mul_zero]
  rw [if_neg (by omega)]
  exact Nat.div_mul_cancel h

theorem f64RoundNat_err (a : Nat) :
    2 * f64RoundNat a ≤ 2 * a + 2 ^ f64Exp a ∧ 2 * a ≤ 2 * f64RoundNat a + 2 ^ f64Exp a := by
  have hq : 0 < 2 ^ f64Exp a := Nat.pow_pos (by norm_num)
  have hd := Nat.div_add_mod a (2 ^ f64Exp a)
  have hm := Nat.mod_lt a hq
  unfold f64RoundNat
  simp only []
  generalize 2 ^ f64Exp a = q at *
  generalize a / q = k at *
  generalize a % q = r at *
  have e1 : q * k = k * q := Nat.mul_comm _ _
  split
  · rename_i hc
    have : (k + 1) * q = k * q + q := by ring
    rw [this]
    rcases hc with hc | ⟨hc, _⟩ <;> omega
  · rename_i hc
    have hc1 : ¬ q < 2 * r := fun h => hc (Or.inl h)
    omega

/-- A number with at most 53 significant bits is a multiple of the spacing
around `a`, or lies below the binade of `a`. -/
theorem rep_cases (a b : Nat) (hb : ∃ K t : Nat, b = K * 2 ^ t ∧ K < 2 ^ 53) :
    2 ^ f64Exp a ∣ b ∨ (b < 2 ^ (52 + f64Exp a) ∧ 0 < f64Exp a) := by
  obtain ⟨K, t, rfl, hK⟩ := hb
  by_cases h : f64Exp a ≤ t
  · exact Or.inl (Dvd.dvd.mul_left (Nat.pow_dvd_pow 2 h) K)
  · refine Or.inr ⟨?_, by omega⟩
    have h1 : K * 2 ^ t < 2 ^ 53 * 2 ^ t :=
      Nat.mul_lt_mul_of_pos_right hK (Nat.pow_pos (by norm_num))
    have h2 : 2 ^ 53 * 2 ^ t = 2 ^ (53 + t) := by rw [pow_add]
    have h3 : 2 ^ (53 + t) ≤ 2 ^ (52 + f64Exp a) :=
      Nat.pow_le_pow_right (by norm_num) (by omega)
    omega

theorem f64Round_big (a : Nat) (ha : a < 2 ^ 2100) (hs : 0 < f64Exp a) :
    2 ^ (52 + f64Exp a) ≤ a / 2 ^ f64Exp a * 2 ^ f64Exp a := by
  obtain ⟨_, h2⟩ := f64Exp_spec a ha
  rcases h2 with h2 | h2
  · omega
  · have hq : 0 < 2 ^ f64Exp a := Nat.pow_pos (by norm_num)
    have e : 2 ^ (52 + f64Exp a) = 2 ^ 52 * 2 ^ f64Exp a := by rw [pow_add]
    rw [e] at h2 ⊢
    exact Nat.mul_le_mul_right _ ((Nat.le_div_iff_mul_le hq).mpr h2)

theorem f64RoundNat_ge (a b : Nat) (ha : a < 2 ^ 2100)
    (hb : ∃ K t : Nat, b = K * 2 ^ t ∧ K < 2 ^ 53) (h : b ≤ a) : b ≤ f64RoundNat a := by
  have hq : 0 < 2 ^ f64Exp a := Nat.pow_pos (by norm_num)
  have hlow : a / 2 ^ f64Exp a * 2 ^ f64Exp a ≤ f64RoundNat a := by
    rcases f64RoundNat_mem a with e | e <;> rw [e]
    exact Nat.mul_le_mul_right _ (Nat.le_succ _)
  rcases rep_cases a b hb with ⟨c, rfl⟩ | ⟨h1, h2⟩
  · have : c ≤ a / 2 ^ f64Exp a := (Nat.le_div_iff_mul_le hq).mpr (by rw [Nat.mul_comm]; exact h)
    calc 2 ^ f64Exp a * c = c * 2 ^ f64Exp a := Nat.mul_comm _ _
      _ ≤ a / 2 ^ f64Exp a * 2 ^ f64Exp a := Nat.mul_le_mul_right _ this
      _ ≤ _ := hlow
  · have := f64Round_big a ha h2
    omega

theorem f64RoundNat_le (a b : Nat) (ha : a < 2 ^ 2100)
    (hb : ∃ K t : Nat, b = K * 2 ^ t ∧ K < 2 ^ 53) (h : a ≤ b) : f64RoundNat a ≤ b := by
  have hq : 0 < 2 ^ f64Exp a := Nat.pow_pos (by norm_num)
  rcases rep_cases a b hb with ⟨c, rfl⟩ | ⟨h1, h2⟩
  · by_cases hd : 2 ^ f64Exp a ∣ a
    · rw [f64RoundNat_of_dvd a hd]; exact h
    · have hne : a ≠ 2 ^ f64Exp a * c := fun e => hd ⟨c, e⟩
      have hlt : a < c * 2 ^ f64Exp a := by rw [Nat.mul_comm]; omega
      have : a / 2 ^ f64Exp a < c := (Nat.div_lt_iff_lt_mul hq).mpr hlt
      have hhigh : f64RoundNat a ≤ (a / 2 ^ f64Exp a + 1) * 2 ^ f64Exp a := by
        rcases f64RoundNat_mem a with e | e <;> rw [e]
        exact Nat.mul_le_mul_right _ (Nat.le_succ _)
      calc f64RoundNat a ≤ (a / 2 ^ f64Exp a + 1) * 2 ^ f64Exp a := hhigh
        _ ≤ c * 2 ^ f64Exp a := Nat.mul_le_mul_right _ this
        _ = 2 ^ f64Exp a * c := Nat.mul_comm _ _
  · obtain ⟨_, h3⟩ := f64Exp_spec a ha
    rcases h3 with h3 | h3 <;> omega

theorem f64RoundNat_rep (a : Nat) (ha : a < 2 ^ 2100) :
    ∃ K t : Nat, f64RoundNat a = K * 2 ^ t ∧ K < 2 ^ 53 := by
  have hq : 0 < 2 ^ f64Exp a := Nat.pow_pos (by norm_num)
  obtain ⟨h1, _⟩ := f64Exp_spec a ha
  have hk : a / 2 ^ f64Exp a < 2 ^ 53 := by
    rw [Nat.div_lt_iff_lt_mul hq, ← pow_add]; exact h1
  rcases f64RoundNat_mem a with e | e
  · exact ⟨_, _, e, hk⟩
  · by_cases h : a / 2 ^ f64Exp a + 1 < 2 ^ 53
    · exact ⟨_, _, e, h⟩
    · have : a / 2 ^ f64Exp a + 1 = 2 ^ 53 := by omega
      refine ⟨1, 53 + f64Exp a, ?_, by norm_num⟩
      rw [e, this, pow_add, Nat.one_mul]

theorem f64RoundNat_exact (a : Nat) (ha : a < 2 ^ 2100)
    (h : ∃ K t : Nat, a = K * 2 ^ t ∧ K < 2 ^ 53) : f64RoundNat a = a :=
  le_antisymm (f64RoundNat_le a a ha h le_rfl) (f64RoundNat_ge a a ha h le_rfl)

theorem f64Round_exact (n : Int) (hn : n.natAbs < 2 ^ 2100) (h : F64Rep n) : f64Round n = n := by
  unfold f64Round
  rw [f64RoundNat_exact _ hn h]
  split <;> omega

theorem f64Round_natAbs (n : Int) : (f64Round n).natAbs = f64RoundNat n.natAbs := by
  unfold f64Round
  split <;> simp

theorem f64Round_rep (n : Int) (hn : n.natAbs < 2 ^ 2100) : F64Rep (f64Round n) := by
  unfold F64Rep
  rw [f64Round_natAbs]
  exact f64RoundNat_rep _ hn

theorem f64Round_ge (x b : Int) (hx : x.natAbs < 2 ^ 2100) (hb : F64Rep b) (h : b ≤ x) :
    b ≤ f64Round x := by
  unfold f64Round
  split
  · have h1 : x.natAbs ≤ b.natAbs := by omega
    have := f64RoundNat_le x.natAbs b.natAbs hx hb h1
    omega
  · by_cases hb0 : b < 0
    · omega
    · have h1 : b.natAbs ≤ x.natAbs := by omega
      have := f64RoundNat_ge x.natAbs b.natAbs hx hb h1
      omega

theorem f64Round_le (x b : Int) (hx : x.natAbs < 2 ^ 2100) (hb : F64Rep b) (h : x ≤ b) :
    f64Round x ≤ b := by
  unfold f64Round
  split
  · by_cases hb0 : b < 0
    · have h1 : b.natAbs ≤ x.natAbs := by omega
      have := f64RoundNat_ge x.natAbs b.natAbs hx hb h1
      omega
    · omega
  · have h1 : x.natAbs ≤ b.natAbs := by omega
    have := f64RoundNat_le x.natAbs b.natAbs hx hb h1
    omega

theorem f64Round_err (x : Int) (B : Nat) (hx : x.natAbs < 2 ^ 2100)
    (hB : x.natAbs < 2 ^ (53 + B)) :
    2 * f64Round x ≤ 2 * x + 2 ^ B ∧ 2 * x ≤ 2 * f64Round x + 2 ^ B := by
  obtain ⟨h1, h2⟩ := f64RoundNat_err x.natAbs
  have hq : 2 ^ f64Exp x.natAbs ≤ 2 ^ B :=
    Nat.pow_le_pow_right (by norm_num) (f64Exp_le _ _ hx hB)
  have hq' : ((2 ^ B : Nat) : Int) = 2 ^ B := by push_cast; rfl
  unfold f64Round
  generalize 2 ^ f64Exp x.natAbs = q at *
  generalize f64RoundNat x.natAbs = r at *
  generalize (2 : Nat) ^ B = Q at *
  rw [← hq']
  split <;> omega

theorem f64Round_parity (x : Int) :
    f64Round x = x ∨ f64Round x % 2 = 0 := by
  by_cases hs : f64Exp x.natAbs = 0
  · left
    have hd : 2 ^ f64Exp x.natAbs ∣ x.natAbs := by rw [hs]; simp
    unfold f64Round
    rw [f64RoundNat_of_dvd _ hd]
    split <;> omega
  · right
    have hd : 2 ∣ f64RoundNat x.natAbs := by
      have h2 : 2 ∣ 2 ^ f64Exp x.natAbs := dvd_pow_self 2 hs
      rcases f64RoundNat_mem x.natAbs with e | e <;> rw [e] <;> exact Dvd.dvd.mul_left h2 _
    unfold f64Round
    split <;> omega

theorem f64Half_even (n : Int) (h : n % 2 = 0) : 2 * f64Half n = n := by
  unfold f64Half
  rw [if_pos h]
  omega

theorem f64Half_err (n : Int) : 2 * f64Half n ≤ n + 1 ∧ n ≤ 2 * f64Half n + 1 := by
  unfold f64Half
  split
  · omega
  · split <;> omega

theorem f64Half_bounds (a b n : Int) (h1 : 2 * a ≤ n) (h2 : n ≤ 2 * b) :
    a ≤ f64Half n ∧ f64Half n ≤ b := by
  unfold f64Half
  split
  · omega
  · split <;> omega

theorem F64Rep_of_lt (n : Int) (h : n.natAbs < 2 ^ 53) : F64Rep n :=
  ⟨n.natAbs, 0, by simp, h⟩

theorem F64Rep_double (n : Int) (h : F64Rep n) : F64Rep (2 * n) := by
  obtain ⟨K, t, e, hK⟩ := h
  refine ⟨K, t + 1, ?_, hK⟩
  rw [Int.natAbs_mul, e, pow_succ]
  simp only [Int.reduceAbs, Int.natAbs_ofNat]
  ring

theorem f64Half_rep (n : Int) (h : F64Rep n) : F64Rep (f64Half n) := by
  obtain ⟨K, t, e, hK⟩ := h
  by_cases hn : n % 2 = 0
  · have h2 := f64Half_even n hn
    have ha : n.natAbs = 2 * (f64Half n).natAbs := by omega
    rcases t with _ | t
    · simp only [pow_zero, Nat.mul_one] at e
      exact F64Rep_of_lt _ (by omega)
    · refine ⟨K, t, ?_, hK⟩
      have : K * 2 ^ (t + 1) = 2 * (K * 2 ^ t) := by rw [pow_succ]; ring
      omega
  · rcases t with _ | t
    · simp only [pow_zero, Nat.mul_one] at e
      have := f64Half_err n
      exact F64Rep_of_lt _ (by omega)
    · exfalso
      have : K * 2 ^ (t + 1) = 2 * (K * 2 ^ t) := by rw [pow_succ]; ring
      omega

theorem natAbs_lt_of_bounds (x B : Int) (h1 : -B < x) (h2 : x < B) (hB : B ≤ 2 ^ 2100) :
    x.natAbs < 2 ^ 2100 := by
  have e : ((2 ^ 2100 : Nat) : Int) = 2 ^ 2100 := by rw [Nat.cast_pow]; rfl
  generalize (2 : Nat) ^ 2100 = N at *
  omega

theorem pow_1083_le : (2 : Int) ^ 1083 ≤ 2 ^ 2100 :=
  pow_le_pow_right₀ (by norm_num) (by norm_num)

theorem f64Mid_between (lo hi : Int) (hlo : F64Rep lo) (hhi : F64Rep hi) (h : lo ≤ hi)
    (b1 : -2 ^ 1082 < lo) (b2 : hi < 2 ^ 1082) :
    lo ≤ f64Mid lo hi ∧ f64Mid lo hi ≤ hi ∧ F64Rep (f64Mid lo hi) := by
  have e : (2 : Int) ^ 1083 = 2 * 2 ^ 1082 := by rw [pow_succ]; ring
  have hs : (lo + hi).natAbs < 2 ^ 2100 :=
    natAbs_lt_of_bounds _ (2 ^ 1083) (by omega) (by omega) pow_1083_le
  have g1 := f64Round_ge (lo + hi) (2 * lo) hs (F64Rep_double lo hlo) (by omega)
  have g2 := f64Round_le (lo + hi) (2 * hi) hs (F64Rep_double hi hhi) (by omega)
  obtain ⟨k1, k2⟩ := f64Half_bounds lo hi _ g1 g2
  exact ⟨k1, k2, f64Half_rep _ (f64Round_rep _ hs)⟩

theorem f64Mid_exact (lo hi M : Int) (h : lo + hi = 2 * M) (hM : F64Rep M)
    (b1 : -2 ^ 1082 < M) (b2 : M < 2 ^ 1082) : f64Mid lo hi = M := by
  have e : (2 : Int) ^ 1083 = 2 * 2 ^ 1082 := by rw [pow_succ]; ring
  have hs : (2 * M).natAbs < 2 ^ 2100 :=
    natAbs_lt_of_bounds _ (2 ^ 1083) (by omega) (by omega) pow_1083_le
  unfold f64Mid
  rw [h, f64Round_exact _ hs (F64Rep_double M hM)]
  have := f64Half_even (2 * M) (by omega)
  omega

theorem f64Mid_err (lo hi : Int) (b1 : -2 ^ 1082 < lo) (b2 : lo < 2 ^ 1082)
    (b3 : -2 ^ 1082 < hi) (b4 : hi < 2 ^ 1082) :
    2 * f64Mid lo hi ≤ lo + hi + 2 ^ 1029 ∧ lo + hi ≤ 2 * f64Mid lo hi + 2 ^ 1029 := by
  have e : (2 : Int) ^ 1083 = 2 * 2 ^ 1082 := by rw [pow_succ]; ring
  have e2 : (2 : Int) ^ 1030 = 2 * 2 ^ 1029 := by rw [pow_succ]; ring
  have e3 : (1 : Int) ≤ 2 ^ 1029 := one_le_pow₀ (by norm_num)
  have hs : (lo + hi).natAbs < 2 ^ 2100 :=
    natAbs_lt_of_bounds _ (2 ^ 1083) (by omega) (by omega) pow_1083_le
  have hs2 : (lo + hi).natAbs < 2 ^ (53 + 1030) := by
    have e4 : ((2 ^ (53 + 1030) : Nat) : Int) = 2 ^ 1083 := by rw [Nat.cast_pow]; rfl
    generalize (2 : Nat) ^ (53 + 1030) = N at *
    omega
  obtain ⟨r1, r2⟩ := f64Round_err (lo + hi) 1030 hs hs2
  unfold f64Mid
  have hh := f64Half_err (f64Round (lo + hi))
  rcases f64Round_parity (lo + hi) with p | p
  · rw [p] at hh ⊢
    omega
  · have := f64Half_even _ p
    omega

/-! ### `Decode64` as a fold -/

theorem decodeBit64_ok (cd : Int) (st : DecodeState64) (j mask : Int)
    (h : goIndex bits j = Except.ok mask) :
    decodeBit64 cd st j = Except.ok (bitStep64 cd st mask) := by
  unfold decodeBit64 bitStep64
  rw [h, ok_bind]
  split <;> rfl

theorem decodeBit64_inner (cd : Int) (st : DecodeState64) :
    [0, 1, 2, 3, 4].foldlM (decodeBit64 cd) st
      = Except.ok (bits.foldl (bitStep64 cd) st) := by
  simp only [List.foldlM_cons, List.foldlM_nil]
  rw [decodeBit64_ok cd st 0 16 (by decide), ok_bind,
    decodeBit64_ok cd _ 1 8 (by decide), ok_bind,
    decodeBit64_ok cd _ 2 4 (by decide), ok_bind,
    decodeBit64_ok cd _ 3 2 (by decide), ok_bind,
    decodeBit64_ok cd _ 4 1 (by decide), ok_bind]
  rfl

theorem decodeLoop64_eq (g : GoString) (n : Nat) :
    ∀ (i : Nat) (st : DecodeState64), i + n = g.length →
      decodeLoop64 g n (i : Int) st = Except.ok ((g.drop i).foldl charStep64 st) := by
  induction n with
  | zero =>
    intro i st h
    have : g.drop i = [] := List.drop_eq_nil_of_le (by omega)
    rw [this]
    rfl
  | succ n ih =>
    intro i st h
    have hi : i < g.length := by omega
    rw [decodeLoop64, slice_one g i hi, ok_bind]
    simp only []
    rw [decodeBit64_inner, ok_bind]
    have := ih (i + 1) (bits.foldl (bitStep64 (stringsIndex base32 [g.get ⟨i, hi⟩])) st)
      (by omega)
    rw [Nat.cast_add, Nat.cast_one] at this
    rw [this, List.drop_eq_getElem_cons hi]
    rfl

theorem Decode64_eq (g : GoString) : Decode64 g = Except.ok (boxOf64 (decodeFold64 g)) := by
  unfold Decode64
  have := decodeLoop64_eq g g.length 0 decodeInit64 (by simp)
  rw [Nat.cast_zero] at this
  rw [this]
  rfl

theorem decodeFold64_snoc (g : GoString) (c : Char) :
    decodeFold64 (g ++ [c]) = charStep64 (decodeFold64 g) c := by
  simp [decodeFold64, List.foldl_append]

theorem charStep64_eq (st : DecodeState64) (c : Char) :
    charStep64 st c = bitStep64 (stringsIndex base32 [c]) (bitStep64 (stringsIndex base32 [c])
      (bitStep64 (stringsIndex base32 [c]) (bitStep64 (stringsIndex base32 [c])
        (bitStep64 (stringsIndex base32 [c]) st 16) 8) 4) 2) 1 := rfl

/-! ### What every state of `Decode64` satisfies -/

theorem natAbs_two_pow (n : Nat) : Int.natAbs ((2 : Int) ^ n) = 2 ^ n := by
  rw [Int.natAbs_pow]; rfl

theorem F64Rep_ofInt (z : Int) (h : z.natAbs < 2 ^ 53) : F64Rep (f64OfInt z) :=
  ⟨z.natAbs, 1074,
    (Int.natAbs_mul z (2 ^ 1074)).trans (congrArg (z.natAbs * ·) (natAbs_two_pow 1074)), h⟩

theorem pow_1082 : (2 : Int) ^ 1082 = 256 * 2 ^ 1074 := by
  rw [show (1082 : Nat) = 8 + 1074 from rfl, pow_add]; norm_num

theorem pow_1074_pos : (0 : Int) < 2 ^ 1074 := pow_pos (by norm_num) _

theorem good64_init (z : Int) (h0 : 0 ≤ z) (h : z < 256) :
    Good64 (f64OfInt (-z), f64OfInt z) := by
  have hp := pow_1074_pos
  refine ⟨F64Rep_ofInt _ ?_, F64Rep_ofInt _ ?_, ?_, ?_, ?_⟩
  · have : (2 : Nat) ^ 53 = 9007199254740992 := by norm_num
    omega
  · have : (2 : Nat) ^ 53 = 9007199254740992 := by norm_num
    omega
  · simp only [f64OfInt]; nlinarith
  · simp only [f64OfInt]; rw [pow_1082]; nlinarith
  · simp only [f64OfInt]; rw [pow_1082]; nlinarith

theorem refineInterval64_good (iv : Int × Int) (cd mask : Int) (h : Good64 iv) :
    Good64 (refineInterval64 iv cd mask)
      ∧ iv.1 ≤ (refineInterval64 iv cd mask).1 ∧ (refineInterval64 iv cd mask).2 ≤ iv.2 := by
  obtain ⟨h1, h2, h3, h4, h5⟩ := h
  obtain ⟨m1, m2, m3⟩ := f64Mid_between iv.1 iv.2 h1 h2 h3 h4 h5
  unfold refineInterval64
  split
  · exact ⟨⟨m3, h2, m2, by omega, h5⟩, m1, le_refl _⟩
  · exact ⟨⟨h1, m3, m1, h4, by omega⟩, le_refl _, m2⟩

theorem refineInterval64_width (iv : Int × Int) (cd mask : Int) (h : Good64 iv) :
    iv.2 - iv.1 ≤ 2 * ((refineInterval64 iv cd mask).2 - (refineInterval64 iv cd mask).1)
      + 2 ^ 1029 := by
  obtain ⟨_, _, h3, h4, h5⟩ := h
  obtain ⟨e1, e2⟩ := f64Mid_err iv.1 iv.2 h4 (by omega) (by omega) h5
  unfold refineInterval64
  split <;> simp only [] <;> omega

theorem refineInterval64_wide (W : Int) (k : Nat) (iv : Int × Int) (cd mask : Int)
    (h : Good64 iv) (hw : Wide64 W k iv) : Wide64 W (k + 1) (refineInterval64 iv cd mask) := by
  have h1 := refineInterval64_width iv cd mask h
  unfold Wide64 at hw ⊢
  have hP : (0 : Int) ≤ 2 ^ k := le_of_lt (pow_pos (by norm_num) _)
  have h2 := mul_le_mul_of_nonneg_left h1 hP
  rw [pow_succ]
  generalize (refineInterval64 iv cd mask).2 - (refineInterval64 iv cd mask).1 = w1 at *
  generalize iv.2 - iv.1 = w at *
  generalize (2 : Int) ^ 1029 = u at *
  generalize (2 : Int) ^ k = P at *
  linarith

theorem refineInterval64_strict (iv : Int × Int) (cd mask : Int) (h : Good64 iv)
    (hw : 2 ^ 1029 < iv.2 - iv.1) :
    (refineInterval64 iv cd mask).2 - (refineInterval64 iv cd mask).1 < iv.2 - iv.1 := by
  obtain ⟨_, _, h3, h4, h5⟩ := h
  obtain ⟨e1, e2⟩ := f64Mid_err iv.1 iv.2 h4 (by omega) (by omega) h5
  unfold refineInterval64
  split <;> simp only [] <;> omega

theorem inv64_init : Inv64 0 decodeInit64 := by
  refine ⟨rfl, good64_init 90 (by norm_num) (by norm_num),
    good64_init 180 (by norm_num) (by norm_num), ?_, ?_⟩
  · simp only [Wide64, decodeInit64, f64OfInt]
    have := pow_1074_pos
    norm_num
  · simp only [Wide64, decodeInit64, f64OfInt]
    have := pow_1074_pos
    norm_num

theorem bitStep64_inv (cd mask : Int) (m : Nat) (st : DecodeState64) (h : Inv64 m st) :
    Inv64 (m + 1) (bitStep64 cd st mask) ∧ Nested64 st (bitStep64 cd st mask) := by
  obtain ⟨he, glat, glng, wlng, wlat⟩ := h
  rcases Nat.mod_two_eq_zero_or_one m with hm | hm
  · have hE : st.isEven = true := by rw [he]; simp [hm]
    obtain ⟨g1, g2, g3⟩ := refineInterval64_good st.lng cd mask glng
    have w1 := refineInterval64_wide _ _ st.lng cd mask glng wlng
    have e1 : (m + 1 + 1) / 2 = (m + 1) / 2 + 1 := by omega
    have e2 : (m + 1) / 2 = m / 2 := by omega
    have e3 : (m + 1) % 2 = 1 := by omega
    unfold bitStep64
    rw [if_pos hE]
    refine ⟨⟨?_, glat, g1, ?_, ?_⟩, le_refl _, le_refl _, g2, g3⟩
    · simp [hE, e3]
    · rw [e1]; exact w1
    · rw [e2]; exact wlat
  · have hE : st.isEven = false := by rw [he]; simp [hm]
    obtain ⟨g1, g2, g3⟩ := refineInterval64_good st.lat cd mask glat
    have w1 := refineInterval64_wide _ _ st.lat cd mask glat wlat
    have e1 : (m + 1 + 1) / 2 = (m + 1) / 2 := by omega
    have e2 : (m + 1) / 2 = m / 2 + 1 := by omega
    have e3 : (m + 1) % 2 = 0 := by omega
    unfold bitStep64
    rw [if_neg (by rw [hE]; simp)]
    refine ⟨⟨?_, g1, glng, ?_, ?_⟩, g2, g3, le_refl _, le_refl _⟩
    · simp [hE, e3]
    · rw [e1]; exact wlng
    · rw [e2]; exact w1

theorem nested64_trans (a b c : DecodeState64) (h1 : Nested64 a b) (h2 : Nested64 b c) :
    Nested64 a c := by
  unfold Nested64 at *
  omega

theorem charStep64_inv (m : Nat) (st : DecodeState64) (c : Char) (h : Inv64 m st) :
    Inv64 (m + 5) (charStep64 st c) ∧ Nested64 st (charStep64 st c) := by
  rw [charStep64_eq]
  obtain ⟨i1, n1⟩ := bitStep64_inv (stringsIndex base32 [c]) 16 m st h
  obtain ⟨i2, n2⟩ := bitStep64_inv (stringsIndex base32 [c]) 8 _ _ i1
  obtain ⟨i3, n3⟩ := bitStep64_inv (stringsIndex base32 [c]) 4 _ _ i2
  obtain ⟨i4, n4⟩ := bitStep64_inv (stringsIndex base32 [c]) 2 _ _ i3
  obtain ⟨i5, n5⟩ := bitStep64_inv (stringsIndex base32 [c]) 1 _ _ i4
  exact ⟨i5, nested64_trans _ _ _ (nested64_trans _ _ _ (nested64_trans _ _ _
    (nested64_trans _ _ _ n1 n2) n3) n4) n5⟩

theorem decodeFold64_inv (g : GoString) : Inv64 (5 * g.length) (decodeFold64 g) := by
  induction g using List.reverseRecOn with
  | nil => exact inv64_init
  | append_singleton g c ih =>
    rw [decodeFold64_snoc]
    have := (charStep64_inv _ _ c ih).1
    have e : 5 * (g ++ [c]).length = 5 * g.length + 5 := by
      rw [List.length_append, List.length_singleton]; ring
    rw [e]; exact this

/-! ### Exactness of the first 48 bisections -/

theorem f64ToRat_cell (w : Int) (k j : Nat) (hk : k ≤ 1074) :
    ratPair (cell64 w k j) = subInterval (-(w : ℚ), (w : ℚ)) k j := by
  have e : (2 : ℚ) ^ 1074 = 2 ^ k * 2 ^ (1074 - k) := by
    rw [← pow_add]; congr 1; omega
  have h1 : (2 : ℚ) ^ k ≠ 0 := by positivity
  have h2 : (2 : ℚ) ^ (1074 - k) ≠ 0 := by positivity
  unfold ratPair cell64 subInterval f64ToRat
  ext
  · simp only [Int.cast_mul, Int.cast_sub, Int.cast_pow, Int.cast_ofNat, Int.cast_natCast]
    rw [e]; field_simp; ring
  · simp only [Int.cast_mul, Int.cast_sub, Int.cast_pow, Int.cast_ofNat, Int.cast_natCast,
      Int.cast_add, Int.cast_one]
    rw [e]; field_simp; ring

theorem bitOf_cases (cd mask : Int) :
    (intAnd cd mask > 0 ∧ bitOf cd mask = 1) ∨ (¬ intAnd cd mask > 0 ∧ bitOf cd mask = 0) := by
  unfold bitOf
  by_cases h : intAnd cd mask > 0
  · exact Or.inl ⟨h, if_pos h⟩
  · exact Or.inr ⟨h, if_neg h⟩

/-- The midpoint of a cell of level at most 47 is a `float64`. -/
theorem cell64_mid (e k j : Nat) (he : e ≤ 2) (hk : k ≤ 47) (hj : j < 2 ^ k) :
    f64Mid (cell64 (45 * 2 ^ e) k j).1 (cell64 (45 * 2 ^ e) k j).2
      = (cell64 (45 * 2 ^ e) (k + 1) (2 * j + 1)).1 := by
  have e1 : 1074 - k = (1074 - (k + 1)) + 1 := by omega
  have hd : (0 : Int) < 2 ^ (1074 - (k + 1)) := pow_pos (by norm_num) _
  have hj' : ((j : Nat) : Int) < 2 ^ k := by exact_mod_cast hj
  have hP : (0 : Int) < 2 ^ k := pow_pos (by norm_num) _
  apply f64Mid_exact
  · simp only [cell64]
    rw [e1, pow_succ, pow_succ]
    push_cast
    ring
  · -- representable
    refine ⟨45 * ((2 * (j : Int) + 1 - 2 ^ k).natAbs), e + 1 + (1074 - (k + 1)), ?_, ?_⟩
    · simp only [cell64]
      have : (2 * (45 * 2 ^ e : Int) * ((2 * j + 1 : Nat) : Int) - 45 * 2 ^ e * 2 ^ (k + 1))
          * 2 ^ (1074 - (k + 1))
          = 45 * (2 * (j : Int) + 1 - 2 ^ k) * 2 ^ (e + 1 + (1074 - (k + 1))) := by
        have p1 : (2 : Int) ^ (k + 1) = 2 ^ k * 2 := pow_succ 2 k
        have p2 : (2 : Int) ^ (e + 1 + (1074 - (k + 1))) = 2 ^ e * 2 * 2 ^ (1074 - (k + 1)) := by
          rw [pow_add, pow_succ]
        rw [p1, p2]; push_cast; ring
      rw [this, Int.natAbs_mul, Int.natAbs_mul, Int.natAbs_pow]
      rfl
    · have h1 : (2 * (j : Int) + 1 - 2 ^ k).natAbs < 2 ^ k := by
        have : ((2 ^ k : Nat) : Int) = 2 ^ k := by push_cast; rfl
        generalize (2 : Nat) ^ k = P at *
        omega
      have h2 : (2 : Nat) ^ k ≤ 2 ^ 47 := Nat.pow_le_pow_right (by norm_num) hk
      have h3 : (2 : Nat) ^ 47 = 140737488355328 := by norm_num
      have h4 : (2 : Nat) ^ 53 = 9007199254740992 := by norm_num
      omega
  all_goals
    have p1 : (2 : Int) ^ (k + 1) = 2 ^ k * 2 := pow_succ 2 k
    have hU : (2 : Int) ^ (k + 1) * 2 ^ (1074 - (k + 1)) = 2 ^ 1074 := by
      rw [← pow_add]; congr 1; omega
    have hX1 : (2 * ((2 * j + 1 : Nat) : Int) - 2 ^ (k + 1)) * 2 ^ (1074 - (k + 1))
        < 2 ^ (k + 1) * 2 ^ (1074 - (k + 1)) :=
      mul_lt_mul_of_pos_right (by push_cast; omega) hd
    have hX2 : -(2 ^ (k + 1) * 2 ^ (1074 - (k + 1)))
        < (2 * ((2 * j + 1 : Nat) : Int) - 2 ^ (k + 1)) * 2 ^ (1074 - (k + 1)) := by
      have := mul_lt_mul_of_pos_right
        (show -(2 : Int) ^ (k + 1) < 2 * ((2 * j + 1 : Nat) : Int) - 2 ^ (k + 1) by
          push_cast; omega) hd
      linarith
    rw [hU] at hX1 hX2
    rw [pow_1082]
    simp only [cell64]
    have hM : (2 * (45 * 2 ^ e : Int) * ((2 * j + 1 : Nat) : Int) - 45 * 2 ^ e * 2 ^ (k + 1))
          * 2 ^ (1074 - (k + 1))
          = 45 * 2 ^ e * ((2 * ((2 * j + 1 : Nat) : Int) - 2 ^ (k + 1))
              * 2 ^ (1074 - (k + 1))) := by ring
    rw [hM]
    generalize (2 * ((2 * j + 1 : Nat) : Int) - 2 ^ (k + 1)) * 2 ^ (1074 - (k + 1)) = X at *
    generalize (2 : Int) ^ 1074 = U at *
    interval_cases e <;> norm_num <;> linarith

theorem cell64_sum (w : Int) (k j : Nat) (hk : k < 1074) :
    (cell64 w k j).1 + (cell64 w k j).2 = 2 * (cell64 w (k + 1) (2 * j + 1)).1 := by
  have e1 : 1074 - k = (1074 - (k + 1)) + 1 := by omega
  simp only [cell64]
  rw [e1, pow_succ, pow_succ]
  push_cast
  ring

theorem cell64_upper (w : Int) (k j : Nat) (hk : k < 1074) :
    (cell64 w (k + 1) (2 * j + 1)).2 = (cell64 w k j).2 := by
  have e1 : 1074 - k = (1074 - (k + 1)) + 1 := by omega
  simp only [cell64]
  rw [e1, pow_succ, pow_succ]
  push_cast
  ring

theorem cell64_lower (w : Int) (k j : Nat) (hk : k < 1074) :
    cell64 w (k + 1) (2 * j) = ((cell64 w k j).1, (cell64 w (k + 1) (2 * j + 1)).1) := by
  have e1 : 1074 - k = (1074 - (k + 1)) + 1 := by omega
  simp only [cell64]
  rw [e1, pow_succ, pow_succ]
  push_cast
  ext
  · simp only []; ring
  · simp only []

theorem refineInterval64_cell (e k j : Nat) (cd mask : Int) (he : e ≤ 2) (hk : k ≤ 47)
    (hj : j < 2 ^ k) :
    refineInterval64 (cell64 (45 * 2 ^ e) k j) cd mask
      = cell64 (45 * 2 ^ e) (k + 1) (2 * j + bitOf cd mask) := by
  have hm := cell64_mid e k j he hk hj
  unfold refineInterval64
  rcases bitOf_cases cd mask with ⟨h1, h2⟩ | ⟨h1, h2⟩
  · rw [if_pos h1, h2, hm]
    ext
    · rfl
    · exact (cell64_upper _ k j (by omega)).symm
  · rw [if_neg h1, h2, hm, Nat.add_zero]
    exact (cell64_lower _ k j (by omega)).symm

theorem refineInterval_sub (base : ℚ × ℚ) (k j : Nat) (cd mask : Int) :
    refineInterval (subInterval base k j) cd mask
      = subInterval base (k + 1) (2 * j + bitOf cd mask) := by
  rw [refineInterval_eq, subInterval_comp]
  congr 1
  ring

theorem bitOf_lt (cd mask : Int) (k j : Nat) (hj : j < 2 ^ k) :
    2 * j + bitOf cd mask < 2 ^ (k + 1) := by
  have := bitOf_le cd mask
  rw [pow_succ]
  omega

theorem bitStep64_exact (cd mask : Int) (m : Nat) (st64 : DecodeState64) (st : DecodeState)
    (hm : m ≤ 94) (h : Exact64 m st64 st) :
    Exact64 (m + 1) (bitStep64 cd st64 mask) (bitStep cd st mask) := by
  obtain ⟨he64, he, a, b, ha, hb, l64, l, t64, t⟩ := h
  have w180 : (180 : Int) = 45 * 2 ^ 2 := by norm_num
  have w90 : (90 : Int) = 45 * 2 ^ 1 := by norm_num
  rcases Nat.mod_two_eq_zero_or_one m with hp | hp
  · have hE64 : st64.isEven = true := by rw [he64]; simp [hp]
    have hE : st.isEven = true := by rw [he]; simp [hp]
    have e1 : (m + 1 + 1) / 2 = (m + 1) / 2 + 1 := by omega
    have e2 : (m + 1) / 2 = m / 2 := by omega
    have e3 : (m + 1) % 2 = 1 := by omega
    rw [bitStep_even cd st mask hE]
    unfold bitStep64
    rw [if_pos hE64]
    refine ⟨by simp [hE64, e3], by simp [e3], 2 * a + bitOf cd mask, b, ?_, ?_, ?_, ?_, ?_, ?_⟩
    · rw [e1]; exact bitOf_lt _ _ _ _ ha
    · rw [e2]; exact hb
    · simp only []
      rw [l64, e1, w180]
      exact refineInterval64_cell 2 _ a cd mask (by norm_num) (by omega) ha
    · simp only []
      rw [l, e1]
      exact refineInterval_sub _ _ _ _ _
    · rw [e2]; exact t64
    · rw [e2]; exact t
  · have hE64 : st64.isEven = false := by rw [he64]; simp [hp]
    have hE : st.isEven = false := by rw [he]; simp [hp]
    have e1 : (m + 1 + 1) / 2 = (m + 1) / 2 := by omega
    have e2 : (m + 1) / 2 = m / 2 + 1 := by omega
    have e3 : (m + 1) % 2 = 0 := by omega
    rw [bitStep_odd cd st mask hE]
    unfold bitStep64
    rw [if_neg (by rw [hE64]; simp)]
    refine ⟨by simp [hE64, e3], by simp [e3], a, 2 * b + bitOf cd mask, ?_, ?_, ?_, ?_, ?_, ?_⟩
    · rw [e1]; exact ha
    · rw [e2]; exact bitOf_lt _ _ _ _ hb
    · rw [e1]; exact l64
    · rw [e1]; exact l
    · simp only []
      rw [t64, e2, w90]
      exact refineInterval64_cell 1 _ b cd mask (by norm_num) (by omega) hb
    · simp only []
      rw [t, e2]
      exact refineInterval_sub _ _ _ _ _

theorem charStep_eq (st : DecodeState) (c : Char) :
    charStep st c = bitStep (stringsIndex base32 [c]) (bitStep (stringsIndex base32 [c])
      (bitStep (stringsIndex base32 [c]) (bitStep (stringsIndex base32 [c])
        (bitStep (stringsIndex base32 [c]) st 16) 8) 4) 2) 1 := rfl

theorem charStep64_exact (m : Nat) (st64 : DecodeState64) (st : DecodeState) (c : Char)
    (hm : m ≤ 90) (h : Exact64 m st64 st) :
    Exact64 (m + 5) (charStep64 st64 c) (charStep st c) := by
  rw [charStep64_eq, charStep_eq]
  exact bitStep64_exact _ 1 _ _ _ (by omega) (bitStep64_exact _ 2 _ _ _ (by omega)
    (bitStep64_exact _ 4 _ _ _ (by omega) (bitStep64_exact _ 8 _ _ _ (by omega)
      (bitStep64_exact _ 16 _ _ _ (by omega) h))))

theorem exact64_init : Exact64 0 decodeInit64 decodeInit := by
  refine ⟨rfl, rfl, 0, 0, by norm_num, by norm_num, ?_, ?_, ?_, ?_⟩
  · simp only [decodeInit64, cell64, f64OfInt, Nat.sub_zero, pow_zero, Nat.cast_zero, mul_zero,
      mul_one, zero_sub, zero_add, Nat.reduceDiv]
    ext
    · simp only []
    · simp only []; ring
  · simp only [decodeInit, subInterval]
    ext <;> norm_num
  · simp only [decodeInit64, cell64, f64OfInt, Nat.sub_zero, pow_zero, Nat.cast_zero, mul_zero,
      mul_one, zero_sub, zero_add, Nat.reduceDiv]
    ext
    · simp only []
    · simp only []; ring
  · simp only [decodeInit, subInterval]
    ext <;> norm_num

/-- On geohashes of at most 19 characters `Decode64` computes without
rounding: its state is the exact state. -/
theorem decodeFold64_exact (g : GoString) (h : g.length ≤ 19) :
    Exact64 (5 * g.length) (decodeFold64 g) (decodeFold g) := by
  induction g using List.reverseRecOn with
  | nil => exact exact64_init
  | append_singleton g c ih =>
    rw [List.length_append, List.length_singleton] at h
    rw [decodeFold64_snoc, decodeFold_snoc]
    have e : 5 * (g ++ [c]).length = 5 * g.length + 5 := by
      rw [List.length_append, List.length_singleton]; ring
    rw [e]
    exact charStep64_exact _ _ _ c (by omega) (ih (by omega))

theorem exact64_rat (m : Nat) (st64 : DecodeState64) (st : DecodeState)
    (h : Exact64 m st64 st) (hm : m ≤ 2000) :
    ratPair st64.lat = st.lat ∧ ratPair st64.lng = st.lng := by
  obtain ⟨_, _, a, b, _, _, l64, l, t64, t⟩ := h
  rw [l64, l, t64, t, f64ToRat_cell _ _ _ (by omega), f64ToRat_cell _ _ _ (by omega)]
  norm_num

theorem exact64_centre (m : Nat) (st64 : DecodeState64) (st : DecodeState)
    (h : Exact64 m st64 st) (hm : m ≤ 94) :
    2 * f64Mid st64.lat.1 st64.lat.2 = st64.lat.1 + st64.lat.2
      ∧ 2 * f64Mid st64.lng.1 st64.lng.2 = st64.lng.1 + st64.lng.2 := by
  obtain ⟨_, _, a, b, ha, hb, l64, l, t64, t⟩ := h
  have w180 : (180 : Int) = 45 * 2 ^ 2 := by norm_num
  have w90 : (90 : Int) = 45 * 2 ^ 1 := by norm_num
  rw [l64, t64, w180, w90, cell64_mid 1 _ b (by norm_num) (by omega) hb,
    cell64_mid 2 _ a (by norm_num) (by omega) ha,
    cell64_sum _ _ _ (by omega), cell64_sum _ _ _ (by omega)]
  exact ⟨rfl, rfl⟩

/-! ### Width of the float64 cells -/

theorem wide64_gt (W : Int) (k : Nat) (iv : Int × Int) (h : Wide64 W k iv)
    (hW : 2 ^ (k + 1) * 2 ^ 1029 ≤ W) : 2 ^ 1029 < iv.2 - iv.1 := by
  unfold Wide64 at h
  by_contra hc
  have hP : (0 : Int) < 2 ^ k := pow_pos (by norm_num) _
  have hu : (0 : Int) < 2 ^ 1029 := pow_pos (by norm_num) _
  have h2 := mul_le_mul_of_nonneg_left (not_lt.mp hc) (le_of_lt hP)
  rw [pow_succ] at hW
  generalize iv.2 - iv.1 = w at *
  generalize (2 : Int) ^ 1029 = u at *
  generalize (2 : Int) ^ k = P at *
  nlinarith

theorem wide64_pos (W : Int) (k : Nat) (iv : Int × Int) (h : Wide64 W k iv)
    (hW : 2 ^ k * 2 ^ 1029 ≤ W) : iv.1 < iv.2 := by
  unfold Wide64 at h
  by_contra hc
  have hP : (0 : Int) < 2 ^ k := pow_pos (by norm_num) _
  have hu : (0 : Int) < 2 ^ 1029 := pow_pos (by norm_num) _
  have h2 := mul_le_mul_of_nonneg_left (show iv.2 - iv.1 ≤ 0 by omega) (le_of_lt hP)
  generalize iv.2 - iv.1 = w at *
  generalize (2 : Int) ^ 1029 = u at *
  generalize (2 : Int) ^ k = P at *
  nlinarith

theorem width_bound (k j : Nat) (c : Int) (hk : k ≤ j) (hc : 2 ^ j * 2 ^ 1029 ≤ c) :
    (2 : Int) ^ k * 2 ^ 1029 ≤ c := by
  have h1 : (2 : Int) ^ k ≤ 2 ^ j := pow_le_pow_right₀ (by norm_num) hk
  have hu : (0 : Int) ≤ 2 ^ 1029 := le_of_lt (pow_pos (by norm_num) _)
  exact le_trans (mul_le_mul_of_nonneg_right h1 hu) hc

theorem lng_bound : (2 : Int) ^ 53 * 2 ^ 1029 ≤ f64OfInt 360 := by
  unfold f64OfInt
  rw [← pow_add, show 53 + 1029 = 8 + 1074 from rfl, pow_add]
  have := pow_1074_pos
  norm_num

theorem lat_bound : (2 : Int) ^ 52 * 2 ^ 1029 ≤ f64OfInt 180 := by
  unfold f64OfInt
  rw [← pow_add, show 52 + 1029 = 7 + 1074 from rfl, pow_add]
  have := pow_1074_pos
  norm_num

/-- Up to 53 longitude and 52 latitude bisections the `float64` cell has
positive width and height. -/
theorem inv64_nondeg (m : Nat) (st : DecodeState64) (h : Inv64 m st) (hm : m ≤ 105) :
    st.lat.1 < st.lat.2 ∧ st.lng.1 < st.lng.2 := by
  obtain ⟨_, _, _, wlng, wlat⟩ := h
  exact ⟨wide64_pos _ _ _ wlat (width_bound _ 52 _ (by omega) lat_bound),
    wide64_pos _ _ _ wlng (width_bound _ 53 _ (by omega) lng_bound)⟩

/-- Up to 52 longitude and 51 latitude bisections the `float64` cell is wider
and higher than the rounding error of a midpoint. -/
theorem inv64_wide (m : Nat) (st : DecodeState64) (h : Inv64 m st) (hm : m ≤ 103) :
    2 ^ 1029 < st.lat.2 - st.lat.1 ∧ 2 ^ 1029 < st.lng.2 - st.lng.1 := by
  obtain ⟨_, _, _, wlng, wlat⟩ := h
  exact ⟨wide64_gt _ _ _ wlat (width_bound _ 52 _ (by omega) lat_bound),
    wide64_gt _ _ _ wlng (width_bound _ 53 _ (by omega) lng_bound)⟩

theorem f64Mid_strict (lo hi : Int) (b1 : -2 ^ 1082 < lo) (b2 : hi < 2 ^ 1082)
    (hw : 2 ^ 1029 < hi - lo) : lo < f64Mid lo hi ∧ f64Mid lo hi < hi := by
  have hu : (0 : Int) < 2 ^ 1029 := pow_pos (by norm_num) _
  obtain ⟨e1, e2⟩ := f64Mid_err lo hi b1 (by omega) (by omega) b2
  omega

theorem bitStep64_shrink (cd mask : Int) (m : Nat) (st : DecodeState64) (h : Inv64 m st)
    (hm : m ≤ 103) :
    (st.isEven = true →
      (bitStep64 cd st mask).lng.2 - (bitStep64 cd st mask).lng.1 < st.lng.2 - st.lng.1)
    ∧ (st.isEven = false →
      (bitStep64 cd st mask).lat.2 - (bitStep64 cd st mask).lat.1 < st.lat.2 - st.lat.1) := by
  obtain ⟨w1, w2⟩ := inv64_wide m st h hm
  obtain ⟨_, glat, glng, _, _⟩ := h
  unfold bitStep64
  constructor
  · intro hE
    rw [if_pos hE]
    exact refineInterval64_strict _ _ _ glng w2
  · intro hE
    rw [if_neg (by rw [hE]; simp)]
    exact refineInterval64_strict _ _ _ glat w1

/-- One more character of a geohash of at most 20 characters makes the
`float64` cell strictly narrower and strictly lower. -/
theorem charStep64_shrink (m : Nat) (st : DecodeState64) (c : Char) (h : Inv64 m st)
    (hm : m ≤ 100) :
    (charStep64 st c).lat.2 - (charStep64 st c).lat.1 < st.lat.2 - st.lat.1
      ∧ (charStep64 st c).lng.2 - (charStep64 st c).lng.1 < st.lng.2 - st.lng.1 := by
  rw [charStep64_eq]
  obtain ⟨i1, n1⟩ := bitStep64_inv (stringsIndex base32 [c]) 16 m st h
  obtain ⟨i2, n2⟩ := bitStep64_inv (stringsIndex base32 [c]) 8 _ _ i1
  obtain ⟨i3, n3⟩ := bitStep64_inv (stringsIndex base32 [c]) 4 _ _ i2
  obtain ⟨i4, n4⟩ := bitStep64_inv (stringsIndex base32 [c]) 2 _ _ i3
  obtain ⟨i5, n5⟩ := bitStep64_inv (stringsIndex base32 [c]) 1 _ _ i4
  obtain ⟨s1, t1⟩ := bitStep64_shrink (stringsIndex base32 [c]) 16 m st h (by omega)
  obtain ⟨s2, t2⟩ := bitStep64_shrink (stringsIndex base32 [c]) 8 _ _ i1 (by omega)
  have e1 := i1.1
  have e0 := h.1
  unfold Nested64 at n1 n2 n3 n4 n5
  rcases Nat.mod_two_eq_zero_or_one m with hp | hp
  · have hE : st.isEven = true := by rw [e0]; simp [hp]
    have hE1 : (bitStep64 (stringsIndex base32 [c]) st 16).isEven = false := by
      rw [e1]; simp; omega
    have a := s1 hE
    have b := t2 hE1
    omega
  · have hE : st.isEven = false := by rw [e0]; simp [hp]
    have hE1 : (bitStep64 (stringsIndex base32 [c]) st 16).isEven = true := by
      rw [e1]; simp; omega
    have a := t1 hE
    have b := s2 hE1
    omega

/-! ### The encoder loop in float64 -/

theorem encodeBisect64_eq (latitude longitude : Int) (isEven : Bool) (lat lng : Int × Int)
    (bit ch : Int) (hbit : bit ∈ ([0, 1, 2, 3, 4] : List Int))
    (h0 : 0 ≤ ch) (h32 : ch < 32) (hmod : ch % (2 * 2 ^ (4 - bit).toNat) = 0) :
    encodeBisect64 latitude longitude isEven lat lng bit ch
      = Except.ok ((bisect64 latitude longitude isEven lat lng).1,
          (bisect64 latitude longitude isEven lat lng).2.1,
          ch + if (bisect64 latitude longitude isEven lat lng).2.2
            then 2 ^ (4 - bit).toNat else 0) := by
  have hor : intOr ch (2 ^ (4 - bit).toNat) = ch + 2 ^ (4 - bit).toNat := by
    have := intOr_weight bit hbit ch.toNat (List.mem_range.2 (by omega))
    rw [Int.toNat_of_nonneg h0] at this
    exact this hmod
  unfold encodeBisect64 bisect64
  cases isEven
  · simp only [Bool.false_eq_true, if_false]
    split
    · rw [goIndex_bits bit hbit, ok_bind, hor]; simp [pure_eq_ok]
    · simp [pure_eq_ok]
  · simp only [if_true]
    split
    · rw [goIndex_bits bit hbit, ok_bind, hor]; simp [pure_eq_ok]
    · simp [pure_eq_ok]

theorem encodeLoop64_done (latitude longitude : Int) (precision : Int) (e : Bool)
    (lat lng : Int × Int) (bit ch : Int) (gh : GoString)
    (h : ¬ (gh.length : Int) < precision) :
    encodeLoop64 latitude longitude precision e lat lng bit ch gh = Except.ok gh := by
  rw [encodeLoop64, if_neg h]

theorem encodeLoop64_step (latitude longitude : Int) (precision : Int) (e : Bool)
    (lat lng : Int × Int) (bit ch : Int) (gh : GoString)
    (h : (gh.length : Int) < precision) (hbit : bit ∈ ([0, 1, 2, 3] : List Int))
    (h0 : 0 ≤ ch) (h32 : ch < 32) (hmod : ch % (2 * 2 ^ (4 - bit).toNat) = 0) :
    encodeLoop64 latitude longitude precision e lat lng bit ch gh
      = encodeLoop64 latitude longitude precision (!e)
          (bisect64 latitude longitude e lat lng).1 (bisect64 latitude longitude e lat lng).2.1
          (bit + 1)
          (ch + if (bisect64 latitude longitude e lat lng).2.2 then 2 ^ (4 - bit).toNat else 0)
          gh := by
  have hb : bit ∈ ([0, 1, 2, 3, 4] : List Int) := by
    simp only [List.mem_cons, List.mem_singleton, List.not_mem_nil, or_false] at hbit ⊢
    omega
  have hlt : bit < 4 := by
    simp only [List.mem_cons, List.mem_singleton, List.not_mem_nil, or_false] at hbit
    omega
  rw [encodeLoop64, if_pos h, encodeBisect64_eq latitude longitude e lat lng bit ch hb h0 h32 hmod]
  simp only [if_pos hlt]

theorem encodeLoop64_emit (latitude longitude : Int) (precision : Int) (e : Bool)
    (lat lng : Int × Int) (ch : Int) (gh : GoString)
    (h : (gh.length : Int) < precision)
    (h0 : 0 ≤ ch) (h32 : ch < 32) (hmod : ch % 2 = 0) :
    encodeLoop64 latitude longitude precision e lat lng 4 ch gh
      = encodeLoop64 latitude longitude precision (!e)
          (bisect64 latitude longitude e lat lng).1 (bisect64 latitude longitude e lat lng).2.1
          0 0
          (gh ++ [alphabetAt (ch + if (bisect64 latitude longitude e lat lng).2.2 then 1 else 0)]) := by
  have hch : ∀ b : Bool, goIndex base32 (ch + if b then 1 else 0)
      = Except.ok (alphabetAt (ch + if b then 1 else 0)) := by
    intro b
    have h1 : 0 ≤ ch + (if b then 1 else 0) := by split <;> omega
    have := goIndex_base32 (ch + if b then 1 else 0).toNat
      (List.mem_range.2 (by split <;> omega))
    rwa [Int.toNat_of_nonneg h1] at this
  rw [encodeLoop64, if_pos h,
    encodeBisect64_eq latitude longitude e lat lng 4 ch (by decide) h0 h32 (by simpa using hmod)]
  simp only [lt_self_iff_false, if_false]
  have e1 : (2 : Int) ^ ((4 : Int) - 4).toNat = 1 := by decide
  rw [e1, hch]

theorem emitsAfter64_four (latitude longitude : Int) (precision : Int) :
    EmitsAfter64 latitude longitude precision 4 [1] := by
  intro e lat lng ch gh h0 h32 hmod h
  rw [encodeLoop64_emit latitude longitude precision e lat lng ch gh h h0 h32
    (by simpa using hmod)]
  rfl

theorem emitsAfter64_succ (latitude longitude : Int) (precision : Int) (bit : Int)
    (ws : List Int) (hbit : bit ∈ ([0, 1, 2, 3] : List Int))
    (ih : EmitsAfter64 latitude longitude precision (bit + 1) ws) :
    EmitsAfter64 latitude longitude precision bit (2 ^ (4 - bit).toNat :: ws) := by
  intro e lat lng ch gh h0 h32 hmod h
  rw [encodeLoop64_step latitude longitude precision e lat lng bit ch gh h hbit h0 h32 hmod]
  have good : 0 ≤ ch + (if (bisect64 latitude longitude e lat lng).2.2
        then (2 : Int) ^ (4 - bit).toNat else 0)
      ∧ ch + (if (bisect64 latitude longitude e lat lng).2.2
        then (2 : Int) ^ (4 - bit).toNat else 0) < 32
      ∧ (ch + (if (bisect64 latitude longitude e lat lng).2.2
        then (2 : Int) ^ (4 - bit).toNat else 0)) % (2 * 2 ^ (4 - (bit + 1)).toNat) = 0 := by
    obtain ⟨hw, hw'⟩ := weight_vals bit hbit
    rw [hw]
    generalize (2 : Int) ^ (4 - bit).toNat = w at hw' hmod ⊢
    simp only [List.mem_cons, List.mem_singleton, List.not_mem_nil, or_false] at hw'
    rcases hw' with hb | hb | hb | hb <;> subst hb <;>
      cases (bisect64 latitude longitude e lat lng).2.2 <;>
      simp only [Bool.false_eq_true, if_false, if_true] <;> omega
  rw [ih _ _ _ _ gh good.1 good.2.1 good.2.2 h]
  rfl

theorem emitsAfter64_zero (latitude longitude : Int) (precision : Int) :
    EmitsAfter64 latitude longitude precision 0 bits := by
  have h4 := emitsAfter64_four latitude longitude precision
  have h3 := emitsAfter64_succ latitude longitude precision 3 _ (by decide) h4
  have h2 := emitsAfter64_succ latitude longitude precision 2 _ (by decide) h3
  have h1 := emitsAfter64_succ latitude longitude precision 1 _ (by decide) h2
  exact emitsAfter64_succ latitude longitude precision 0 _ (by decide) h1

/-- The encoder loop, started at a character boundary, emits `encChars64`. -/
theorem encodeLoop64_chars (latitude longitude : Int) (precision : Int) :
    ∀ (n : Nat) (e : Bool) (lat lng : Int × Int) (gh : GoString),
      (precision - gh.length).toNat = n →
      encodeLoop64 latitude longitude precision e lat lng 0 0 gh
        = Except.ok (gh ++ encChars64 latitude longitude n e lat lng) := by
  intro n
  induction n with
  | zero =>
    intro e lat lng gh hn
    rw [encodeLoop64_done _ _ _ _ _ _ _ _ _ (by omega)]
    simp [encChars64]
  | succ n ih =>
    intro e lat lng gh hn
    rw [emitsAfter64_zero latitude longitude precision e lat lng 0 gh (by decide) (by decide)
      (by decide) (by omega)]
    have hn' : (precision - ((gh ++ [alphabetAt
        (encBits64 latitude longitude bits e lat lng 0).2.2.2]).length : Int)).toNat = n := by
      simp only [List.length_append, List.length_singleton, Nat.cast_add, Nat.cast_one]
      omega
    rw [ih _ _ _ _ hn']
    simp [encChars64]

theorem EncodeWithPrecision64_eq (latitude longitude : Int) (precision : Int) :
    EncodeWithPrecision64 latitude longitude precision
      = Except.ok (encChars64 latitude longitude precision.toNat true
          (f64OfInt (-90), f64OfInt 90) (f64OfInt (-180), f64OfInt 180)) := by
  unfold EncodeWithPrecision64
  rw [encodeLoop64_chars latitude longitude precision precision.toNat true _ _ [] (by simp)]
  simp

theorem encChars64_length (latitude longitude : Int) :
    ∀ (n : Nat) (e : Bool) (lat lng : Int × Int),
      (encChars64 latitude longitude n e lat lng).length = n := by
  intro n
  induction n with
  | zero => intros; rfl
  | succ n ih => intro e lat lng; simp [encChars64, ih]

/-! ### The float64 encoder follows the float64 decoder -/

/-- One `float64` decoder bit step agrees with one encoder bisection when the
decoder reads the bit the encoder wrote. -/
theorem bitStep64_bisect (latitude longitude : Int) (cd w : Int) (st : DecodeState64)
    (hbit : intAnd cd w > 0
      ↔ (bisect64 latitude longitude st.isEven st.lat st.lng).2.2 = true) :
    (bitStep64 cd st w).isEven = !st.isEven
    ∧ (bitStep64 cd st w).lat = (bisect64 latitude longitude st.isEven st.lat st.lng).1
    ∧ (bitStep64 cd st w).lng = (bisect64 latitude longitude st.isEven st.lat st.lng).2.1 := by
  unfold bitStep64 refineInterval64
  unfold bisect64 at hbit ⊢
  cases h : st.isEven
  · rw [h] at hbit
    simp only [Bool.false_eq_true, if_false] at hbit ⊢
    by_cases hc : latitude > f64Mid st.lat.1 st.lat.2
    · rw [if_pos hc] at hbit ⊢
      rw [if_pos (hbit.2 rfl)]
      simp
    · rw [if_neg hc] at hbit ⊢
      rw [if_neg (fun hh => by simpa using hbit.1 hh)]
      simp
  · rw [h] at hbit
    simp only [if_true] at hbit ⊢
    by_cases hc : longitude > f64Mid st.lng.1 st.lng.2
    · rw [if_pos hc] at hbit ⊢
      rw [if_pos (hbit.2 rfl)]
      simp
    · rw [if_neg hc] at hbit ⊢
      rw [if_neg (fun hh => by simpa using hbit.1 hh)]
      simp

/-- A point inside the cell after a bit step was inside the cell before it,
and the bit read is the one the encoder writes for the point. -/
theorem bitStep64_facts (latitude longitude : Int) (cd w : Int) (m : Nat) (st : DecodeState64)
    (h : Inv64 m st) (hin : Inside64 latitude longitude (bitStep64 cd st w)) :
    Inside64 latitude longitude st
      ∧ (intAnd cd w > 0 ↔ (bisect64 latitude longitude st.isEven st.lat st.lng).2.2 = true) := by
  obtain ⟨_, ⟨a1, a2, a3, a4, a5⟩, ⟨b1, b2, b3, b4, b5⟩, _, _⟩ := h
  obtain ⟨m1, m2, _⟩ := f64Mid_between st.lat.1 st.lat.2 a1 a2 a3 a4 a5
  obtain ⟨n1, n2, _⟩ := f64Mid_between st.lng.1 st.lng.2 b1 b2 b3 b4 b5
  revert hin
  unfold Inside64 bitStep64 refineInterval64 bisect64
  cases hE : st.isEven
  · simp only [Bool.false_eq_true, if_false]
    by_cases hc : intAnd cd w > 0
    · simp only [if_pos hc]
      rintro ⟨⟨a, b⟩, c⟩
      refine ⟨⟨⟨by omega, b⟩, c⟩, ?_⟩
      rw [if_pos a]
      simp [hc]
    · simp only [if_neg hc]
      rintro ⟨⟨a, b⟩, c⟩
      refine ⟨⟨⟨a, by omega⟩, c⟩, ?_⟩
      rw [if_neg (not_lt.2 b)]
      simp [hc]
  · simp only [if_true]
    by_cases hc : intAnd cd w > 0
    · simp only [if_pos hc]
      rintro ⟨c, ⟨a, b⟩⟩
      refine ⟨⟨c, ⟨by omega, b⟩⟩, ?_⟩
      rw [if_pos a]
      simp [hc]
    · simp only [if_neg hc]
      rintro ⟨c, ⟨a, b⟩⟩
      refine ⟨⟨c, ⟨a, by omega⟩⟩, ?_⟩
      rw [if_neg (not_lt.2 b)]
      simp [hc]

/-- For a point inside the cell reached by decoding the alphabet character
`c`, the five `float64` bisections from the same state emit `c` and arrive at
that cell. -/
theorem encBits64_of_inside (latitude longitude : Int) (m : Nat) (st : DecodeState64)
    (c : Char) (hc : c ∈ base32) (h : Inv64 m st)
    (hin : Inside64 latitude longitude (charStep64 st c)) :
    encBits64 latitude longitude bits st.isEven st.lat st.lng 0
        = ((charStep64 st c).isEven, (charStep64 st c).lat, (charStep64 st c).lng,
            stringsIndex base32 [c])
    ∧ Inside64 latitude longitude st := by
  obtain ⟨hsum, _⟩ := index_bits_sum c hc
  rw [charStep64_eq] at hin ⊢
  generalize stringsIndex base32 [c] = cd at hsum hin ⊢
  obtain ⟨nd1, _⟩ := bitStep64_inv cd 16 m st h
  obtain ⟨nd2, _⟩ := bitStep64_inv cd 8 _ _ nd1
  obtain ⟨nd3, _⟩ := bitStep64_inv cd 4 _ _ nd2
  obtain ⟨nd4, _⟩ := bitStep64_inv cd 2 _ _ nd3
  obtain ⟨i4, g5⟩ := bitStep64_facts latitude longitude cd 1 _ _ nd4 hin
  obtain ⟨i3, g4⟩ := bitStep64_facts latitude longitude cd 2 _ _ nd3 i4
  obtain ⟨i2, g3⟩ := bitStep64_facts latitude longitude cd 4 _ _ nd2 i3
  obtain ⟨i1, g2⟩ := bitStep64_facts latitude longitude cd 8 _ _ nd1 i2
  obtain ⟨i0, g1⟩ := bitStep64_facts latitude longitude cd 16 _ _ h i1
  obtain ⟨a1, b1, c1⟩ := bitStep64_bisect latitude longitude cd 16 st g1
  obtain ⟨a2, b2, c2⟩ := bitStep64_bisect latitude longitude cd 8 _ g2
  obtain ⟨a3, b3, c3⟩ := bitStep64_bisect latitude longitude cd 4 _ g3
  obtain ⟨a4, b4, c4⟩ := bitStep64_bisect latitude longitude cd 2 _ g4
  obtain ⟨a5, b5, c5⟩ := bitStep64_bisect latitude longitude cd 1 _ g5
  refine ⟨?_, i0⟩
  simp only [encBits64, bits]
  rw [← b1, ← c1, ← a1, ← b2, ← c2, ← a2, ← b3, ← c3, ← a3, ← b4, ← c4, ← a4, ← b5, ← c5, ← a5]
  simp only [← g1, ← g2, ← g3, ← g4, ← g5]
  rw [hsum]

theorem foldl_charStep64_inv :
    ∀ (g : GoString) (m : Nat) (st : DecodeState64), Inv64 m st →
      Inv64 (m + 5 * g.length) (g.foldl charStep64 st) := by
  intro g
  induction g with
  | nil => intro m st h; exact h
  | cons c t ih =>
    intro m st h
    have := ih (m + 5) (charStep64 st c) (charStep64_inv m st c h).1
    have e : m + 5 * (c :: t).length = m + 5 + 5 * t.length := by
      simp only [List.length_cons]; ring
    rw [e]; exact this

theorem charStep64_inside (latitude longitude : Int) (m : Nat) (st : DecodeState64) (c : Char)
    (h : Inv64 m st) (hin : Inside64 latitude longitude (charStep64 st c)) :
    Inside64 latitude longitude st := by
  obtain ⟨_, a, b, c', d⟩ := charStep64_inv m st c h
  unfold Inside64 at *
  omega

theorem foldl_charStep64_inside (latitude longitude : Int) :
    ∀ (g : GoString) (m : Nat) (st : DecodeState64), Inv64 m st →
      Inside64 latitude longitude (g.foldl charStep64 st) → Inside64 latitude longitude st := by
  intro g
  induction g with
  | nil => intro m st _ h; exact h
  | cons c t ih =>
    intro m st hn h
    exact charStep64_inside latitude longitude m st c hn
      (ih (m + 5) (charStep64 st c) (charStep64_inv m st c hn).1 h)

/-- For a point inside the `float64` cell of the geohash `g` (decoded from
`st`), the encoder started from `st` first emits `g` and then continues from
that cell. -/
theorem encChars64_of_inside (latitude longitude : Int) (k : Nat) :
    ∀ (g : GoString) (m : Nat) (st : DecodeState64), (∀ c ∈ g, c ∈ base32) → Inv64 m st →
      Inside64 latitude longitude (g.foldl charStep64 st) →
      encChars64 latitude longitude (g.length + k) st.isEven st.lat st.lng
        = g ++ encChars64 latitude longitude k (g.foldl charStep64 st).isEven
            (g.foldl charStep64 st).lat (g.foldl charStep64 st).lng := by
  intro g
  induction g with
  | nil => intro m st _ _ _; simp
  | cons c t ih =>
    intro m st hv hn hin
    have hc : c ∈ base32 := hv c (by simp)
    have ht : ∀ x ∈ t, x ∈ base32 := fun x hx => hv x (by simp [hx])
    have hn1 := (charStep64_inv m st c hn).1
    have hin1 : Inside64 latitude longitude (charStep64 st c) :=
      foldl_charStep64_inside latitude longitude t _ _ hn1 hin
    obtain ⟨he, _⟩ := encBits64_of_inside latitude longitude m st c hc hn hin1
    have hlen : (c :: t).length + k = (t.length + k) + 1 := by simp; omega
    rw [hlen]
    simp only [encChars64, he, List.foldl_cons, List.cons_append]
    rw [(index_bits_sum c hc).2, ih (m + 5) (charStep64 st c) ht hn1 hin]

/-- The `float64` encoder at a point inside the `float64` cell of `g`. -/
theorem encode64_of_inside (latitude longitude : Int) (g : GoString) (k : Nat)
    (hg : ∀ c ∈ g, c ∈ base32) (hin : Inside64 latitude longitude (decodeFold64 g)) :
    EncodeWithPrecision64 latitude longitude ((g.length + k : Nat) : Int)
      = Except.ok (g ++ encChars64 latitude longitude k (decodeFold64 g).isEven
          (decodeFold64 g).lat (decodeFold64 g).lng) := by
  rw [EncodeWithPrecision64_eq, Int.toNat_ofNat]
  congr 1
  exact encChars64_of_inside latitude longitude k g 0 decodeInit64 hg inv64_init hin

theorem bitStep64_z : ∀ mask ∈ bits, ∀ st : DecodeState64,
    (bitStep64 (stringsIndex base32 ['z']) st mask).lat.2 = st.lat.2
      ∧ (bitStep64 (stringsIndex base32 ['z']) st mask).lng.2 = st.lng.2 := by
  intro mask hmask st
  have h : intAnd (stringsIndex base32 ['z']) mask > 0 := by
    revert mask; decide
  unfold bitStep64 refineInterval64
  rw [if_pos h, if_pos h]
  split <;> exact ⟨rfl, rfl⟩

theorem charStep64_z (st : DecodeState64) :
    (charStep64 st 'z').lat.2 = st.lat.2 ∧ (charStep64 st 'z').lng.2 = st.lng.2 := by
  rw [charStep64_eq]
  obtain ⟨a1, b1⟩ := bitStep64_z 16 (by decide) st
  obtain ⟨a2, b2⟩ := bitStep64_z 8 (by decide) (bitStep64 (stringsIndex base32 ['z']) st 16)
  obtain ⟨a3, b3⟩ := bitStep64_z 4 (by decide)
    (bitStep64 (stringsIndex base32 ['z']) (bitStep64 (stringsIndex base32 ['z']) st 16) 8)
  obtain ⟨a4, b4⟩ := bitStep64_z 2 (by decide)
    (bitStep64 (stringsIndex base32 ['z']) (bitStep64 (stringsIndex base32 ['z'])
      (bitStep64 (stringsIndex base32 ['z']) st 16) 8) 4)
  obtain ⟨a5, b5⟩ := bitStep64_z 1 (by decide)
    (bitStep64 (stringsIndex base32 ['z']) (bitStep64 (stringsIndex base32 ['z'])
      (bitStep64 (stringsIndex base32 ['z']) (bitStep64 (stringsIndex base32 ['z']) st 16) 8) 4) 2)
  exact ⟨by rw [a5, a4, a3, a2, a1], by rw [b5, b4, b3, b2, b1]⟩

theorem foldl_charStep64_z (k : Nat) :
    ∀ st : DecodeState64,
      ((List.replicate k 'z').foldl charStep64 st).lat.2 = st.lat.2
        ∧ ((List.replicate k 'z').foldl charStep64 st).lng.2 = st.lng.2 := by
  induction k with
  | zero => intro st; exact ⟨rfl, rfl⟩
  | succ k ih =>
    intro st
    rw [List.replicate_succ, List.foldl_cons]
    obtain ⟨a, b⟩ := ih (charStep64 st 'z')
    obtain ⟨c, d⟩ := charStep64_z st
    exact ⟨by rw [a, c], by rw [b, d]⟩

/-- Up to precision 21 the north-east corner of the `float64` cell of `g`
encodes to `g` followed by `'z'`s. -/
theorem encode64_corner (g : GoString) (p : Int) (hg : ∀ c ∈ g, c ∈ base32)
    (hp : (g.length : Int) ≤ p) (hp21 : p ≤ 21) :
    EncodeWithPrecision64 (decodeFold64 g).lat.2 (decodeFold64 g).lng.2 p
      = Except.ok (g ++ List.replicate (p.toNat - g.length) 'z') := by
  have hv : ∀ c ∈ g ++ List.replicate (p.toNat - g.length) 'z', c ∈ base32 := by
    intro c hc
    rcases List.mem_append.1 hc with h | h
    · exact hg c h
    · rw [(List.mem_replicate.1 h).2]; decide
  have hlen : (g ++ List.replicate (p.toNat - g.length) 'z').length = p.toNat := by
    rw [List.length_append, List.length_replicate]; omega
  have hfold : decodeFold64 (g ++ List.replicate (p.toNat - g.length) 'z')
      = (List.replicate (p.toNat - g.length) 'z').foldl charStep64 (decodeFold64 g) := by
    simp [decodeFold64, List.foldl_append]
  have hinv := decodeFold64_inv (g ++ List.replicate (p.toNat - g.length) 'z')
  obtain ⟨n1, n2⟩ := inv64_nondeg _ _ hinv (by rw [hlen]; omega)
  obtain ⟨z1, z2⟩ := foldl_charStep64_z (p.toNat - g.length) (decodeFold64 g)
  have hin : Inside64 (decodeFold64 g).lat.2 (decodeFold64 g).lng.2
      (decodeFold64 (g ++ List.replicate (p.toNat - g.length) 'z')) := by
    rw [hfold] at n1 n2 ⊢
    exact ⟨⟨by rw [← z1]; exact n1, by rw [z1]⟩, ⟨by rw [← z2]; exact n2, by rw [z2]⟩⟩
  have := encode64_of_inside _ _ _ 0 hv hin
  rw [hlen, Nat.add_zero] at this
  have hpe : p = ((p.toNat : Nat) : Int) := by omega
  conv_lhs => rw [hpe]
  rw [this]
  simp [encChars64]

/-- Up to 20 characters the centre of the `float64` cell of `g` encodes to `g`. -/
theorem encode64_centre (g : GoString) (hg : ∀ c ∈ g, c ∈ base32) (h20 : g.length ≤ 20) :
    EncodeWithPrecision64 (f64Mid (decodeFold64 g).lat.1 (decodeFold64 g).lat.2)
        (f64Mid (decodeFold64 g).lng.1 (decodeFold64 g).lng.2) (g.length : Int)
      = Except.ok g := by
  have hinv := decodeFold64_inv g
  obtain ⟨w1, w2⟩ := inv64_wide _ _ hinv (by omega)
  obtain ⟨_, ⟨_, _, _, a4, a5⟩, ⟨_, _, _, b4, b5⟩, _, _⟩ := hinv
  obtain ⟨s1, s2⟩ := f64Mid_strict _ _ a4 a5 w1
  obtain ⟨t1, t2⟩ := f64Mid_strict _ _ b4 b5 w2
  have hin : Inside64 (f64Mid (decodeFold64 g).lat.1 (decodeFold64 g).lat.2)
      (f64Mid (decodeFold64 g).lng.1 (decodeFold64 g).lng.2) (decodeFold64 g) :=
    ⟨⟨s1, le_of_lt s2⟩, ⟨t1, le_of_lt t2⟩⟩
  have := encode64_of_inside _ _ g 0 hg hin
  rw [Nat.add_zero] at this
  rw [this]
  simp [encChars64]

/-- Two geohashes over the alphabet of the same length, at most 21, with the
same `float64` cell are equal. -/
theorem decodeFold64_injective (g1 g2 : GoString) (h1 : ∀ c ∈ g1, c ∈ base32)
    (h2 : ∀ c ∈ g2, c ∈ base32) (hl : g1.length = g2.length) (h21 : g1.length ≤ 21)
    (hlat : (decodeFold64 g1).lat = (decodeFold64 g2).lat)
    (hlng : (decodeFold64 g1).lng = (decodeFold64 g2).lng) : g1 = g2 := by
  obtain ⟨n1, n2⟩ := inv64_nondeg _ _ (decodeFold64_inv g1) (by omega)
  have hin1 : Inside64 (decodeFold64 g1).lat.2 (decodeFold64 g1).lng.2 (decodeFold64 g1) :=
    ⟨⟨n1, le_refl _⟩, ⟨n2, le_refl _⟩⟩
  have hin2 : Inside64 (decodeFold64 g1).lat.2 (decodeFold64 g1).lng.2 (decodeFold64 g2) := by
    unfold Inside64
    rw [← hlat, ← hlng]
    exact hin1
  have e1 := encode64_of_inside _ _ g1 0 h1 hin1
  have e2 := encode64_of_inside _ _ g2 0 h2 hin2
  rw [Nat.add_zero] at e1 e2
  rw [hl, e2] at e1
  injection e1 with e1
  simpa [encChars64] using e1.symm

/-! ### Saturation of out-of-range coordinates in float64 -/

theorem encBits64_parity (L G : Int) (e : Bool) (lat lng : Int × Int) (ch : Int) :
    (encBits64 L G bits e lat lng ch).1 = !e := by
  simp only [encBits64, bits]
  cases e <;> rfl

/-- Two latitudes that compare alike with every midpoint met along the way are
bisected alike; `P k` holds of the latitude intervals from which `k` more
latitude bisections are covered. -/
theorem bisect64_congr_lat (L1 L2 G : Int) (P : Nat → Int × Int → Prop)
    (hP : ∀ k iv, P (k + 1) iv →
      ((L1 > f64Mid iv.1 iv.2 ↔ L2 > f64Mid iv.1 iv.2)
        ∧ (L1 > f64Mid iv.1 iv.2 → P k (f64Mid iv.1 iv.2, iv.2))
        ∧ (¬ L1 > f64Mid iv.1 iv.2 → P k (iv.1, f64Mid iv.1 iv.2))))
    (e : Bool) (lat lng : Int × Int) (k : Nat) (h : P (k + if e then 0 else 1) lat) :
    bisect64 L1 G e lat lng = bisect64 L2 G e lat lng ∧ P k (bisect64 L1 G e lat lng).1 := by
  unfold bisect64
  cases e
  · simp only [Bool.false_eq_true, if_false] at h ⊢
    obtain ⟨h1, h2, h3⟩ := hP k lat h
    by_cases hc : L1 > f64Mid lat.1 lat.2
    · rw [if_pos hc, if_pos (h1.1 hc)]
      exact ⟨rfl, h2 hc⟩
    · rw [if_neg hc, if_neg (fun hh => hc (h1.2 hh))]
      exact ⟨rfl, h3 hc⟩
  · simp only [if_true, Nat.add_zero] at h ⊢
    split <;> exact ⟨trivial, h⟩

theorem encBits64_congr_lat (L1 L2 G : Int) (P : Nat → Int × Int → Prop)
    (hP : ∀ k iv, P (k + 1) iv →
      ((L1 > f64Mid iv.1 iv.2 ↔ L2 > f64Mid iv.1 iv.2)
        ∧ (L1 > f64Mid iv.1 iv.2 → P k (f64Mid iv.1 iv.2, iv.2))
        ∧ (¬ L1 > f64Mid iv.1 iv.2 → P k (iv.1, f64Mid iv.1 iv.2)))) :
    ∀ (ws : List Int) (e : Bool) (lat lng : Int × Int) (ch : Int) (k : Nat),
      P (k + if e then ws.length / 2 else (ws.length + 1) / 2) lat →
      encBits64 L1 G ws e lat lng ch = encBits64 L2 G ws e lat lng ch
        ∧ P k (encBits64 L1 G ws e lat lng ch).2.1 := by
  intro ws
  induction ws with
  | nil =>
    intro e lat lng ch k h
    cases e <;> exact ⟨rfl, by simpa using h⟩
  | cons w ws ih =>
    intro e lat lng ch k h
    have h' : P ((k + if (!e) then ws.length / 2 else (ws.length + 1) / 2)
        + if e then 0 else 1) lat := by
      cases e
      · simp only [Bool.not_false, if_true, Bool.false_eq_true, if_false, List.length_cons]
          at h ⊢
        have e1 : k + (ws.length + 1 + 1) / 2 = k + ws.length / 2 + 1 := by omega
        rw [e1] at h; exact h
      · simp only [Bool.not_true, Bool.false_eq_true, if_false, if_true, List.length_cons,
          Nat.add_zero] at h ⊢
        exact h
    obtain ⟨e1, p1⟩ := bisect64_congr_lat L1 L2 G P hP e lat lng _ h'
    simp only [encBits64]
    rw [← e1]
    exact ih _ _ _ _ _ p1

theorem encChars64_congr_lat (L1 L2 G : Int) (P : Nat → Int × Int → Prop)
    (hP : ∀ k iv, P (k + 1) iv →
      ((L1 > f64Mid iv.1 iv.2 ↔ L2 > f64Mid iv.1 iv.2)
        ∧ (L1 > f64Mid iv.1 iv.2 → P k (f64Mid iv.1 iv.2, iv.2))
        ∧ (¬ L1 > f64Mid iv.1 iv.2 → P k (iv.1, f64Mid iv.1 iv.2)))) :
    ∀ (n : Nat) (e : Bool) (lat lng : Int × Int),
      P (if e then 5 * n / 2 else (5 * n + 1) / 2) lat →
      encChars64 L1 G n e lat lng = encChars64 L2 G n e lat lng := by
  intro n
  induction n with
  | zero => intros; rfl
  | succ n ih =>
    intro e lat lng h
    have h' : P ((if (!e) then 5 * n / 2 else (5 * n + 1) / 2)
        + if e then bits.length / 2 else (bits.length + 1) / 2) lat := by
      have hb : bits.length = 5 := rfl
      rw [hb]
      cases e
      · simp only [Bool.not_false, if_true, Bool.false_eq_true, if_false] at h ⊢
        have e1 : (5 * (n + 1) + 1) / 2 = 5 * n / 2 + (5 + 1) / 2 := by omega
        rw [e1] at h; exact h
      · simp only [Bool.not_true, Bool.false_eq_true, if_false, if_true] at h ⊢
        have e1 : 5 * (n + 1) / 2 = (5 * n + 1) / 2 + 5 / 2 := by omega
        rw [e1] at h; exact h
    obtain ⟨e1, p1⟩ := encBits64_congr_lat L1 L2 G P hP bits e lat lng 0 _ h'
    simp only [encChars64]
    rw [← e1, encBits64_parity]
    rw [ih _ _ _ p1]

/-- The same for two longitudes. -/
theorem bisect64_congr_lng (L G1 G2 : Int) (P : Nat → Int × Int → Prop)
    (hP : ∀ k iv, P (k + 1) iv →
      ((G1 > f64Mid iv.1 iv.2 ↔ G2 > f64Mid iv.1 iv.2)
        ∧ (G1 > f64Mid iv.1 iv.2 → P k (f64Mid iv.1 iv.2, iv.2))
        ∧ (¬ G1 > f64Mid iv.1 iv.2 → P k (iv.1, f64Mid iv.1 iv.2))))
    (e : Bool) (lat lng : Int × Int) (k : Nat) (h : P (k + if e then 1 else 0) lng) :
    bisect64 L G1 e lat lng = bisect64 L G2 e lat lng ∧ P k (bisect64 L G1 e lat lng).2.1 := by
  unfold bisect64
  cases e
  · simp only [Bool.false_eq_true, if_false, Nat.add_zero] at h ⊢
    split <;> exact ⟨trivial, h⟩
  · simp only [if_true] at h ⊢
    obtain ⟨h1, h2, h3⟩ := hP k lng h
    by_cases hc : G1 > f64Mid lng.1 lng.2
    · rw [if_pos hc, if_pos (h1.1 hc)]
      exact ⟨rfl, h2 hc⟩
    · rw [if_neg hc, if_neg (fun hh => hc (h1.2 hh))]
      exact ⟨rfl, h3 hc⟩

theorem encBits64_congr_lng (L G1 G2 : Int) (P : Nat → Int × Int → Prop)
    (hP : ∀ k iv, P (k + 1) iv →
      ((G1 > f64Mid iv.1 iv.2 ↔ G2 > f64Mid iv.1 iv.2)
        ∧ (G1 > f64Mid iv.1 iv.2 → P k (f64Mid iv.1 iv.2, iv.2))
        ∧ (¬ G1 > f64Mid iv.1 iv.2 → P k (iv.1, f64Mid iv.1 iv.2)))) :
    ∀ (ws : List Int) (e : Bool) (lat lng : Int × Int) (ch : Int) (k : Nat),
      P (k + if e then (ws.length + 1) / 2 else ws.length / 2) lng →
      encBits64 L G1 ws e lat lng ch = encBits64 L G2 ws e lat lng ch
        ∧ P k (encBits64 L G1 ws e lat lng ch).2.2.1 := by
  intro ws
  induction ws with
  | nil =>
    intro e lat lng ch k h
    cases e <;> exact ⟨rfl, by simpa using h⟩
  | cons w ws ih =>
    intro e lat lng ch k h
    have h' : P ((k + if (!e) then (ws.length + 1) / 2 else ws.length / 2)
        + if e then 1 else 0) lng := by
      cases e
      · simp only [Bool.not_false, if_true, Bool.false_eq_true, if_false, List.length_cons,
          Nat.add_zero] at h ⊢
        exact h
      · simp only [Bool.not_true, Bool.false_eq_true, if_false, if_true, List.length_cons]
          at h ⊢
        have e1 : k + (ws.length + 1 + 1) / 2 = k + ws.length / 2 + 1 := by omega
        rw [e1] at h; exact h
    obtain ⟨e1, p1⟩ := bisect64_congr_lng L G1 G2 P hP e lat lng _ h'
    simp only [encBits64]
    rw [← e1]
    exact ih _ _ _ _ _ p1

theorem encChars64_congr_lng (L G1 G2 : Int) (P : Nat → Int × Int → Prop)
    (hP : ∀ k iv, P (k + 1) iv →
      ((G1 > f64Mid iv.1 iv.2 ↔ G2 > f64Mid iv.1 iv.2)
        ∧ (G1 > f64Mid iv.1 iv.2 → P k (f64Mid iv.1 iv.2, iv.2))
        ∧ (¬ G1 > f64Mid iv.1 iv.2 → P k (iv.1, f64Mid iv.1 iv.2)))) :
    ∀ (n : Nat) (e : Bool) (lat lng : Int × Int),
      P (if e then (5 * n + 1) / 2 else 5 * n / 2) lng →
      encChars64 L G1 n e lat lng = encChars64 L G2 n e lat lng := by
  intro n
  induction n with
  | zero => intros; rfl
  | succ n ih =>
    intro e lat lng h
    have h' : P ((if (!e) then (5 * n + 1) / 2 else 5 * n / 2)
        + if e then (bits.length + 1) / 2 else bits.length / 2) lng := by
      have hb : bits.length = 5 := rfl
      rw [hb]
      cases e
      · simp only [Bool.not_false, if_true, Bool.false_eq_true, if_false] at h ⊢
        have e1 : 5 * (n + 1) / 2 = (5 * n + 1) / 2 + 5 / 2 := by omega
        rw [e1] at h; exact h
      · simp only [Bool.not_true, Bool.false_eq_true, if_false, if_true] at h ⊢
        have e1 : (5 * (n + 1) + 1) / 2 = 5 * n / 2 + (5 + 1) / 2 := by omega
        rw [e1] at h; exact h
    obtain ⟨e1, p1⟩ := encBits64_congr_lng L G1 G2 P hP bits e lat lng 0 _ h'
    simp only [encChars64]
    rw [← e1, encBits64_parity]
    rw [ih _ _ _ p1]

/-- A coordinate at or above the upper end `top` of the range is above every
midpoint met while the interval is wider than the rounding error, as `top`
itself is. -/
theorem saturate64_high (x1 x2 top W : Int) (N : Nat) (hW : 2 ^ N * 2 ^ 1029 ≤ W)
    (h1 : top ≤ x1) (h2 : top ≤ x2) :
    ∀ (k : Nat) (iv : Int × Int),
      (iv.2 = top ∧ Good64 iv ∧ ∃ j, Wide64 W j iv ∧ j + (k + 1) ≤ N) →
      ((x1 > f64Mid iv.1 iv.2 ↔ x2 > f64Mid iv.1 iv.2)
        ∧ (x1 > f64Mid iv.1 iv.2 →
            ((f64Mid iv.1 iv.2, iv.2).2 = top ∧ Good64 (f64Mid iv.1 iv.2, iv.2)
              ∧ ∃ j, Wide64 W j (f64Mid iv.1 iv.2, iv.2) ∧ j + k ≤ N))
        ∧ (¬ x1 > f64Mid iv.1 iv.2 →
            ((iv.1, f64Mid iv.1 iv.2).2 = top ∧ Good64 (iv.1, f64Mid iv.1 iv.2)
              ∧ ∃ j, Wide64 W j (iv.1, f64Mid iv.1 iv.2) ∧ j + k ≤ N))) := by
  rintro k iv ⟨ht, hg, j, hw, hj⟩
  have hwide := wide64_gt W j iv hw (width_bound (j + 1) N W (by omega) hW)
  obtain ⟨s1, s2⟩ := f64Mid_strict iv.1 iv.2 hg.2.2.2.1 hg.2.2.2.2 hwide
  have hr : refineInterval64 iv 16 16 = (f64Mid iv.1 iv.2, iv.2) := by
    unfold refineInterval64
    rw [if_pos (by decide)]
  have g1 := (refineInterval64_good iv 16 16 hg).1
  have w1 := refineInterval64_wide W j iv 16 16 hg hw
  rw [hr] at g1 w1
  refine ⟨⟨fun _ => by omega, fun _ => by omega⟩, fun _ => ⟨ht, g1, j + 1, w1, by omega⟩,
    fun hn => ?_⟩
  exact absurd (show x1 > f64Mid iv.1 iv.2 by omega) hn

/-- A coordinate at or below the lower end `bot` of the range is above no
midpoint met, as `bot` itself is. -/
theorem saturate64_low (x1 x2 bot : Int) (h1 : x1 ≤ bot) (h2 : x2 ≤ bot) :
    ∀ (_ : Nat) (iv : Int × Int), (iv.1 = bot ∧ Good64 iv) →
      ((x1 > f64Mid iv.1 iv.2 ↔ x2 > f64Mid iv.1 iv.2)
        ∧ (x1 > f64Mid iv.1 iv.2 →
            ((f64Mid iv.1 iv.2, iv.2).1 = bot ∧ Good64 (f64Mid iv.1 iv.2, iv.2)))
        ∧ (¬ x1 > f64Mid iv.1 iv.2 →
            ((iv.1, f64Mid iv.1 iv.2).1 = bot ∧ Good64 (iv.1, f64Mid iv.1 iv.2)))) := by
  rintro _ iv ⟨hb, hg⟩
  obtain ⟨m1, m2, _⟩ := f64Mid_between iv.1 iv.2 hg.1 hg.2.1 hg.2.2.1 hg.2.2.2.1 hg.2.2.2.2
  have hr : refineInterval64 iv 0 16 = (iv.1, f64Mid iv.1 iv.2) := by
    unfold refineInterval64
    rw [if_neg (by decide)]
  have g1 := (refineInterval64_good iv 0 16 hg).1
  rw [hr] at g1
  refine ⟨⟨fun h => ?_, fun h => ?_⟩, fun h => ?_, fun _ => ⟨hb, g1⟩⟩
  · exact absurd h (by omega)
  · exact absurd h (by omega)
  · exact absurd h (by omega)

/-- Up to precision 21 all latitudes from 90 upwards are encoded alike. -/
theorem encode64_lat_high (L1 L2 G p : Int) (hp : p ≤ 21) (h1 : f64OfInt 90 ≤ L1)
    (h2 : f64OfInt 90 ≤ L2) :
    EncodeWithPrecision64 L1 G p = EncodeWithPrecision64 L2 G p := by
  rw [EncodeWithPrecision64_eq, EncodeWithPrecision64_eq]
  congr 1
  obtain ⟨_, glat, _, _, wlat⟩ := inv64_init
  exact encChars64_congr_lat L1 L2 G
    (fun k iv => iv.2 = f64OfInt 90 ∧ Good64 iv ∧ ∃ j, Wide64 (f64OfInt 180) j iv ∧ j + k ≤ 52)
    (saturate64_high L1 L2 (f64OfInt 90) (f64OfInt 180) 52 lat_bound h1 h2)
    p.toNat true _ _ ⟨rfl, glat, 0, wlat, by simp only [if_true]; omega⟩

/-- Up to precision 21 all longitudes from 180 upwards are encoded alike. -/
theorem encode64_lng_high (L G1 G2 p : Int) (hp : p ≤ 21) (h1 : f64OfInt 180 ≤ G1)
    (h2 : f64OfInt 180 ≤ G2) :
    EncodeWithPrecision64 L G1 p = EncodeWithPrecision64 L G2 p := by
  rw [EncodeWithPrecision64_eq, EncodeWithPrecision64_eq]
  congr 1
  obtain ⟨_, _, glng, wlng, _⟩ := inv64_init
  exact encChars64_congr_lng L G1 G2
    (fun k iv => iv.2 = f64OfInt 180 ∧ Good64 iv ∧ ∃ j, Wide64 (f64OfInt 360) j iv ∧ j + k ≤ 53)
    (saturate64_high G1 G2 (f64OfInt 180) (f64OfInt 360) 53 lng_bound h1 h2)
    p.toNat true _ _ ⟨rfl, glng, 0, wlng, by simp only [if_true]; omega⟩

/-- All latitudes from -90 downwards are encoded alike. -/
theorem encode64_lat_low (L1 L2 G p : Int) (h1 : L1 ≤ f64OfInt (-90))
    (h2 : L2 ≤ f64OfInt (-90)) :
    EncodeWithPrecision64 L1 G p = EncodeWithPrecision64 L2 G p := by
  rw [EncodeWithPrecision64_eq, EncodeWithPrecision64_eq]
  congr 1
  obtain ⟨_, glat, _, _, _⟩ := inv64_init
  exact encChars64_congr_lat L1 L2 G (fun _ iv => iv.1 = f64OfInt (-90) ∧ Good64 iv)
    (saturate64_low L1 L2 (f64OfInt (-90)) h1 h2) p.toNat true _ _ ⟨rfl, glat⟩

/-- All longitudes from -180 downwards are encoded alike. -/
theorem encode64_lng_low (L G1 G2 p : Int) (h1 : G1 ≤ f64OfInt (-180))
    (h2 : G2 ≤ f64OfInt (-180)) :
    EncodeWithPrecision64 L G1 p = EncodeWithPrecision64 L G2 p := by
  rw [EncodeWithPrecision64_eq, EncodeWithPrecision64_eq]
  congr 1
  obtain ⟨_, _, glng, _, _⟩ := inv64_init
  exact encChars64_congr_lng L G1 G2 (fun _ iv => iv.1 = f64OfInt (-180) ∧ Good64 iv)
    (saturate64_low G1 G2 (f64OfInt (-180)) h1 h2) p.toNat true _ _ ⟨rfl, glng⟩

/-! ### Transfer between the float64 and the exact decoder -/

/-- On geohashes of at most 19 characters the `float64` cell is the exact cell. -/
theorem decodeFold64_rat (g : GoString) (h : g.length ≤ 19) :
    ratPair (decodeFold64 g).lat = (decodeFold g).lat
      ∧ ratPair (decodeFold64 g).lng = (decodeFold g).lng :=
  exact64_rat _ _ _ (decodeFold64_exact g h) (by omega)

/-- An alphabet character that is not a border character stops the carry: the
characters before it are copied, lower-cased, into the result whatever they
are. -/
theorem valid_stop_reached (pre suf : GoString) (c : Char) (dir : String)
    (hc : c.toLower ∈ base32)
    (hnb : isBorder (dirIndex dir) (((pre.length + 1 : Nat) : Int) % 2) c.toLower = false)
    (hsuf : ∀ (i : Nat) (hi : i < suf.length),
      isBorder (dirIndex dir) (((pre.length + 1 + i + 1 : Nat) : Int) % 2)
        (suf.get ⟨i, hi⟩).toLower = true) :
    ∃ t, CalculateAdjacent (pre ++ [c] ++ suf) dir = Except.ok (toLower pre ++ t)
      ∧ t.length = suf.length + 1 := by
  induction suf using List.reverseRecOn with
  | nil =>
    rw [List.append_nil, CalculateAdjacent_snoc,
      adjLast_valid _ _ (dirIndex_mem dir) (parity_mem _) _ hc, hnb]
    exact ⟨[_], rfl, rfl⟩
  | append_singleton s x ih =>
    have hs : ∀ (i : Nat) (hi : i < s.length),
        isBorder (dirIndex dir) (((pre.length + 1 + i + 1 : Nat) : Int) % 2)
          (s.get ⟨i, hi⟩).toLower = true := by
      intro i hi
      have := hsuf i (by simp; omega)
      simp only [List.get_eq_getElem] at this ⊢
      rwa [List.getElem_append_left hi] at this
    have hx : isBorder (dirIndex dir) (((pre.length + 1 + s.length + 1 : Nat) : Int) % 2)
        x.toLower = true := by
      have := hsuf s.length (by simp)
      simpa using this
    have hxv : x.toLower ∈ base32 := by
      have hb := hx
      simp only [isBorder, decide_eq_true_eq] at hb
      by_contra hn
      exact hb (stringsIndex_not_mem _ _ (fun hm =>
        hn ((tables_subset _ (dirIndex_mem dir) _ (parity_mem _)).1 _ hm)))
    obtain ⟨t, ht, hl⟩ := ih hs
    have hlen : (pre ++ [c] ++ s).length + 1 = pre.length + 1 + s.length + 1 := by
      simp only [List.length_append, List.length_singleton]
    rw [← List.append_assoc, CalculateAdjacent_snoc, CalculateAdjacent_toLower, ht, hlen,
      adjLast_valid _ _ (dirIndex_mem dir) (parity_mem _) _ hxv, hx]
    refine ⟨t ++ [nbr (dirIndex dir) (((pre.length + 1 + s.length + 1 : Nat) : Int) % 2)
      x.toLower], ?_, ?_⟩
    · simp only [if_true, ok_bind, List.append_assoc]
    · simp only [List.length_append, List.length_singleton, hl]

/-! ### Adjacency for any lower-casing function -/

/-- One level of `CalculateAdjacentWith` on an input whose lower-cased form
ends in `x`. -/
theorem CalculateAdjacentWith_snoc (lower : GoString → GoString) (fuel : Nat)
    (s b : GoString) (x : Char) (dir : String) (hs : lower s = b ++ [x]) :
    CalculateAdjacentWith lower (fuel + 1) s dir
      = if isBorder (dirIndex dir) (((b.length + 1 : Nat) : Int) % 2) x = true then
          (CalculateAdjacentWith lower fuel b dir).map
            (adjLast (dirIndex dir) (((b.length + 1 : Nat) : Int) % 2) b [x])
        else some (adjLast (dirIndex dir) (((b.length + 1 : Nat) : Int) % 2) b [x]
          (Except.ok b)) := by
  rw [CalculateAdjacentWith, hs, sliceFrom_last, sliceTo_last]
  simp only [isBorder, decide_eq_true_eq, List.length_append, List.length_singleton]

/-- Without a carry the recursive outcome is not used. -/
theorem adjLast_no_carry (d p : Int) (hd : d ∈ ([0, 1, 2, 3] : List Int))
    (hp : p ∈ ([0, 1] : List Int)) (x : Char) (hx : isBorder d p x = false)
    (base : GoString) (rec rec2 : Except Fault GoString) :
    adjLast d p base [x] rec = adjLast d p base [x] rec2 := by
  obtain ⟨⟨h1, h2⟩, _, _⟩ := goIndex_tables d hd p hp
  unfold adjLast
  simp only [isBorder, decide_eq_false_iff_not] at hx
  simp only [h1, h2, ok_bind, if_neg hx]

/-- With the byte-wise `toLower` and enough fuel, `CalculateAdjacentWith` is
`CalculateAdjacent`. -/
theorem CalculateAdjacentWith_toLower (dir : String) :
    ∀ (fuel : Nat) (s : GoString), s.length < fuel →
      CalculateAdjacentWith toLower fuel s dir = some (CalculateAdjacent s dir) := by
  intro fuel
  induction fuel with
  | zero => intro s hf; omega
  | succ n ih =>
    intro s hf
    rcases List.eq_nil_or_concat s with rfl | ⟨b, c, hs⟩
    · rw [CalculateAdjacentWith, CalculateAdjacent]
      rfl
    · rw [List.concat_eq_append] at hs
      subst hs
      have el : (toLower b).length = b.length := by simp [toLower]
      have hl : (toLower b).length < n := by
        rw [List.length_append, List.length_singleton] at hf
        omega
      rw [CalculateAdjacentWith_snoc toLower n _ _ _ dir (toLower_append b c),
        CalculateAdjacent_snoc, el, ih _ hl]
      split
      · rfl
      · rename_i hx
        rw [Bool.not_eq_true] at hx
        rw [adjLast_no_carry _ _ (dirIndex_mem dir) (parity_mem _) _ hx _
          (Except.ok (toLower b)) (CalculateAdjacent (toLower b) dir)]

theorem base32_ascii : ∀ c ∈ base32, c.toNat < 128 := by decide

theorem isBorder_mem (dir : String) (n : Nat) (x : Char)
    (hx : isBorder (dirIndex dir) ((n : Int) % 2) x = true) : x ∈ base32 := by
  simp only [isBorder, decide_eq_true_eq] at hx
  by_contra hn
  exact hx (stringsIndex_not_mem _ _ (fun hm =>
    hn ((tables_subset _ (dirIndex_mem dir) _ (parity_mem _)).1 _ hm)))

/-- The two outcomes of `CalculateAdjacentWith` at a reached character, for
any lower-casing function that acts on a final ASCII byte as `Char.toLower`
and is idempotent. -/
theorem adjacentWith_reached (lower : GoString → GoString)
    (h1 : ∀ (t : GoString) (a : Char), a.toNat < 128 → lower (t ++ [a]) = lower t ++ [a.toLower])
    (h2 : ∀ t : GoString, lower (lower t) = lower t)
    (pre : GoString) (c : Char) (dir : String) (suf : GoString) :
    ∀ (s : GoString) (fuel : Nat), lower s = pre ++ [c] ++ suf → suf.length < fuel →
      (∀ (i : Nat) (hi : i < suf.length),
        isBorder (dirIndex dir) (((pre.length + 1 + i + 1 : Nat) : Int) % 2)
          (suf.get ⟨i, hi⟩) = true) →
      (c ∉ base32 →
        CalculateAdjacentWith lower fuel s dir = some (Except.error Fault.indexRange))
      ∧ (c ∈ base32 →
          isBorder (dirIndex dir) (((pre.length + 1 : Nat) : Int) % 2) c = false →
          ∃ t, CalculateAdjacentWith lower fuel s dir = some (Except.ok (pre ++ t))
            ∧ t.length = suf.length + 1) := by
  induction suf using List.reverseRecOn with
  | nil =>
    intro s fuel hs hf _
    obtain ⟨n, rfl⟩ : ∃ n, fuel = n + 1 := ⟨fuel - 1, by omega⟩
    rw [List.append_nil] at hs
    rw [CalculateAdjacentWith_snoc lower n s pre c dir hs]
    constructor
    · intro hc
      have hnb : ¬ isBorder (dirIndex dir) (((pre.length + 1 : Nat) : Int) % 2) c = true :=
        fun hb => hc (isBorder_mem dir _ c hb)
      rw [if_neg hnb, adjLast_invalid _ _ (dirIndex_mem dir) (parity_mem _) _ hc]
    · intro hc hnb
      rw [hnb, if_neg (by simp), adjLast_valid _ _ (dirIndex_mem dir) (parity_mem _) _ hc, hnb]
      exact ⟨[_], rfl, rfl⟩
  | append_singleton u x ih =>
    intro s fuel hs hf hsuf
    obtain ⟨n, rfl⟩ : ∃ n, fuel = n + 1 := ⟨fuel - 1, by omega⟩
    have hn : u.length < n := by
      rw [List.length_append, List.length_singleton] at hf
      omega
    have hu : ∀ (i : Nat) (hi : i < u.length),
        isBorder (dirIndex dir) (((pre.length + 1 + i + 1 : Nat) : Int) % 2)
          (u.get ⟨i, hi⟩) = true := by
      intro i hi
      have := hsuf i (by simp; omega)
      simp only [List.get_eq_getElem] at this ⊢
      rwa [List.getElem_append_left hi] at this
    have hx : isBorder (dirIndex dir) (((pre.length + 1 + u.length + 1 : Nat) : Int) % 2)
        x = true := by
      have := hsuf u.length (by simp)
      simpa using this
    have hxv : x ∈ base32 := isBorder_mem dir _ x hx
    have hs2 : lower s = (pre ++ [c] ++ u) ++ [x] := by
      rw [hs]
      simp only [List.append_assoc]
    have hb : lower (pre ++ [c] ++ u) = pre ++ [c] ++ u := by
      have e := h2 s
      rw [hs2, h1 _ x (base32_ascii x hxv), toLower_base32 x hxv] at e
      exact List.append_cancel_right e
    have hlen : (pre ++ [c] ++ u).length + 1 = pre.length + 1 + u.length + 1 := by
      simp only [List.length_append, List.length_singleton]
    obtain ⟨i1, i2⟩ := ih (pre ++ [c] ++ u) n hb hn hu
    rw [CalculateAdjacentWith_snoc lower n s _ x dir hs2, hlen, hx, if_pos rfl]
    constructor
    · intro hc
      rw [i1 hc, Option.map_some']
      rw [adjLast_border_error _ _ (dirIndex_mem dir) (parity_mem _) _ hx]
    · intro hc hnb
      obtain ⟨t, ht, hl⟩ := i2 hc hnb
      rw [ht, Option.map_some', adjLast_valid _ _ (dirIndex_mem dir) (parity_mem _) _ hxv, hx]
      refine ⟨t ++ [nbr (dirIndex dir) (((pre.length + 1 + u.length + 1 : Nat) : Int) % 2)
        x], ?_, ?_⟩
      · simp only [if_true, ok_bind, List.append_assoc]
      · simp only [List.length_append, List.length_singleton, hl]

/-! ### Agreement of the two embeddings -/

theorem f64ToRat_lt (a b : Int) : f64ToRat a < f64ToRat b ↔ a < b := by
  unfold f64ToRat
  have h2 : (0 : ℚ) < 2 ^ 1074 := by positivity
  rw [div_lt_div_iff_of_pos_right h2]
  exact Int.cast_lt

theorem f64ToRat_half (a b m : Int) (h : a + b = 2 * m) :
    (f64ToRat a + f64ToRat b) / 2 = f64ToRat m := by
  have e : (a : ℚ) + b = 2 * m := by exact_mod_cast congrArg (Int.cast : Int → ℚ) h
  unfold f64ToRat
  rw [← add_div, e]
  ring

/-- On geohashes of at most 18 characters `Decode64` returns the box of
`Decode`. -/
theorem Decode64_exact (g : GoString) (h : g.length ≤ 18) :
    (Decode64 g).map ratBox = Decode g := by
  rw [Decode64_eq, Decode_eq]
  have hx := decodeFold64_exact g (by omega)
  obtain ⟨r1, r2⟩ := exact64_rat _ _ _ hx (by omega)
  obtain ⟨c1, c2⟩ := exact64_centre _ _ _ hx (by omega)
  have a1 := congrArg Prod.fst r1
  have a2 := congrArg Prod.snd r1
  have a3 := congrArg Prod.fst r2
  have a4 := congrArg Prod.snd r2
  simp only [ratPair] at a1 a2 a3 a4
  show Except.ok (ratBox (boxOf64 (decodeFold64 g))) = Except.ok (boxOf (decodeFold g))
  congr 1
  simp only [ratBox, boxOf64, boxOf]
  rw [a1, a2, a3, a4, ← a1, ← a2, ← a3, ← a4,
    f64ToRat_half _ _ _ c1.symm, f64ToRat_half _ _ _ c2.symm]

/-- One bisection of the encoder is exact below level 48. -/
theorem bisect64_exact (x y : Int) (e : Bool) (kx ky : Nat) (lat64 lng64 : Int × Int)
    (lat lng : ℚ × ℚ) (h : EncExact kx ky lat64 lng64 lat lng)
    (hx : e = true → kx ≤ 47) (hy : e = false → ky ≤ 47) :
    (bisect64 x y e lat64 lng64).2.2 = (bisect (f64ToRat x) (f64ToRat y) e lat lng).2.2
      ∧ EncExact (kx + if e then 1 else 0) (ky + if e then 0 else 1)
          (bisect64 x y e lat64 lng64).1 (bisect64 x y e lat64 lng64).2.1
          (bisect (f64ToRat x) (f64ToRat y) e lat lng).1
          (bisect (f64ToRat x) (f64ToRat y) e lat lng).2.1 := by
  obtain ⟨a, b, ha, hb, l64, l, t64, t⟩ := h
  have w180 : (180 : Int) = 45 * 2 ^ 2 := by norm_num
  have w90 : (90 : Int) = 45 * 2 ^ 1 := by norm_num
  have hpos : intAnd 16 16 > 0 := by decide
  have hneg : ¬ intAnd 0 16 > 0 := by decide
  have b1 : bitOf 16 16 = 1 := by decide
  have b0 : bitOf 0 16 = 0 := by decide
  cases e
  · have hky := hy rfl
    have hmid := cell64_mid 1 ky b (by norm_num) hky hb
    have hsum := cell64_sum (45 * 2 ^ 1) ky b (by omega)
    have hrat := f64ToRat_cell (45 * 2 ^ 1) ky b (by omega)
    have hmq : (lat.1 + lat.2) / 2 = f64ToRat (f64Mid lat64.1 lat64.2) := by
      rw [t64, w90, hmid, ← f64ToRat_half _ _ _ hsum]
      have : lat = ratPair (cell64 (45 * 2 ^ 1) ky b) := by rw [hrat, t]; norm_num
      rw [this]; rfl
    have r1 := refineInterval64_cell 1 ky b 16 16 (by norm_num) hky hb
    have r0 := refineInterval64_cell 1 ky b 0 16 (by norm_num) hky hb
    have q1 := refineInterval_sub (-90, 90) ky b 16 16
    have q0 := refineInterval_sub (-90, 90) ky b 0 16
    simp only [refineInterval64, refineInterval, if_pos hpos, if_neg hneg, b1, b0,
      Nat.add_zero] at r1 r0 q1 q0
    unfold bisect64 bisect
    simp only [Bool.false_eq_true, if_false, Nat.add_zero]
    rw [hmq]
    by_cases hc : x > f64Mid lat64.1 lat64.2
    · rw [if_pos hc, if_pos ((f64ToRat_lt _ _).2 hc)]
      refine ⟨rfl, a, 2 * b + 1, ha, ?_, l64, l, ?_, ?_⟩
      · rw [pow_succ]; omega
      · simp only []; rw [t64, w90]; exact r1
      · simp only []; rw [← hmq, t]; exact q1
    · rw [if_neg hc, if_neg (fun hh => hc ((f64ToRat_lt _ _).1 hh))]
      refine ⟨rfl, a, 2 * b, ha, ?_, l64, l, ?_, ?_⟩
      · rw [pow_succ]; omega
      · simp only []; rw [t64, w90]; exact r0
      · simp only []; rw [← hmq, t]; exact q0
  · have hkx := hx rfl
    have hmid := cell64_mid 2 kx a (by norm_num) hkx ha
    have hsum := cell64_sum (45 * 2 ^ 2) kx a (by omega)
    have hrat := f64ToRat_cell (45 * 2 ^ 2) kx a (by omega)
    have hmq : (lng.1 + lng.2) / 2 = f64ToRat (f64Mid lng64.1 lng64.2) := by
      rw [l64, w180, hmid, ← f64ToRat_half _ _ _ hsum]
      have : lng = ratPair (cell64 (45 * 2 ^ 2) kx a) := by rw [hrat, l]; norm_num
      rw [this]; rfl
    have r1 := refineInterval64_cell 2 kx a 16 16 (by norm_num) hkx ha
    have r0 := refineInterval64_cell 2 kx a 0 16 (by norm_num) hkx ha
    have q1 := refineInterval_sub (-180, 180) kx a 16 16
    have q0 := refineInterval_sub (-180, 180) kx a 0 16
    simp only [refineInterval64, refineInterval, if_pos hpos, if_neg hneg, b1, b0,
      Nat.add_zero] at r1 r0 q1 q0
    unfold bisect64 bisect
    simp only [if_true, Nat.add_zero]
    rw [hmq]
    by_cases hc : y > f64Mid lng64.1 lng64.2
    · rw [if_pos hc, if_pos ((f64ToRat_lt _ _).2 hc)]
      refine ⟨rfl, 2 * a + 1, b, ?_, hb, ?_, ?_, t64, t⟩
      · rw [pow_succ]; omega
      · simp only []; rw [l64, w180]; exact r1
      · simp only []; rw [← hmq, l]; exact q1
    · rw [if_neg hc, if_neg (fun hh => hc ((f64ToRat_lt _ _).1 hh))]
      refine ⟨rfl, 2 * a, b, ?_, hb, ?_, ?_, t64, t⟩
      · rw [pow_succ]; omega
      · simp only []; rw [l64, w180]; exact r0
      · simp only []; rw [← hmq, l]; exact q0

theorem encBits64_exact (x y : Int) :
    ∀ (ws : List Int) (e : Bool) (kx ky : Nat) (lat64 lng64 : Int × Int) (lat lng : ℚ × ℚ)
      (ch : Int), EncExact kx ky lat64 lng64 lat lng →
      kx + (if e then (ws.length + 1) / 2 else ws.length / 2) ≤ 48 →
      ky + (if e then ws.length / 2 else (ws.length + 1) / 2) ≤ 48 →
      (encBits64 x y ws e lat64 lng64 ch).1 = (encBits (f64ToRat x) (f64ToRat y) ws e lat lng ch).1
      ∧ (encBits64 x y ws e lat64 lng64 ch).2.2.2
          = (encBits (f64ToRat x) (f64ToRat y) ws e lat lng ch).2.2.2
      ∧ EncExact (kx + (if e then (ws.length + 1) / 2 else ws.length / 2))
          (ky + (if e then ws.length / 2 else (ws.length + 1) / 2))
          (encBits64 x y ws e lat64 lng64 ch).2.1 (encBits64 x y ws e lat64 lng64 ch).2.2.1
          (encBits (f64ToRat x) (f64ToRat y) ws e lat lng ch).2.1
          (encBits (f64ToRat x) (f64ToRat y) ws e lat lng ch).2.2.1 := by
  intro ws
  induction ws with
  | nil =>
    intro e kx ky lat64 lng64 lat lng ch h _ _
    cases e <;> exact ⟨rfl, rfl, by simpa using h⟩
  | cons w ws ih =>
    intro e kx ky lat64 lng64 lat lng ch h hkx hky
    cases e
    · simp only [Bool.false_eq_true, if_false, List.length_cons] at hkx hky ⊢
      obtain ⟨hb, hE⟩ := bisect64_exact x y false kx ky lat64 lng64 lat lng h
        (fun hh => by cases hh) (fun _ => by omega)
      simp only [Bool.false_eq_true, if_false, Nat.add_zero] at hE
      have := ih true kx (ky + 1) _ _ _ _
        (ch + if (bisect (f64ToRat x) (f64ToRat y) false lat lng).2.2 then w else 0) hE
        (by simp only [if_true]; omega) (by simp only [if_true]; omega)
      simp only [if_true] at this
      simp only [encBits64, encBits, Bool.not_false, hb]
      have e2 : ky + (ws.length + 1 + 1) / 2 = ky + 1 + ws.length / 2 := by omega
      rw [e2]
      exact this
    · simp only [if_true, List.length_cons] at hkx hky ⊢
      obtain ⟨hb, hE⟩ := bisect64_exact x y true kx ky lat64 lng64 lat lng h
        (fun _ => by omega) (fun hh => by cases hh)
      simp only [if_true, Nat.add_zero] at hE
      have := ih false (kx + 1) ky _ _ _ _
        (ch + if (bisect (f64ToRat x) (f64ToRat y) true lat lng).2.2 then w else 0) hE
        (by simp only [Bool.false_eq_true, if_false]; omega)
        (by simp only [Bool.false_eq_true, if_false]; omega)
      simp only [Bool.false_eq_true, if_false] at this
      simp only [encBits64, encBits, Bool.not_true, hb]
      have e2 : kx + (ws.length + 1 + 1) / 2 = kx + 1 + ws.length / 2 := by omega
      rw [e2]
      exact this

theorem encChars64_exact (x y : Int) :
    ∀ (n : Nat) (e : Bool) (kx ky : Nat) (lat64 lng64 : Int × Int) (lat lng : ℚ × ℚ),
      EncExact kx ky lat64 lng64 lat lng →
      kx + (if e then (5 * n + 1) / 2 else 5 * n / 2) ≤ 48 →
      ky + (if e then 5 * n / 2 else (5 * n + 1) / 2) ≤ 48 →
      encChars64 x y n e lat64 lng64 = encChars (f64ToRat x) (f64ToRat y) n e lat lng := by
  intro n
  induction n with
  | zero => intros; rfl
  | succ n ih =>
    intro e kx ky lat64 lng64 lat lng h hkx hky
    have hb : bits.length = 5 := rfl
    obtain ⟨p1, p2, p3⟩ := encBits64_exact x y bits e kx ky lat64 lng64 lat lng 0 h
      (by rw [hb]; cases e <;> simp only [Bool.false_eq_true, if_false, if_true]
            at hkx ⊢ <;> omega)
      (by rw [hb]; cases e <;> simp only [Bool.false_eq_true, if_false, if_true]
            at hky ⊢ <;> omega)
    simp only [encChars64, encChars]
    rw [p2, p1]
    congr 1
    rw [hb] at p3
    have hpar : (encBits (f64ToRat x) (f64ToRat y) bits e lat lng 0).1 = !e := by
      simp only [encBits, bits]
      cases e <;> rfl
    rw [hpar]
    apply ih (!e) _ _ _ _ _ _ p3
    · cases e <;> simp only [Bool.false_eq_true, if_false, if_true, Bool.not_false,
        Bool.not_true] at hkx ⊢ <;> omega
    · cases e <;> simp only [Bool.false_eq_true, if_false, if_true, Bool.not_false,
        Bool.not_true] at hky ⊢ <;> omega

theorem encExact_init :
    EncExact 0 0 (f64OfInt (-90), f64OfInt 90) (f64OfInt (-180), f64OfInt 180)
      (-90, 90) (-180, 180) := by
  obtain ⟨_, _, a, b, ha, hb, h1, h2, h3, h4⟩ := exact64_init
  exact ⟨a, b, ha, hb, h1, h2, h3, h4⟩

/-- Up to precision 19 `EncodeWithPrecision64` computes without rounding: it
returns what `EncodeWithPrecision` returns in exact arithmetic. -/
theorem EncodeWithPrecision64_exact (x y p : Int) (hp : p ≤ 19) :
    EncodeWithPrecision64 x y p = EncodeWithPrecision (f64ToRat x) (f64ToRat y) p := by
  rw [EncodeWithPrecision64_eq, EncodeWithPrecision_eq]
  congr 1
  exact encChars64_exact x y p.toNat true 0 0 _ _ _ _ encExact_init
    (by simp only [if_true]; omega) (by simp only [if_true]; omega)

/-! ## The claims -/

/-- C1. Round-trip containment: for every `lat ∈ [-90, 90]`, every
`lng ∈ [-180, 180]` and every precision `p` with `1 ≤ p ≤ 12`, the box
`B = Decode (EncodeWithPrecision lat lng p)` satisfies
`B.sw.lat ≤ lat ≤ B.ne.lat` and `B.sw.lng ≤ lng ≤ B.ne.lng`. -/
theorem C1_round_trip (latitude longitude : ℚ) (p : Int)
    (hlat : -90 ≤ latitude ∧ latitude ≤ 90) (hlng : -180 ≤ longitude ∧ longitude ≤ 180)
    (hp : 1 ≤ p ∧ p ≤ 12) :
    ∃ g B, EncodeWithPrecision latitude longitude p = Except.ok g ∧ Decode g = Except.ok B
      ∧ B.sw.lat ≤ latitude ∧ latitude ≤ B.ne.lat
      ∧ B.sw.lng ≤ longitude ∧ longitude ≤ B.ne.lng := by
  have _ := hp
  refine ⟨_, _, EncodeWithPrecision_eq latitude longitude p, Decode_eq _, ?_⟩
  obtain ⟨⟨a, b⟩, c, d⟩ := decode_encChars_contains latitude longitude p.toNat decodeInit
    hlat hlng
  exact ⟨a, b, c, d⟩

theorem C1_round_trip_witness :
    ((-90 : ℚ) ≤ 39 ∧ (39 : ℚ) ≤ 90) ∧ ((-180 : ℚ) ≤ -76 ∧ (-76 : ℚ) ≤ 180)
    ∧ ((1 : Int) ≤ 5 ∧ (5 : Int) ≤ 12)
    ∧ ∃ g B, EncodeWithPrecision 39 (-76) 5 = Except.ok g ∧ Decode g = Except.ok B
      ∧ B.sw.lat ≤ 39 ∧ 39 ≤ B.ne.lat ∧ B.sw.lng ≤ -76 ∧ -76 ≤ B.ne.lng :=
  ⟨by norm_num, by norm_num, by decide,
    C1_round_trip 39 (-76) 5 (by norm_num) (by norm_num) (by decide)⟩

/-- C3. Adjacency inverse: for every non-empty geohash `g` over the lowercase
alphabet and every direction `d` among top, right, bottom, left, if
`CalculateAdjacent g d` returns a string `h` (no carry past the first
character), then `CalculateAdjacent h (opposite d)` returns `g`. -/
theorem C3_adjacency_inverse (g h : GoString) (dir : String)
    (hne : g ≠ []) (hg : ∀ c ∈ g, c ∈ base32)
    (hd : dir ∈ ["top", "right", "bottom", "left"])
    (hr : CalculateAdjacent g dir = Except.ok h) :
    CalculateAdjacent h (opposite dir) = Except.ok g := by
  have _ := hne
  exact (adjacent_inverse dir hd g h hg hr).2.2

theorem C3_adjacency_inverse_witness :
    "dr".toList ≠ [] ∧ (∀ c ∈ "dr".toList, c ∈ base32)
    ∧ "top" ∈ ["top", "right", "bottom", "left"]
    ∧ CalculateAdjacent "dr".toList "top" = Except.ok "f2".toList
    ∧ CalculateAdjacent "f2".toList (opposite "top") = Except.ok "dr".toList :=
  ⟨by decide, by decide, by decide, by rw [CalculateAdjacent_eq_rev]; decide,
    C3_adjacency_inverse "dr".toList "f2".toList "top" (by decide) (by decide) (by decide)
      (by rw [CalculateAdjacent_eq_rev]; decide)⟩

/-- C5 (counterexample). For the 19-character geohash `"zzzzzzzzzzzzzzzzzzz"`
the `float64` centre longitude is not the arithmetic midpoint of the two
corners: the midpoint needs 54 significant bits and is rounded. -/
theorem C5_counterexample :
    (∀ c ∈ List.replicate 19 'z', c ∈ base32)
    ∧ ∃ B, Decode64 (List.replicate 19 'z') = Except.ok B
        ∧ 2 * B.center.lng ≠ B.sw.lng + B.ne.lng := by
  refine ⟨by decide, boxOf64 (decodeFold64 (List.replicate 19 'z')), Decode64_eq _, ?_⟩
  decide!

/-- C5 (amended). Box ordering invariant: for every string `g` over the
32-character alphabet, `Decode64 g` returns a box with `sw.lat ≤ ne.lat` and
`sw.lng ≤ ne.lng`; its centre is the `float64` value of
`((sw.lat + ne.lat) / 2, (sw.lng + ne.lng) / 2)`, and when `g` has at most 18
characters that value is exactly the arithmetic midpoint of the two corners. -/
theorem C5_box_ordering (g : GoString) (hg : ∀ c ∈ g, c ∈ base32) :
    ∃ B, Decode64 g = Except.ok B
      ∧ B.sw.lat ≤ B.ne.lat ∧ B.sw.lng ≤ B.ne.lng
      ∧ B.center.lat = f64Mid B.sw.lat B.ne.lat ∧ B.center.lng = f64Mid B.sw.lng B.ne.lng
      ∧ (g.length ≤ 18 →
          2 * B.center.lat = B.sw.lat + B.ne.lat ∧ 2 * B.center.lng = B.sw.lng + B.ne.lng) := by
  have _ := hg
  obtain ⟨_, glat, glng, _, _⟩ := decodeFold64_inv g
  refine ⟨boxOf64 (decodeFold64 g), Decode64_eq g, glat.2.2.1, glng.2.2.1, rfl, rfl,
    fun h18 => ?_⟩
  exact exact64_centre _ _ _ (decodeFold64_exact g (by omega)) (by omega)

theorem C5_box_ordering_witness :
    (∀ c ∈ "dr".toList, c ∈ base32)
    ∧ ∃ B, Decode64 "dr".toList = Except.ok B
      ∧ B.sw.lat ≤ B.ne.lat ∧ B.sw.lng ≤ B.ne.lng
      ∧ B.center.lat = f64Mid B.sw.lat B.ne.lat ∧ B.center.lng = f64Mid B.sw.lng B.ne.lng
      ∧ 2 * B.center.lat = B.sw.lat + B.ne.lat ∧ 2 * B.center.lng = B.sw.lng + B.ne.lng :=
  ⟨by decide,
    match C5_box_ordering "dr".toList (by decide) with
    | ⟨B, h1, h2, h3, h4, h5, h6⟩ => ⟨B, h1, h2, h3, h4, h5, h6 (by decide)⟩⟩

/-- C6 (counterexample). For the 20-character geohash `"zzzzzzzzzzzzzzzzzzzz"`
the closed form gives `sw.lat = 90 - 180 / 2 ^ 50`, which is not a `float64`;
`Decode64` returns `90 - 11 / 2 ^ 46`. -/
theorem C6_counterexample :
    (∀ c ∈ List.replicate 20 'z', c ∈ base32)
    ∧ ∃ B, Decode64 (List.replicate 20 'z') = Except.ok B
        ∧ B.sw.lat = f64OfInt 90 - 11 * 2 ^ 1028
        ∧ f64ToRat B.sw.lat
            ≠ -90 + 180 * (specY (List.replicate 20 'z') : ℚ)
                / 2 ^ (5 * (List.replicate 20 'z').length / 2) := by
  have hv : (boxOf64 (decodeFold64 (List.replicate 20 'z'))).sw.lat
      = f64OfInt 90 - 11 * 2 ^ 1028 := by decide!
  refine ⟨by decide, boxOf64 (decodeFold64 (List.replicate 20 'z')), Decode64_eq _, hv, ?_⟩
  have hY : specY (List.replicate 20 'z') = 2 ^ 50 - 1 := by decide
  have hl : 5 * (List.replicate 20 'z').length / 2 = 50 := by decide
  rw [hv, hY, hl]
  have e : f64ToRat (f64OfInt 90 - 11 * 2 ^ 1028) = 90 - 11 / 2 ^ 46 := by
    have h1 : (2 : ℚ) ^ 1074 = 2 ^ 46 * 2 ^ 1028 := by rw [← pow_add]
    have h2 : (2 : ℚ) ^ 1028 ≠ 0 := by positivity
    simp only [f64ToRat, f64OfInt, Int.cast_sub, Int.cast_mul, Int.cast_pow, Int.cast_ofNat]
    rw [h1]
    generalize (2 : ℚ) ^ 1028 = u at h2 ⊢
    field_simp
    ring
  rw [e]
  norm_num

/-- C6 (amended). `Decode64` equals the closed-form geohash reference on
geohashes of at most 19 characters: for a geohash `g` of `n ≤ 19` characters
over the alphabet, with `X` and `Y` the integers written by the bits at even
and at odd positions, `nl = ⌈5n/2⌉` and `nt = ⌊5n/2⌋`, the box has
`sw.lng = -180 + 360 X / 2^nl`, `ne.lng = sw.lng + 360 / 2^nl`,
`sw.lat = -90 + 180 Y / 2^nt` and `ne.lat = sw.lat + 180 / 2^nt`; for
instance `Decode64 "dr12"` has `sw = (39.375, -76.9921875)` and
`ne = (39.55078125, -76.640625)`. -/
theorem C6_decode_closed_form :
    (∀ g : GoString, (∀ c ∈ g, c ∈ base32) → g.length ≤ 19 →
      ∃ B, Decode64 g = Except.ok B
        ∧ f64ToRat B.sw.lng = -180 + 360 * (specX g : ℚ) / 2 ^ ((5 * g.length + 1) / 2)
        ∧ f64ToRat B.ne.lng = f64ToRat B.sw.lng + 360 / 2 ^ ((5 * g.length + 1) / 2)
        ∧ f64ToRat B.sw.lat = -90 + 180 * (specY g : ℚ) / 2 ^ (5 * g.length / 2)
        ∧ f64ToRat B.ne.lat = f64ToRat B.sw.lat + 180 / 2 ^ (5 * g.length / 2))
    ∧ (∃ B, Decode64 "dr12".toList = Except.ok B
        ∧ f64ToRat B.sw.lat = 39.375 ∧ f64ToRat B.sw.lng = -76.9921875
        ∧ f64ToRat B.ne.lat = 39.55078125 ∧ f64ToRat B.ne.lng = -76.640625) := by
  have main : ∀ g : GoString, (∀ c ∈ g, c ∈ base32) → g.length ≤ 19 →
      ∃ B, Decode64 g = Except.ok B
        ∧ f64ToRat B.sw.lng = -180 + 360 * (specX g : ℚ) / 2 ^ ((5 * g.length + 1) / 2)
        ∧ f64ToRat B.ne.lng = f64ToRat B.sw.lng + 360 / 2 ^ ((5 * g.length + 1) / 2)
        ∧ f64ToRat B.sw.lat = -90 + 180 * (specY g : ℚ) / 2 ^ (5 * g.length / 2)
        ∧ f64ToRat B.ne.lat = f64ToRat B.sw.lat + 180 / 2 ^ (5 * g.length / 2) := by
    intro g hg h19
    obtain ⟨_, hlng, hlat⟩ := decodeFold_closed g hg
    obtain ⟨r1, r2⟩ := decodeFold64_rat g h19
    rw [← r1] at hlat
    rw [← r2] at hlng
    have a1 := congrArg Prod.fst hlng
    have a2 := congrArg Prod.snd hlng
    have a3 := congrArg Prod.fst hlat
    have a4 := congrArg Prod.snd hlat
    simp only [ratPair, subInterval] at a1 a2 a3 a4
    refine ⟨boxOf64 (decodeFold64 g), Decode64_eq g, ?_, ?_, ?_, ?_⟩
    · simp only [boxOf64, a1]; ring
    · simp only [boxOf64, a1, a2]; ring
    · simp only [boxOf64, a3]; ring
    · simp only [boxOf64, a3, a4]; ring
  refine ⟨main, ?_⟩
  obtain ⟨B, hB, h1, h2, h3, h4⟩ := main "dr12".toList (by decide) (by decide)
  have hX : specX "dr12".toList = 293 := by decide
  have hY : specY "dr12".toList = 736 := by decide
  refine ⟨B, hB, ?_, ?_, ?_, ?_⟩
  · rw [h3, hY]; norm_num
  · rw [h1, hX]; norm_num
  · rw [h4, h3, hY]; norm_num
  · rw [h2, h1, hX]; norm_num

theorem C6_decode_closed_form_witness :
    (∀ c ∈ "dr".toList, c ∈ base32) ∧ "dr".toList.length ≤ 19
    ∧ ∃ B, Decode64 "dr".toList = Except.ok B
        ∧ f64ToRat B.sw.lng
            = -180 + 360 * (specX "dr".toList : ℚ) / 2 ^ ((5 * "dr".toList.length + 1) / 2)
        ∧ f64ToRat B.ne.lng
            = f64ToRat B.sw.lng + 360 / 2 ^ ((5 * "dr".toList.length + 1) / 2)
        ∧ f64ToRat B.sw.lat
            = -90 + 180 * (specY "dr".toList : ℚ) / 2 ^ (5 * "dr".toList.length / 2)
        ∧ f64ToRat B.ne.lat = f64ToRat B.sw.lat + 180 / 2 ^ (5 * "dr".toList.length / 2) :=
  ⟨by decide, by decide, C6_decode_closed_form.1 "dr".toList (by decide) (by decide)⟩

/-- C7 (counterexample). In `float64` the box of the 22-character geohash
`"2222222222222222222220"` is as wide as the box of its first 21 characters:
the longitude interval is one `float64` step wide and bisecting it returns it
unchanged. -/
theorem C7_counterexample :
    (∀ x ∈ List.replicate 21 '2', x ∈ base32) ∧ '0' ∈ base32
    ∧ ∃ B B', Decode64 (List.replicate 21 '2') = Except.ok B
        ∧ Decode64 (List.replicate 21 '2' ++ ['0']) = Except.ok B'
        ∧ ¬ (B'.ne.lng - B'.sw.lng < B.ne.lng - B.sw.lng) := by
  refine ⟨by decide, by decide, boxOf64 (decodeFold64 (List.replicate 21 '2')),
    boxOf64 (decodeFold64 (List.replicate 21 '2' ++ ['0'])), Decode64_eq _, Decode64_eq _, ?_⟩
  decide!

/-- C7 (amended). More characters give a smaller box: for every string `g`
over the alphabet and every alphabet character `c`, the `float64` box of
`g ++ [c]` lies inside the box of `g`; when `g` has at most 20 characters it
is strictly smaller in latitude extent and in longitude extent. -/
theorem C7_longer_is_smaller (g : GoString) (c : Char)
    (hg : ∀ x ∈ g, x ∈ base32) (hc : c ∈ base32) :
    ∃ B B', Decode64 g = Except.ok B ∧ Decode64 (g ++ [c]) = Except.ok B'
      ∧ B.sw.lat ≤ B'.sw.lat ∧ B.sw.lng ≤ B'.sw.lng
      ∧ B'.ne.lat ≤ B.ne.lat ∧ B'.ne.lng ≤ B.ne.lng
      ∧ (g.length ≤ 20 →
          B'.ne.lat - B'.sw.lat < B.ne.lat - B.sw.lat
          ∧ B'.ne.lng - B'.sw.lng < B.ne.lng - B.sw.lng) := by
  have _ := hg
  have _ := hc
  refine ⟨boxOf64 (decodeFold64 g), boxOf64 (decodeFold64 (g ++ [c])), Decode64_eq g,
    Decode64_eq _, ?_⟩
  rw [decodeFold64_snoc]
  obtain ⟨_, n1, n2, n3, n4⟩ := charStep64_inv _ _ c (decodeFold64_inv g)
  exact ⟨n1, n3, n2, n4, fun h20 => charStep64_shrink _ _ c (decodeFold64_inv g) (by omega)⟩

theorem C7_longer_is_smaller_witness :
    (∀ x ∈ "d".toList, x ∈ base32) ∧ 'r' ∈ base32
    ∧ ∃ B B', Decode64 "d".toList = Except.ok B ∧ Decode64 ("d".toList ++ ['r']) = Except.ok B'
      ∧ B.sw.lat ≤ B'.sw.lat ∧ B.sw.lng ≤ B'.sw.lng
      ∧ B'.ne.lat ≤ B.ne.lat ∧ B'.ne.lng ≤ B.ne.lng
      ∧ B'.ne.lat - B'.sw.lat < B.ne.lat - B.sw.lat
      ∧ B'.ne.lng - B'.sw.lng < B.ne.lng - B.sw.lng :=
  ⟨by decide, by decide,
    match C7_longer_is_smaller "d".toList 'r' (by decide) (by decide) with
    | ⟨B, B', h1, h2, h3, h4, h5, h6, h7⟩ => ⟨B, B', h1, h2, h3, h4, h5, h6, h7 (by decide)⟩⟩

/-- C8 (counterexample). For `"dr"` the second entry of the result is the
top-right cell `"f8"`, not the right neighbour `"dx"`: the order is not
`[top, right, bottom, top-right, top-left, left, bottom-right, bottom-left]`. -/
theorem C8_counterexample :
    CalculateAllAdjacent "dr".toList
        = Except.ok ["f2".toList, "f8".toList, "f0".toList, "dx".toList,
                     "dq".toList, "dw".toList, "dn".toList, "dp".toList]
    ∧ CalculateAdjacent "dr".toList "top" = Except.ok "f2".toList
    ∧ CalculateAdjacent "dr".toList "right" = Except.ok "dx".toList
    ∧ CalculateAdjacent "dr".toList "bottom" = Except.ok "dq".toList
    ∧ CalculateAdjacent "dr".toList "left" = Except.ok "dp".toList
    ∧ ¬ ∃ t r b l tr tl br bl,
        CalculateAdjacent "dr".toList "top" = Except.ok t
        ∧ CalculateAdjacent "dr".toList "right" = Except.ok r
        ∧ CalculateAdjacent "dr".toList "bottom" = Except.ok b
        ∧ CalculateAdjacent "dr".toList "left" = Except.ok l
        ∧ CalculateAdjacent t "right" = Except.ok tr
        ∧ CalculateAdjacent t "left" = Except.ok tl
        ∧ CalculateAdjacent b "right" = Except.ok br
        ∧ CalculateAdjacent b "left" = Except.ok bl
        ∧ CalculateAllAdjacent "dr".toList = Except.ok [t, r, b, tr, tl, l, br, bl] := by
  have hall := allAdjacent_dr
  have hright : CalculateAdjacent "dr".toList "right" = Except.ok "dx".toList := by
    rw [CalculateAdjacent_eq_rev]; decide
  refine ⟨hall, by rw [CalculateAdjacent_eq_rev]; decide, hright,
    by rw [CalculateAdjacent_eq_rev]; decide, by rw [CalculateAdjacent_eq_rev]; decide, ?_⟩
  rintro ⟨t, r, b, l, tr, tl, br, bl, _, hr, _, _, _, _, _, _, h⟩
  rw [hright] at hr
  rw [hall] at h
  injection hr with hr
  injection h with h
  subst hr
  have h2 : some "f8".toList = some "dx".toList := congrArg (fun l : List GoString => l.get? 1) h
  revert h2
  decide

/-- C8 (amended). Whenever `CalculateAllAdjacent g` succeeds, its result is
the sequence of exactly 8 strings
`[top, top-right, top-left, right, bottom, bottom-right, bottom-left, left]`,
where top, right, bottom, left are `CalculateAdjacent g` in that direction
and the diagonals are the right and left neighbours of top and of bottom. -/
theorem C8_all_adjacent_order (g : GoString) (vs : List GoString)
    (hr : CalculateAllAdjacent g = Except.ok vs) :
    ∃ t r b l tr tl br bl,
      CalculateAdjacent g "top" = Except.ok t
      ∧ CalculateAdjacent g "right" = Except.ok r
      ∧ CalculateAdjacent g "bottom" = Except.ok b
      ∧ CalculateAdjacent g "left" = Except.ok l
      ∧ CalculateAdjacent t "right" = Except.ok tr
      ∧ CalculateAdjacent t "left" = Except.ok tl
      ∧ CalculateAdjacent b "right" = Except.ok br
      ∧ CalculateAdjacent b "left" = Except.ok bl
      ∧ vs = [t, tr, tl, r, b, br, bl, l] := by
  simp only [CalculateAllAdjacent, List.foldlM_cons, List.foldlM_nil, allAdjacentStep] at hr
  cases ht : CalculateAdjacent g "top" with
  | error e => rw [ht] at hr; cases hr
  | ok t =>
    rw [ht, ok_bind] at hr
    simp only [true_or, if_true] at hr
    cases htr : CalculateAdjacent t "right" with
    | error e => rw [htr] at hr; cases hr
    | ok tr =>
      rw [htr, ok_bind] at hr
      cases htl : CalculateAdjacent t "left" with
      | error e => rw [htl] at hr; cases hr
      | ok tl =>
        rw [htl, ok_bind, pure_eq_ok, ok_bind] at hr
        cases hrr : CalculateAdjacent g "right" with
        | error e => rw [hrr] at hr; cases hr
        | ok r =>
          rw [hrr, ok_bind] at hr
          rw [if_neg (by decide), pure_eq_ok, ok_bind] at hr
          cases hb : CalculateAdjacent g "bottom" with
          | error e => rw [hb] at hr; cases hr
          | ok b =>
            rw [hb, ok_bind] at hr
            simp only [or_true, if_true] at hr
            cases hbr : CalculateAdjacent b "right" with
            | error e => rw [hbr] at hr; cases hr
            | ok br =>
              rw [hbr, ok_bind] at hr
              cases hbl : CalculateAdjacent b "left" with
              | error e => rw [hbl] at hr; cases hr
              | ok bl =>
                rw [hbl, ok_bind, pure_eq_ok, ok_bind] at hr
                cases hl : CalculateAdjacent g "left" with
                | error e => rw [hl] at hr; cases hr
                | ok l =>
                  rw [hl, ok_bind] at hr
                  rw [if_neg (by decide), pure_eq_ok, ok_bind, pure_eq_ok] at hr
                  injection hr with hr
                  exact ⟨t, r, b, l, tr, tl, br, bl, rfl, rfl, rfl, rfl, htr, htl, hbr, hbl,
                    by rw [← hr]; simp⟩

theorem C8_all_adjacent_order_witness :
    CalculateAllAdjacent "dr".toList
        = Except.ok ["f2".toList, "f8".toList, "f0".toList, "dx".toList,
                     "dq".toList, "dw".toList, "dn".toList, "dp".toList]
    ∧ ∃ t r b l tr tl br bl,
      CalculateAdjacent "dr".toList "top" = Except.ok t
      ∧ CalculateAdjacent "dr".toList "right" = Except.ok r
      ∧ CalculateAdjacent "dr".toList "bottom" = Except.ok b
      ∧ CalculateAdjacent "dr".toList "left" = Except.ok l
      ∧ CalculateAdjacent t "right" = Except.ok tr
      ∧ CalculateAdjacent t "left" = Except.ok tl
      ∧ CalculateAdjacent b "right" = Except.ok br
      ∧ CalculateAdjacent b "left" = Except.ok bl
      ∧ ["f2".toList, "f8".toList, "f0".toList, "dx".toList,
         "dq".toList, "dw".toList, "dn".toList, "dp".toList] = [t, tr, tl, r, b, br, bl, l] :=
  ⟨allAdjacent_dr, C8_all_adjacent_order "dr".toList _ allAdjacent_dr⟩

/-- C10 (counterexample). After lower-casing, `"!d"` contains `'!'`, which is
outside the alphabet, yet `CalculateAdjacent "!d" "top"` returns `"!e"`. -/
theorem C10_counterexample :
    '!' ∈ toLower "!d".toList ∧ '!' ∉ base32
    ∧ CalculateAdjacent "!d".toList "top" = Except.ok "!e".toList := by
  refine ⟨by decide, by decide, ?_⟩
  rw [CalculateAdjacent_eq_rev]
  decide

/-- C10 (amended). Let `c` be a character of the lower-cased input all of
whose successors are border characters of the direction at their depth, so
that the carry recursion arrives at `c` (the last character is such a `c`).
If `c` is outside the alphabet, `CalculateAdjacent` fails with index out of
range. If `c` is an alphabet character that is not a border character, the
carry stops there and `CalculateAdjacent` returns a string that starts with
the lower-cased characters before `c`, which are not examined: an invalid
character among them does not make the call fail. This holds for input bytes
of any kind and for every lower-casing function `lower` that is idempotent and
lower-cases a final ASCII byte on its own, as `strings.ToLower` does; with the
byte-wise `toLower` the function is `CalculateAdjacent`. -/
theorem C10_invalid_char_reached (lower : GoString → GoString)
    (h1 : ∀ (t : GoString) (a : Char), a.toNat < 128 →
      lower (t ++ [a]) = lower t ++ [a.toLower])
    (h2 : ∀ t : GoString, lower (lower t) = lower t)
    (s pre suf : GoString) (c : Char) (dir : String) (fuel : Nat)
    (hs : lower s = pre ++ [c] ++ suf) (hfuel : suf.length < fuel)
    (hsuf : ∀ (i : Nat) (hi : i < suf.length),
      isBorder (dirIndex dir) (((pre.length + 1 + i + 1 : Nat) : Int) % 2)
        (suf.get ⟨i, hi⟩) = true) :
    (c ∉ base32 →
      CalculateAdjacentWith lower fuel s dir = some (Except.error Fault.indexRange))
    ∧ (c ∈ base32 →
        isBorder (dirIndex dir) (((pre.length + 1 : Nat) : Int) % 2) c = false →
        ∃ t, CalculateAdjacentWith lower fuel s dir = some (Except.ok (pre ++ t))
          ∧ t.length = suf.length + 1)
    ∧ (s.length < fuel →
        CalculateAdjacentWith toLower fuel s dir = some (CalculateAdjacent s dir)) :=
  ⟨(adjacentWith_reached lower h1 h2 pre c dir suf s fuel hs hfuel hsuf).1,
    (adjacentWith_reached lower h1 h2 pre c dir suf s fuel hs hfuel hsuf).2,
    CalculateAdjacentWith_toLower dir fuel s⟩

theorem C10_invalid_char_reached_witness :
    (∀ (t : GoString) (a : Char), a.toNat < 128 →
      toLower (t ++ [a]) = toLower t ++ [a.toLower])
    ∧ (∀ t : GoString, toLower (toLower t) = toLower t)
    ∧ toLower "D!Z".toList = "d".toList ++ ['!'] ++ "z".toList
    ∧ toLower "!DZ".toList = "!".toList ++ ['d'] ++ "z".toList
    ∧ (∀ (i : Nat) (hi : i < "z".toList.length),
      isBorder (dirIndex "top") (((("d".toList).length + 1 + i + 1 : Nat) : Int) % 2)
        ("z".toList.get ⟨i, hi⟩) = true)
    ∧ '!' ∉ base32
    ∧ CalculateAdjacentWith toLower 4 "D!Z".toList "top"
        = some (Except.error Fault.indexRange)
    ∧ CalculateAdjacent "D!Z".toList "top" = Except.error Fault.indexRange
    ∧ 'd' ∈ base32
    ∧ isBorder (dirIndex "top") (((("!".toList).length + 1 : Nat) : Int) % 2) 'd' = false
    ∧ (∃ t, CalculateAdjacentWith toLower 4 "!DZ".toList "top"
        = some (Except.ok ("!".toList ++ t)) ∧ t.length = "z".toList.length + 1)
    ∧ CalculateAdjacentWith toLower 4 "!DZ".toList "top"
        = some (CalculateAdjacent "!DZ".toList "top") :=
  ⟨fun t a _ => toLower_append t a, toLower_idem, by decide, by decide, by decide, by decide,
    (C10_invalid_char_reached toLower (fun t a _ => toLower_append t a) toLower_idem
      "D!Z".toList "d".toList "z".toList '!' "top" 4 (by decide) (by decide) (by decide)).1
      (by decide),
    Option.some.inj (((C10_invalid_char_reached toLower (fun t a _ => toLower_append t a)
      toLower_idem "D!Z".toList "d".toList "z".toList '!' "top" 4 (by decide) (by decide)
      (by decide)).2.2 (by decide)).symm.trans
      ((C10_invalid_char_reached toLower (fun t a _ => toLower_append t a) toLower_idem
      "D!Z".toList "d".toList "z".toList '!' "top" 4 (by decide) (by decide) (by decide)).1
      (by decide))),
    by decide, by decide,
    (C10_invalid_char_reached toLower (fun t a _ => toLower_append t a) toLower_idem
      "!DZ".toList "!".toList "z".toList 'd' "top" 4 (by decide) (by decide) (by decide)).2.1
      (by decide) (by decide),
    (C10_invalid_char_reached toLower (fun t a _ => toLower_append t a) toLower_idem
      "!DZ".toList "!".toList "z".toList 'd' "top" 4 (by decide) (by decide) (by decide)).2.2
      (by decide)⟩

/-- C11. Carry past the first character: for every direction and every
string `g` of length at least 1 over the lowercase alphabet,
`CalculateAdjacent g d` fails with the out-of-bounds slice of the empty string
if and only if every character of `g` is a border character for its depth
(character `i` occurs in `borders[dirInt][i mod 2]`, counting from 1); in
every other case it returns a string; in particular it fails for a
one-character geohash whose character is in `borders[dirInt][1]`; the empty
input fails too. -/
theorem C11_carry_past_first (g : GoString) (dir : String)
    (hne : g ≠ []) (hg : ∀ c ∈ g, c ∈ base32) :
    (CalculateAdjacent g dir = Except.error Fault.sliceBounds
      ↔ ∀ (i : Nat) (hi : i < g.length),
          isBorder (dirIndex dir) (((i + 1 : Nat) : Int) % 2) (g.get ⟨i, hi⟩) = true)
    ∧ ((¬ ∀ (i : Nat) (hi : i < g.length),
          isBorder (dirIndex dir) (((i + 1 : Nat) : Int) % 2) (g.get ⟨i, hi⟩) = true)
        → ∃ h, CalculateAdjacent g dir = Except.ok h)
    ∧ (∀ c ∈ base32, isBorder (dirIndex dir) 1 c = true →
        CalculateAdjacent [c] dir = Except.error Fault.sliceBounds)
    ∧ CalculateAdjacent [] dir = Except.error Fault.sliceBounds := by
  have _ := hne
  obtain ⟨h1, h2⟩ := adjacent_outcome dir g hg
  refine ⟨⟨fun he => ?_, h1⟩, h2, ?_, CalculateAdjacent_nil dir⟩
  · by_contra hn
    obtain ⟨h, hh⟩ := h2 hn
    rw [hh] at he
    cases he
  · intro c hc hb
    refine (adjacent_outcome dir [c] (by simpa using hc)).1 ?_
    intro i hi
    have e : i = 0 := by simpa using hi
    subst e
    exact hb

theorem C11_carry_past_first_witness :
    "zz".toList ≠ [] ∧ (∀ c ∈ "zz".toList, c ∈ base32)
    ∧ (CalculateAdjacent "zz".toList "top" = Except.error Fault.sliceBounds
      ↔ ∀ (i : Nat) (hi : i < "zz".toList.length),
          isBorder (dirIndex "top") (((i + 1 : Nat) : Int) % 2) ("zz".toList.get ⟨i, hi⟩) = true)
    ∧ CalculateAdjacent "zz".toList "top" = Except.error Fault.sliceBounds
    ∧ CalculateAdjacent "z".toList "top" = Except.error Fault.sliceBounds :=
  ⟨by decide, by decide, (C11_carry_past_first "zz".toList "top" (by decide) (by decide)).1,
    by rw [CalculateAdjacent_eq_rev]; decide,
    (C11_carry_past_first "zz".toList "top" (by decide) (by decide)).2.2.1 'z' (by decide)
      (by decide)⟩

/-- C13. `CalculateAdjacent` preserves length: for every non-empty geohash
`g` over the lowercase alphabet and every direction, whenever
`CalculateAdjacent g d` returns a string, that string has the length of `g`
and consists only of characters of the 32-character alphabet. -/
theorem C13_adjacent_length (g h : GoString) (dir : String)
    (hne : g ≠ []) (hg : ∀ c ∈ g, c ∈ base32)
    (hr : CalculateAdjacent g dir = Except.ok h) :
    h.length = g.length ∧ ∀ c ∈ h, c ∈ base32 := by
  have _ := hne
  obtain ⟨hv, hl⟩ := adjacent_valid_length dir g h hg hr
  exact ⟨hl, hv⟩

theorem C13_adjacent_length_witness :
    "dr12".toList ≠ [] ∧ (∀ c ∈ "dr12".toList, c ∈ base32)
    ∧ CalculateAdjacent "dr12".toList "left" = Except.ok "dr10".toList
    ∧ "dr10".toList.length = "dr12".toList.length ∧ ∀ c ∈ "dr10".toList, c ∈ base32 :=
  ⟨by decide, by decide, by rw [CalculateAdjacent_eq_rev]; decide,
    C13_adjacent_length "dr12".toList "dr10".toList "left" (by decide) (by decide)
      (by rw [CalculateAdjacent_eq_rev]; decide)⟩

/-- C14. Unrecognized direction defaults to top: for every geohash `g` and
every direction string `d` that is not exactly `"right"`, `"bottom"` or
`"left"` (so also `""`, `"Top"`, `"RIGHT"`), `CalculateAdjacent g d` has the
same outcome as `CalculateAdjacent g "top"`, carry steps included. -/
theorem C14_default_direction (g : GoString) (dir : String)
    (h1 : dir ≠ "right") (h2 : dir ≠ "bottom") (h3 : dir ≠ "left") :
    CalculateAdjacent g dir = CalculateAdjacent g "top" := by
  rw [CalculateAdjacent_eq_rev dir g, CalculateAdjacent_eq_rev "top" g,
    dirIndex_default dir h1 h2 h3]

theorem C14_default_direction_witness :
    "RIGHT" ≠ "right" ∧ "RIGHT" ≠ "bottom" ∧ "RIGHT" ≠ "left"
    ∧ CalculateAdjacent "dr12".toList "RIGHT" = CalculateAdjacent "dr12".toList "top" :=
  ⟨by decide, by decide, by decide,
    C14_default_direction "dr12".toList "RIGHT" (by decide) (by decide) (by decide)⟩

/-- C15. `CalculateAdjacent` is case-insensitive on its geohash argument: for
every ASCII string `g` and every direction, `CalculateAdjacent g d` has the
same outcome as `CalculateAdjacent (toLower g) d`, and any string it returns
is entirely lowercase (it has no byte in `'A'..'Z'`). -/
theorem C15_case_insensitive (g : GoString) (dir : String)
    (hascii : ∀ c ∈ g, c.toNat < 128) :
    CalculateAdjacent g dir = CalculateAdjacent (toLower g) dir
    ∧ ∀ h, CalculateAdjacent g dir = Except.ok h →
        ∀ c ∈ h, ¬ (65 ≤ c.toNat ∧ c.toNat ≤ 90) := by
  have _ := hascii
  exact ⟨(CalculateAdjacent_toLower g dir).symm, adjacent_lowercase dir g⟩

theorem C15_case_insensitive_witness :
    (∀ c ∈ "DR12".toList, c.toNat < 128)
    ∧ toLower "DR12".toList = "dr12".toList
    ∧ CalculateAdjacent "DR12".toList "top" = CalculateAdjacent (toLower "DR12".toList) "top"
    ∧ ∀ h, CalculateAdjacent "DR12".toList "top" = Except.ok h →
        ∀ c ∈ h, ¬ (65 ≤ c.toNat ∧ c.toNat ≤ 90) :=
  ⟨by decide, by decide, C15_case_insensitive "DR12".toList "top" (by decide)⟩

/-- C16 (counterexample). At precision 22 the `float64` encoder separates
latitude 95 from latitude 90: the last latitude interval has shrunk to the
single value 90, which 95 exceeds and 90 does not, so the two results end in
`'z'` and in `'y'`. -/
theorem C16_counterexample :
    f64OfInt 90 ≤ f64OfInt 95
    ∧ EncodeWithPrecision64 (f64OfInt 95) (f64OfInt 10) 22
        = Except.ok "upzpgxczbzurypzpgxczbz".toList
    ∧ EncodeWithPrecision64 (f64OfInt 90) (f64OfInt 10) 22
        = Except.ok "upzpgxczbzurypzpgxczby".toList
    ∧ EncodeWithPrecision64 (f64OfInt 95) (f64OfInt 10) 22
        ≠ EncodeWithPrecision64 (f64OfInt 90) (f64OfInt 10) 22 := by
  rw [EncodeWithPrecision64_eq, EncodeWithPrecision64_eq]
  decide!

/-- C16 (amended). Out-of-range coordinates saturate instead of failing: with
coordinates any `float64` values, `EncodeWithPrecision64 lat lng p` equals
`EncodeWithPrecision64 90 lng p` when `lat ≥ 90` and `p ≤ 21`, and
`EncodeWithPrecision64 (-90) lng p` when `lat ≤ -90`, for every `p`; likewise
it equals `EncodeWithPrecision64 lat 180 p` when `lng ≥ 180` and `p ≤ 21`, and
`EncodeWithPrecision64 lat (-180) p` when `lng ≤ -180`, for every `p`; and no
input makes the encoder fail. -/
theorem C16_saturation (latitude longitude : Int) (p : Int) :
    (f64OfInt 90 ≤ latitude → p ≤ 21 →
      EncodeWithPrecision64 latitude longitude p
        = EncodeWithPrecision64 (f64OfInt 90) longitude p)
    ∧ (latitude ≤ f64OfInt (-90) →
      EncodeWithPrecision64 latitude longitude p
        = EncodeWithPrecision64 (f64OfInt (-90)) longitude p)
    ∧ (f64OfInt 180 ≤ longitude → p ≤ 21 →
      EncodeWithPrecision64 latitude longitude p
        = EncodeWithPrecision64 latitude (f64OfInt 180) p)
    ∧ (longitude ≤ f64OfInt (-180) →
      EncodeWithPrecision64 latitude longitude p
        = EncodeWithPrecision64 latitude (f64OfInt (-180)) p)
    ∧ ∃ g, EncodeWithPrecision64 latitude longitude p = Except.ok g :=
  ⟨fun h hp => encode64_lat_high _ _ _ _ hp h (le_refl _),
    fun h => encode64_lat_low _ _ _ _ h (le_refl _),
    fun h hp => encode64_lng_high _ _ _ _ hp h (le_refl _),
    fun h => encode64_lng_low _ _ _ _ h (le_refl _),
    ⟨_, EncodeWithPrecision64_eq latitude longitude p⟩⟩

theorem C16_saturation_witness :
    f64OfInt 90 ≤ f64OfInt 95 ∧ (3 : Int) ≤ 21
    ∧ EncodeWithPrecision64 (f64OfInt 95) (f64OfInt (-200)) 3
        = EncodeWithPrecision64 (f64OfInt 90) (f64OfInt (-200)) 3
    ∧ f64OfInt (-200) ≤ f64OfInt (-180)
    ∧ EncodeWithPrecision64 (f64OfInt 95) (f64OfInt (-200)) 3
        = EncodeWithPrecision64 (f64OfInt 95) (f64OfInt (-180)) 3 :=
  ⟨by decide!, by decide,
    (C16_saturation (f64OfInt 95) (f64OfInt (-200)) 3).1 (by decide!) (by decide), by decide!,
    (C16_saturation (f64OfInt 95) (f64OfInt (-200)) 3).2.2.2.1 (by decide!)⟩

/-- C17 (counterexample). The north-east corner of the box of the empty
geohash is `(90, 180)`; at precision 22 the `float64` encoder maps it to
`"zzzzzzzzzzzzzzzzzzzzzw"`, not to 22 copies of `'z'`. -/
theorem C17_counterexample :
    (∀ c ∈ ([] : GoString), c ∈ base32) ∧ ((([] : GoString).length : Nat) : Int) ≤ 22
    ∧ ∃ B, Decode64 [] = Except.ok B
        ∧ EncodeWithPrecision64 B.ne.lat B.ne.lng 22
            = Except.ok "zzzzzzzzzzzzzzzzzzzzzw".toList
        ∧ EncodeWithPrecision64 B.ne.lat B.ne.lng 22
            ≠ Except.ok ([] ++ List.replicate ((22 : Int).toNat - ([] : GoString).length) 'z') := by
  refine ⟨by decide, by decide, boxOf64 (decodeFold64 []), Decode64_eq _, ?_⟩
  rw [EncodeWithPrecision64_eq]
  decide!

/-- C17 (amended). Boundary tie-break of the encoder: a coordinate goes to the
upper half only when strictly greater than the midpoint, so a point on a
cell's north-east corner encodes into that cell: for every string `g` of
length `n` over the lowercase alphabet and every precision `p` with
`n ≤ p ≤ 21`, `EncodeWithPrecision64 (Decode64 g).ne.lat (Decode64 g).ne.lng p`
is `g` followed by `p - n` copies of `'z'`; for instance
`Encode64 39.55078125 (-76.640625)` is `"dr12zzzzzzzz"`. -/
theorem C17_corner_tie_break :
    (∀ (g : GoString) (p : Int), (∀ c ∈ g, c ∈ base32) → (g.length : Int) ≤ p → p ≤ 21 →
      ∃ B, Decode64 g = Except.ok B
        ∧ EncodeWithPrecision64 B.ne.lat B.ne.lng p
            = Except.ok (g ++ List.replicate (p.toNat - g.length) 'z'))
    ∧ f64ToRat (10125 * 2 ^ 1066) = 39.55078125 ∧ f64ToRat (-4905 * 2 ^ 1068) = -76.640625
    ∧ Encode64 (10125 * 2 ^ 1066) (-4905 * 2 ^ 1068) = Except.ok "dr12zzzzzzzz".toList := by
  refine ⟨fun g p hg hp h21 =>
    ⟨boxOf64 (decodeFold64 g), Decode64_eq g, encode64_corner g p hg hp h21⟩, ?_, ?_, ?_⟩
  · have h1 : (2 : ℚ) ^ 1074 = 2 ^ 8 * 2 ^ 1066 := by rw [← pow_add]
    have h2 : (2 : ℚ) ^ 1066 ≠ 0 := by positivity
    simp only [f64ToRat, Int.cast_mul, Int.cast_pow, Int.cast_ofNat, Int.cast_neg]
    rw [h1]
    generalize (2 : ℚ) ^ 1066 = u at h2 ⊢
    field_simp
    ring
  · have h1 : (2 : ℚ) ^ 1074 = 2 ^ 6 * 2 ^ 1068 := by rw [← pow_add]
    have h2 : (2 : ℚ) ^ 1068 ≠ 0 := by positivity
    simp only [f64ToRat, Int.cast_mul, Int.cast_pow, Int.cast_ofNat, Int.cast_neg]
    rw [h1]
    generalize (2 : ℚ) ^ 1068 = u at h2 ⊢
    field_simp
    ring
  · have h := encode64_corner "dr12".toList 12 (by decide) (by decide) (by decide)
    have e1 : (decodeFold64 "dr12".toList).lat.2 = 10125 * 2 ^ 1066 := by decide!
    have e2 : (decodeFold64 "dr12".toList).lng.2 = -4905 * 2 ^ 1068 := by decide!
    rw [e1, e2] at h
    exact h

theorem C17_corner_tie_break_witness :
    (∀ c ∈ "d".toList, c ∈ base32) ∧ (("d".toList.length : Nat) : Int) ≤ 3 ∧ (3 : Int) ≤ 21
    ∧ ∃ B, Decode64 "d".toList = Except.ok B
        ∧ EncodeWithPrecision64 B.ne.lat B.ne.lng 3
            = Except.ok ("d".toList ++ List.replicate ((3 : Int).toNat - "d".toList.length) 'z') :=
  ⟨by decide, by decide, by decide,
    C17_corner_tie_break.1 "d".toList 3 (by decide) (by decide) (by decide)⟩

/-- C18 (counterexample). The two 22-character geohashes
`"zzzzzzzzzzzzzzzzzzzz01"` and `"zzzzzzzzzzzzzzzzzzzz04"` over the alphabet
are different, yet `Decode64` returns the same box for both; and the `float64`
centre of the box of the 21-character geohash `"xxxxxxxxxxxxxxxxxxxxx"` is
encoded at precision 21 to `"xxxxxxxxxxxxxxxxxxxxw"`. -/
theorem C18_counterexample :
    (∀ c ∈ "zzzzzzzzzzzzzzzzzzzz01".toList, c ∈ base32)
    ∧ (∀ c ∈ "zzzzzzzzzzzzzzzzzzzz04".toList, c ∈ base32)
    ∧ "zzzzzzzzzzzzzzzzzzzz01".toList.length = "zzzzzzzzzzzzzzzzzzzz04".toList.length
    ∧ Decode64 "zzzzzzzzzzzzzzzzzzzz01".toList = Decode64 "zzzzzzzzzzzzzzzzzzzz04".toList
    ∧ "zzzzzzzzzzzzzzzzzzzz01".toList ≠ "zzzzzzzzzzzzzzzzzzzz04".toList
    ∧ (∀ c ∈ List.replicate 21 'x', c ∈ base32)
    ∧ ∃ B, Decode64 (List.replicate 21 'x') = Except.ok B
        ∧ EncodeWithPrecision64 B.center.lat B.center.lng
            (((List.replicate 21 'x').length : Nat) : Int)
          = Except.ok "xxxxxxxxxxxxxxxxxxxxw".toList := by
  refine ⟨by decide, by decide, by decide, ?_, by decide, by decide,
    boxOf64 (decodeFold64 (List.replicate 21 'x')), Decode64_eq _, ?_⟩
  · rw [Decode64_eq, Decode64_eq]
    decide!
  · rw [EncodeWithPrecision64_eq]
    decide!

/-- C18 (amended). Encode undoes Decode at the cell centre: for every string
`g` of length `n` over the lowercase 32-character alphabet, with `c` the centre
of the box of `g`, encoding `c` at precision `n` returns `g`, in exact
arithmetic for every `n` and in `float64` for `n ≤ 20`; and `Decode64` is
injective on geohashes over the alphabet of a given length `n ≤ 21`. -/
theorem C18_encode_centre :
    (∀ g : GoString, (∀ c ∈ g, c ∈ base32) →
      ∃ B, Decode g = Except.ok B
        ∧ EncodeWithPrecision B.center.lat B.center.lng (g.length : Int) = Except.ok g)
    ∧ (∀ g : GoString, (∀ c ∈ g, c ∈ base32) → g.length ≤ 20 →
      ∃ B, Decode64 g = Except.ok B
        ∧ EncodeWithPrecision64 B.center.lat B.center.lng (g.length : Int) = Except.ok g)
    ∧ (∀ g1 g2 : GoString, (∀ c ∈ g1, c ∈ base32) → (∀ c ∈ g2, c ∈ base32) →
        g1.length = g2.length → g1.length ≤ 21 → Decode64 g1 = Decode64 g2 → g1 = g2) := by
  refine ⟨?_, ?_, ?_⟩
  · intro g hg
    refine ⟨boxOf (decodeFold g), Decode_eq g, ?_⟩
    obtain ⟨n1, n2⟩ := decodeFold_lt g
    have hin : Inside (boxOf (decodeFold g)).center.lat (boxOf (decodeFold g)).center.lng
        (decodeFold g) := by
      simp only [boxOf, Inside]
      refine ⟨⟨?_, ?_⟩, ⟨?_, ?_⟩⟩ <;> linarith
    have h := encode_of_inside _ _ g 0 hg hin
    rw [Nat.add_zero] at h
    rw [h]
    simp [encChars]
  · intro g hg h20
    exact ⟨boxOf64 (decodeFold64 g), Decode64_eq g, encode64_centre g hg h20⟩
  · intro g1 g2 h1 h2 hl h21 he
    rw [Decode64_eq, Decode64_eq] at he
    injection he with he
    have a1 := congrArg (fun b : BoundingBox64 => b.sw.lat) he
    have a2 := congrArg (fun b : BoundingBox64 => b.ne.lat) he
    have a3 := congrArg (fun b : BoundingBox64 => b.sw.lng) he
    have a4 := congrArg (fun b : BoundingBox64 => b.ne.lng) he
    simp only [boxOf64] at a1 a2 a3 a4
    exact decodeFold64_injective g1 g2 h1 h2 hl h21 (Prod.ext a1 a2) (Prod.ext a3 a4)

theorem C18_encode_centre_witness :
    (∀ c ∈ "dr".toList, c ∈ base32) ∧ "dr".toList.length ≤ 20
    ∧ ∃ B, Decode64 "dr".toList = Except.ok B
        ∧ EncodeWithPrecision64 B.center.lat B.center.lng (("dr".toList.length : Nat) : Int)
            = Except.ok "dr".toList :=
  ⟨by decide, by decide, C18_encode_centre.2.1 "dr".toList (by decide) (by decide)⟩

/-- C19. Diagonal neighbours do not depend on the order of the two moves:
for every non-empty geohash `g` over the lowercase alphabet, every vertical
direction `v` (top, bottom) and every horizontal direction `h` (right, left),
whenever both compositions return a string,
`CalculateAdjacent (CalculateAdjacent g v) h` equals
`CalculateAdjacent (CalculateAdjacent g h) v`; so the diagonals that
`CalculateAllAdjacent` computes as the right/left neighbours of top/bottom
(entries 1, 2, 5, 6 of its result) equal the top/bottom neighbours of
right/left. -/
theorem C19_diagonals_commute (g : GoString) (hne : g ≠ []) (hg : ∀ c ∈ g, c ∈ base32) :
    (∀ (v h : String) (t r a b : GoString),
      v ∈ ["top", "bottom"] → h ∈ ["right", "left"] →
      CalculateAdjacent g v = Except.ok t → CalculateAdjacent t h = Except.ok a →
      CalculateAdjacent g h = Except.ok r → CalculateAdjacent r v = Except.ok b →
      a = b)
    ∧ (∀ vs : List GoString, CalculateAllAdjacent g = Except.ok vs →
        ∀ (v h : String) (r x : GoString),
          v ∈ ["top", "bottom"] → h ∈ ["right", "left"] →
          CalculateAdjacent g h = Except.ok r → CalculateAdjacent r v = Except.ok x →
          vs.get? ((if v = "top" then 1 else 5) + (if h = "right" then 0 else 1)) = some x) := by
  have _ := hne
  have main : ∀ (v h : String) (t r a b : GoString),
      v ∈ ["top", "bottom"] → h ∈ ["right", "left"] →
      CalculateAdjacent g v = Except.ok t → CalculateAdjacent t h = Except.ok a →
      CalculateAdjacent g h = Except.ok r → CalculateAdjacent r v = Except.ok b →
      a = b :=
    fun v h t r a b hv hh h1 h2 h3 h4 => diagonal_commute g t r a b v h hg hv hh h1 h2 h3 h4
  refine ⟨main, ?_⟩
  intro vs hvs v h r x hv hh h3 h4
  obtain ⟨t, r', b, l, tr, tl, br, bl, e1, e2, e3, e4, e5, e6, e7, e8, e9⟩ :=
    allAdjacent_entries g vs hvs
  subst e9
  simp only [List.mem_cons, List.mem_singleton, List.not_mem_nil, or_false] at hv hh
  rcases hv with ev | ev <;> rcases hh with eh | eh <;> subst ev <;> subst eh
  · rw [main "top" "right" t r tr x (by decide) (by decide) e1 e5 h3 h4]; rfl
  · rw [main "top" "left" t r tl x (by decide) (by decide) e1 e6 h3 h4]; rfl
  · rw [main "bottom" "right" b r br x (by decide) (by decide) e3 e7 h3 h4]; rfl
  · rw [main "bottom" "left" b r bl x (by decide) (by decide) e3 e8 h3 h4]; rfl

theorem C19_diagonals_commute_witness :
    "dr".toList ≠ [] ∧ (∀ c ∈ "dr".toList, c ∈ base32)
    ∧ "top" ∈ ["top", "bottom"] ∧ "right" ∈ ["right", "left"]
    ∧ CalculateAdjacent "dr".toList "top" = Except.ok "f2".toList
    ∧ CalculateAdjacent "f2".toList "right" = Except.ok "f8".toList
    ∧ CalculateAdjacent "dr".toList "right" = Except.ok "dx".toList
    ∧ CalculateAdjacent "dx".toList "top" = Except.ok "f8".toList
    ∧ "f8".toList = "f8".toList :=
  ⟨by decide, by decide, by decide, by decide,
    by rw [CalculateAdjacent_eq_rev]; decide, by rw [CalculateAdjacent_eq_rev]; decide,
    by rw [CalculateAdjacent_eq_rev]; decide, by rw [CalculateAdjacent_eq_rev]; decide,
    (C19_diagonals_commute "dr".toList (by decide) (by decide)).1 "top" "right"
      "f2".toList "dx".toList "f8".toList "f8".toList (by decide) (by decide)
      (by rw [CalculateAdjacent_eq_rev]; decide) (by rw [CalculateAdjacent_eq_rev]; decide)
      (by rw [CalculateAdjacent_eq_rev]; decide) (by rw [CalculateAdjacent_eq_rev]; decide)⟩

end Geohash
